import Mathlib

/-!
Verification of the AMPL-style .dat parser in src/dat_to_json.py
(function parse_dat and its helpers, plus the JSON serialization used by
dat_to_json).

The embedding works on lists of characters (a Python str is modelled as
List Char, a file as the list of its lines, as produced by splitlines()).
Python floats are modelled as exact decimal values: a successful
float(s) is an exact sign/mantissa/exponent triple (or an infinity/nan),
since the parser only ever parses and re-prints numbers and never does
arithmetic on them.  Whitespace and the character classes of the regexes
are modelled as their ASCII parts (the input files are ASCII).
-/

namespace PortOpt

/-- A Python string, as its list of characters. -/
abbrev Str := List Char

/-- Whitespace recognised by str.strip / str.split (ASCII part). -/
def isWsC (c : Char) : Bool :=
  c == ' ' || c == '\t' || c == '\n' || c == '\r' ||
  c == Char.ofNat 11 || c == Char.ofNat 12

/-- Python str.strip(): remove leading and trailing whitespace. -/
def pyStrip (s : Str) : Str :=
  ((s.dropWhile isWsC).reverse.dropWhile isWsC).reverse

/-- The helper _strip_comments: everything from the first '#' on is
removed (line.split("#", 1)[0]) and the result is stripped. -/
def stripComments (s : Str) : Str :=
  pyStrip (s.takeWhile (fun c => c ≠ '#'))

/-- Python s.replace("\t", " "). -/
def tabToSp (s : Str) : Str :=
  s.map (fun c => if c = '\t' then ' ' else c)

/-- Python s.replace(";", " "). -/
def semiToSp (s : Str) : Str :=
  s.map (fun c => if c = ';' then ' ' else c)

/-- Python s.replace(":=", " := "): left-to-right, non-overlapping. -/
def replAssign : Str → Str
  | ':' :: '=' :: r => ' ' :: ':' :: '=' :: ' ' :: replAssign r
  | c :: r => c :: replAssign r
  | [] => []

/-- Python s.replace(";", " ; "). -/
def replSemiTok : Str → Str
  | ';' :: r => ' ' :: ';' :: ' ' :: replSemiTok r
  | c :: r => c :: replSemiTok r
  | [] => []

/-- Helper for wsSplit, carrying the reversed current token. -/
def wsSplitAux : Str → Str → List Str
  | acc, [] => if acc.isEmpty then [] else [acc.reverse]
  | acc, c :: cs =>
      if isWsC c then
        if acc.isEmpty then wsSplitAux [] cs else acc.reverse :: wsSplitAux [] cs
      else wsSplitAux (c :: acc) cs

/-- Python s.split() with no argument: split on whitespace runs, no
empty tokens. -/
def wsSplit (s : Str) : List Str := wsSplitAux [] s

/-- Python " ".join(xs). -/
def joinSp : List Str → Str
  | [] => []
  | [x] => x
  | x :: y :: xs => x ++ ' ' :: joinSp (y :: xs)

/-- The prefix of s before the first occurrence of ":=", the whole of s
when there is none: Python s.split(":=", 1)[0] (and s.split(":=")[0]). -/
def beforeAssign : Str → Str
  | ':' :: '=' :: _ => []
  | c :: r => c :: beforeAssign r
  | [] => []

/-- Test for a string occurring as a contiguous substring (Python
nd in s). -/
def strContains (nd : Str) : Str → Bool
  | [] => nd.isEmpty
  | c :: t => nd.isPrefixOf (c :: t) || strContains nd t

/-- Test for ":=" occurring in s (Python ":=" in s). -/
def hasAssign (s : Str) : Bool := strContains [':', '='] s

/-- Split at the first ':' (Python s.split(":", 1) when it succeeds);
none when there is no ':' (where Python unpacking would raise). -/
def splitColon : Str → Option (Str × Str)
  | ':' :: r => some ([], r)
  | c :: r => (splitColon r).map (fun p => (c :: p.1, p.2))
  | [] => none

/-- Index of the first occurrence of a token in a token list
(Python list.index, as an Option). -/
def idxOfTok (t : Str) : List Str → Option Nat
  | [] => none
  | x :: xs => if x = t then some 0 else (idxOfTok t xs).map (· + 1)

/-! ### Python float() on a string, as exact decimal values -/

/-- Continuation of a digit run: Python permits single underscores
between digits of a digit part. -/
def digTail : Str → (List Char × Str)
  | '_' :: d :: r =>
      if d.isDigit then
        let p := digTail r
        (d :: p.1, p.2)
      else ([], '_' :: d :: r)
  | d :: r =>
      if d.isDigit then
        let p := digTail r
        (d :: p.1, p.2)
      else ([], d :: r)
  | [] => ([], [])

/-- A digit part (at least one digit, single underscores allowed between
digits); none when the input does not start with a digit. -/
def digRun (s : Str) : Option (List Char × Str) :=
  match s with
  | d :: r => if d.isDigit then some (d :: (digTail r).1, (digTail r).2) else none
  | [] => none

/-- Digit part or nothing, for the optional integer and fraction parts. -/
def optDigits (s : Str) : (List Char × Str) :=
  match digRun s with
  | some p => p
  | none => ([], s)

/-- Numeric value of a list of decimal digit characters. -/
def natOfDigits (ds : List Char) : Nat :=
  ds.foldl (fun a c => a * 10 + (c.toNat - 48)) 0

/-- The result of a successful Python float(): an exact decimal
sign/mantissa/exponent triple, an infinity, or a nan.  The finite form
is kept canonical: the mantissa has no trailing zero digit, and a zero
mantissa comes with exponent zero. -/
inductive PyFloat where
  | finite (sign : Bool) (mant : Nat) (exp : Int)
  | infty (neg : Bool)
  | nan
deriving DecidableEq, Repr

/-- Build the canonical finite value of sign, digit list and exponent:
trailing zero digits of the mantissa are folded into the exponent. -/
def mkFinite (sign : Bool) (ds : List Char) (e : Int) : PyFloat :=
  let kept := (ds.reverse.dropWhile (fun c => c = '0')).reverse
  if kept.isEmpty then .finite sign 0 0
  else .finite sign (natOfDigits kept) (e + (ds.length - kept.length))

/-- Significand and exponent of a Python float literal, after the sign:
digitpart+, with an optional "." and fraction, then an optional
exponent; the whole remainder must be consumed. -/
def pyFloatBody (sign : Bool) (s : Str) : Option PyFloat :=
  let ip := optDigits s
  let withFrac : Option (List Char × List Char × Str) :=
    match ip.2 with
    | '.' :: r2 =>
        let fp := optDigits r2
        if ip.1.isEmpty ∧ fp.1.isEmpty then none else some (ip.1, fp.1, fp.2)
    | _ => if ip.1.isEmpty then none else some (ip.1, [], ip.2)
  match withFrac with
  | none => none
  | some (ids, fds, r3) =>
      match r3 with
      | [] => some (mkFinite sign (ids ++ fds) (-(fds.length : Int)))
      | c :: r4 =>
          if c = 'e' ∨ c = 'E' then
            let ep : (Bool × Str) :=
              match r4 with
              | '+' :: r5 => (false, r5)
              | '-' :: r5 => (true, r5)
              | r5 => (false, r5)
            match digRun ep.2 with
            | some (eds, r6) =>
                if r6.isEmpty then
                  let ev : Int := if ep.1 then -(natOfDigits eds : Int) else (natOfDigits eds : Int)
                  some (mkFinite sign (ids ++ fds) (ev - (fds.length : Int)))
                else none
            | none => none
          else none

/-- Python float(s): strip, optional sign, then inf/infinity/nan
(case-insensitive) or a decimal literal; none models a ValueError. -/
def pyFloat (s0 : Str) : Option PyFloat :=
  let s := pyStrip s0
  let sp : (Bool × Str) :=
    match s with
    | '+' :: r => (false, r)
    | '-' :: r => (true, r)
    | r => (false, r)
  let low := sp.2.map Char.toLower
  if low = ('i' :: 'n' :: 'f' :: []) ∨ low = ('i' :: 'n' :: 'f' :: 'i' :: 'n' :: 'i' :: 't' :: 'y' :: []) then
    some (.infty sp.1)
  else if low = ('n' :: 'a' :: 'n' :: []) then some .nan
  else pyFloatBody sp.1 sp.2

/-! ### The scalar statement regex -/

/-- ASCII word character, for the regex class \w. -/
def isWordC (c : Char) : Bool := c.isAlpha || c.isDigit || c == '_'

/-- ASCII identifier head, for the regex class [A-Za-z_]. -/
def isIdentHead (c : Char) : Bool := c.isAlpha || c == '_'

/-- Match of the scalar statement regex
param\s+([A-Za-z_]\w*)\s*=\s*([^;]+)\s*;\s*$ against a whole line,
returning the name and the stripped right-hand side (the code strips
group 2 before converting it).  The greedy [^;]+ together with the
backtracking of the surrounding \s* amounts to: take everything strictly
between '=' and the first ';' (at least one character), and require only
whitespace after that ';'. -/
def matchScalar (s : Str) : Option (Str × Str) :=
  if ('p' :: 'a' :: 'r' :: 'a' :: 'm' :: []).isPrefixOf s then
    let r0 := s.drop 5
    match r0 with
    | c :: _ =>
        if isWsC c then
          let r1 := r0.dropWhile isWsC
          match r1 with
        | c1 :: _ =>
            if isIdentHead c1 then
              let ident := r1.takeWhile isWordC
              let r3 := (r1.dropWhile isWordC).dropWhile isWsC
              match r3 with
              | '=' :: r4 =>
                  let v := r4.takeWhile (fun c => c ≠ ';')
                  match r4.dropWhile (fun c => c ≠ ';') with
                  | ';' :: r6 =>
                      if ¬ v.isEmpty ∧ r6.all isWsC then some (ident, pyStrip v)
                      else none
                  | _ => none
              | _ => none
            else none
        | [] => none
        else none
    | [] => none
  else none

/-! ### The output document -/

/-- A parameter value: scalar number, scalar string (fallback of a
failed float()), 1D mapping, or 2D table. -/
inductive PVal where
  | num (f : PyFloat)
  | strv (s : Str)
  | map1 (m : List (Str × PyFloat))
  | map2 (t : List (Str × List (Str × PyFloat)))
deriving DecidableEq, Repr

/-- The parser output: the two insertion-ordered mappings "sets" and
"params" (Python dicts preserve insertion order). -/
structure Doc where
  sets : List (Str × List Str)
  params : List (Str × PVal)
deriving DecidableEq, Repr

/-- Python dict assignment d[k] = v on an insertion-ordered association
list: overwrite in place when the key exists, else append. -/
def upsert {α : Type} (m : List (Str × α)) (k : Str) (v : α) : List (Str × α) :=
  match m with
  | [] => [(k, v)]
  | (k1, v1) :: r => if k1 = k then (k, v) :: r else (k1, v1) :: upsert r k v

/-- Python dict lookup (none models a missing key). -/
def alookup {α : Type} (m : List (Str × α)) (k : Str) : Option α :=
  match m with
  | [] => none
  | (k1, v1) :: r => if k1 = k then some v1 else alookup r k

/-! ### Error messages (the text of the Python exceptions) -/

/-- An ASCII apostrophe, written by code point to keep the source plain. -/
def sq : Char := Char.ofNat 39

/-- Message of the ValueError raised by float(): it names the offending
token but not the file. -/
def floatErrMsg (t : Str) : Str :=
  ("could not convert string to float: ").toList ++ [sq] ++ t ++ [sq]

/-- Message of the explicit raise for a set block without ":=": it names
the file and the joined block text. -/
def malformedSetMsg (fname joined : Str) : Str :=
  ("Malformed set block in ").toList ++ fname ++ (": ").toList ++ joined

/-- Message of the ValueError raised by tokens.index(";") when the set
block has no ";" token. -/
def semiNotInListMsg : Str := [sq, ';', sq] ++ (" is not in list").toList

/-- Message of an IndexError on tokens[1] (unreachable for lines the
scanner recognises, kept for totality). -/
def idxErrMsg : Str := ("list index out of range").toList

/-- Message of the ValueError of unpacking split(":", 1) into two names
when no ":" is present (unreachable in the 2D branch, kept for
totality). -/
def unpackMsg : Str := ("not enough values to unpack").toList

/-- Fuel exhaustion marker; parseDat supplies enough fuel, so this value
is never produced by it. -/
def fuelMsg : Str := ("fuel exhausted").toList

/-! ### Block accumulation and the four statement bodies -/

/-- The block-accumulation loop: starting from the (already stripped)
first line, keep taking raw lines while the last taken line has no ';'.
Returns the extra lines taken and the remaining lines. -/
def collectBlock : Str → List Str → (List Str × List Str)
  | last, ls =>
      if last.contains ';' then ([], ls)
      else
        match ls with
        | [] => ([], [])
        | l :: ls2 =>
            let p := collectBlock l ls2
            (l :: p.1, p.2)

/-- Values of a 2D row, left to right; the first failing float() aborts
with its ValueError. -/
def floatsOf : List Str → Except Str (List PyFloat)
  | [] => .ok []
  | v :: vs =>
      match pyFloat v with
      | some f => (floatsOf vs).map (fun fs => f :: fs)
      | none => .error (floatErrMsg v)

/-- Data lines of a 1D param block (all block lines after the first):
strip comments, skip blanks, turn ';' into spaces, split; a line with at
least two tokens contributes its first token as key and its second as
float value; shorter lines are skipped. -/
def run1D : List (Str × PyFloat) → List Str → Except Str (List (Str × PyFloat))
  | acc, [] => .ok acc
  | acc, l :: ls =>
      let ln := stripComments l
      if ln.isEmpty then run1D acc ls
      else
        let ln2 := if ln.contains ';' then semiToSp ln else ln
        let parts := wsSplit (tabToSp ln2)
        match parts with
        | k :: v :: _ =>
            match pyFloat v with
            | some f => run1D (upsert acc k f) ls
            | none => .error (floatErrMsg v)
        | _ => run1D acc ls

/-- Inner row dictionary of a 2D table: {cols[j]: vals[j]} in column
order (a repeated column keeps the last value). -/
def rowDict (cols : List Str) (fs : List PyFloat) : List (Str × PyFloat) :=
  (cols.zip fs).foldl (fun m p => upsert m p.1 p.2) []

/-- Data lines of a 2D table block: strip comments, skip blanks, turn
';' into spaces, split; first token is the row name, the remaining
tokens truncated to the column count are the values; a row whose
truncated value count differs from the column count is skipped. -/
def run2D (cols : List Str) :
    List (Str × List (Str × PyFloat)) → List Str →
    Except Str (List (Str × List (Str × PyFloat)))
  | acc, [] => .ok acc
  | acc, l :: ls =>
      let ln := stripComments l
      if ln.isEmpty then run2D cols acc ls
      else
        let ln2 := if ln.contains ';' then semiToSp ln else ln
        let parts := wsSplit (tabToSp ln2)
        match parts with
        | [] => run2D cols acc ls
        | row :: vs =>
            let vals := vs.take cols.length
            if vals.length ≠ cols.length then run2D cols acc ls
            else
              match floatsOf vals with
              | .ok fs => run2D cols (upsert acc row (rowDict cols fs)) ls
              | .error e => .error e

/-- Composition of the two replace calls of the set branch. -/
def replBoth (s : Str) : Str := replSemiTok (replAssign s)

/-- The joined text of a block (the variable joined of the set branch:
" ".join of the comment-stripped block lines). -/
def blockJoined (block : List Str) : Str := joinSp (block.map stripComments)

/-- The token list of a set block:
joined.replace(":=", " := ").replace(";", " ; ").split(). -/
def blockToks (block : List Str) : List Str :=
  wsSplit (replBoth (blockJoined block))

/-- The token "set " that starts a set statement. -/
def setKw : Str := ('s' :: 'e' :: 't' :: ' ' :: [])

/-- The token "param " that starts a param statement. -/
def paramKw : Str := ('p' :: 'a' :: 'r' :: 'a' :: 'm' :: ' ' :: [])

/-- The token ":=" looked up in the set-block token list. -/
def assignTok : Str := (':' :: '=' :: [])

/-- The token ";" looked up in the set-block token list. -/
def semiTok : Str := (';' :: [])

/-- The stored value of a stripped scalar right-hand side: its float
when float() succeeds, the string itself otherwise. -/
def pvalOf (vs : Str) : PVal :=
  match pyFloat vs with
  | some f => .num f
  | none => .strv vs

/-- The set branch of the loop body: accumulate the block, tokenize,
locate ":=" and ";", slice the elements.  Returns the updated document
and the remaining lines, or the exception text. -/
def doSet (fname : Str) (line : Str) (doc : Doc) (rest : List Str) :
    Except Str (Doc × List Str) :=
  let p := collectBlock line rest
  let block := line :: p.1
  let joined := blockJoined block
  let toks := blockToks block
  match toks with
  | _ :: nm :: _ =>
      match idxOfTok assignTok toks with
      | none => .error (malformedSetMsg fname joined)
      | some a =>
          match idxOfTok semiTok toks with
          | none => .error semiNotInListMsg
          | some e =>
              .ok ({ doc with
                sets := upsert doc.sets nm ((toks.drop (a + 1)).take (e - (a + 1))) }, p.2)
  | _ => .error idxErrMsg

/-- The 1D-param branch of the loop body. -/
def do1D (line : Str) (doc : Doc) (rest : List Str) : Except Str (Doc × List Str) :=
  let p := collectBlock line rest
  let first := stripComments line
  match wsSplit first with
  | _ :: t :: _ =>
      let nm := pyStrip (beforeAssign t)
      match run1D [] p.1 with
      | .ok mp => .ok ({ doc with params := upsert doc.params nm (.map1 mp) }, p.2)
      | .error e => .error e
  | _ => .error idxErrMsg

/-- The 2D-table branch of the loop body. -/
def do2D (line : Str) (doc : Doc) (rest : List Str) : Except Str (Doc × List Str) :=
  let p := collectBlock line rest
  let header := stripComments line
  let afterP := header.drop 6
  match splitColon afterP with
  | none => .error unpackMsg
  | some nr =>
      let nm := pyStrip nr.1
      let colsPart := pyStrip (beforeAssign nr.2)
      let cols := wsSplit (tabToSp colsPart)
      match run2D cols [] p.1 with
      | .ok tb => .ok ({ doc with params := upsert doc.params nm (.map2 tb) }, p.2)
      | .error e => .error e

/-- The main loop of parse_dat over the remaining raw lines, carrying
the two dictionaries; fuel bounds the number of iterations (parseDat
passes the line count, which suffices since every iteration consumes at
least one line). -/
def parseLoopF (fname : Str) : Nat → Doc → List Str → Except Str Doc
  | _, doc, [] => .ok doc
  | 0, _, _ :: _ => .error fuelMsg
  | fuel + 1, doc, l :: rest =>
      let line := stripComments l
      if line.isEmpty then parseLoopF fname fuel doc rest
      else
        match matchScalar line with
        | some nv =>
            parseLoopF fname fuel { doc with params := upsert doc.params nv.1 (pvalOf nv.2) } rest
        | none =>
          if setKw.isPrefixOf line then
            match doSet fname line doc rest with
            | .ok dr => parseLoopF fname fuel dr.1 dr.2
            | .error e => .error e
          else if paramKw.isPrefixOf line ∧ hasAssign line ∧ ¬ (beforeAssign line).contains ':' then
            match do1D line doc rest with
            | .ok dr => parseLoopF fname fuel dr.1 dr.2
            | .error e => .error e
          else if paramKw.isPrefixOf line ∧ hasAssign line ∧ (beforeAssign line).contains ':' then
            match do2D line doc rest with
            | .ok dr => parseLoopF fname fuel dr.1 dr.2
            | .error e => .error e
          else parseLoopF fname fuel doc rest

/-- parse_dat: fname stands for dat_path.name (used only in the
malformed-set message), the input is the list of raw lines of the file
(read_text().splitlines()); an .error models an uncaught exception. -/
def parseDat (fname : Str) (lines : List Str) : Except Str Doc :=
  parseLoopF fname lines.length ⟨[], []⟩ lines

/-! ### Token predicates and statement builders used by the theorems -/

/-- A nonempty token without whitespace characters. -/
def noWsTok (t : Str) : Bool := (!t.isEmpty) && t.all (fun c => !(isWsC c))

/-- A plain data token: nonempty, no whitespace, no ';', no '#', and no
embedded ":=".  Such tokens pass unchanged through comment stripping,
the two replace calls and whitespace splitting. -/
def plainTok (t : Str) : Bool :=
  noWsTok t && t.all (fun c => c ≠ ';' && c ≠ '#') && !(hasAssign t)

/-- The keyword token of set statements. -/
def setTok3 : Str := ('s' :: 'e' :: 't' :: [])

/-- The keyword token of param statements. -/
def paramTok : Str := ('p' :: 'a' :: 'r' :: 'a' :: 'm' :: [])

/-- The value stored by the scalar branch for a right-hand side v (the
code converts the stripped text, falling back to the string itself). -/
def scalarVal (v : Str) : PVal :=
  match pyFloat (pyStrip v) with
  | some f => .num f
  | none => .strv (pyStrip v)

/-- A scalar statement line: "param", mandatory whitespace w1, the name,
optional whitespace w2, '=', the raw value text and the final ';'. -/
def scalarLine (x w1 w2 v : Str) : Str :=
  paramTok ++ w1 ++ x ++ w2 ++ ('=' :: v) ++ [';']

/-- A one-line set statement: set S := e1 ... ek ;. -/
def setLine (s : Str) (es : List Str) : Str :=
  joinSp (setTok3 :: s :: assignTok :: (es ++ [semiTok]))

/-- A set statement broken across lines: the first line holds "set S :="
and a first chunk of elements, each middle line a further chunk, and the
last line the final chunk followed by ";".  The element sequence of the
statement is c0 ++ mids.join ++ cl. -/
def setLinesOf (s : Str) (c0 : List Str) (mids : List (List Str)) (cl : List Str) : List Str :=
  joinSp (setTok3 :: s :: assignTok :: c0) :: (mids.map joinSp ++ [joinSp (cl ++ [semiTok])])

/-- A one-line set statement with no ":=" token: set t1 ... tk ;. -/
def setLineNA (c0 : List Str) : Str :=
  joinSp (setTok3 :: (c0 ++ [semiTok]))

/-- A multi-line set statement with no ":=" token anywhere. -/
def setLinesNA (c0 : List Str) (mids : List (List Str)) (cl : List Str) : List Str :=
  joinSp (setTok3 :: c0) :: (mids.map joinSp ++ [joinSp (cl ++ [semiTok])])

/-- Lines of a 1D param statement: the first line "param P :=", then one
line per data chunk, then a lone ";" line ending the block. -/
def lines1D (p : Str) (dss : List (List Str)) : List Str :=
  joinSp (paramTok :: p :: assignTok :: []) :: (dss.map joinSp ++ [[';']])

/-- Lines of a 2D param statement: the header
"param P: c1 ... cn :=", then one line per data row, then a lone ";"
line ending the block. -/
def lines2D (p : Str) (cols : List Str) (dss : List (List Str)) : List Str :=
  (paramTok ++ (' ' :: p) ++ (':' :: ' ' :: (joinSp cols ++ (' ' :: assignTok))))
    :: (dss.map joinSp ++ [[';']])

/-! ### Token-level (specification-side) data processing

These two functions restate sections 4.5 and 4.6 of the design document
at the token level, amended to what the code does: every data line
contributes at most one pair (its first two tokens) in the 1D case, and
one row (first token, remaining tokens truncated to the column count,
dropped on count mismatch) in the 2D case.  The bridge lemmas prove that
the character-level run1D/run2D agree with them on token-built lines. -/

/-- Token-level step of the 1D parser on one data line. -/
def spec1DAux : List (Str × PyFloat) → List (List Str) → Except Str (List (Str × PyFloat))
  | acc, [] => .ok acc
  | acc, ds :: rest =>
      match ds with
      | k :: v :: _ =>
          match pyFloat v with
          | some f => spec1DAux (upsert acc k f) rest
          | none => .error (floatErrMsg v)
      | _ => spec1DAux acc rest

/-- Token-level step of the 2D parser on one data row. -/
def spec2DAux (cols : List Str) :
    List (Str × List (Str × PyFloat)) → List (List Str) →
    Except Str (List (Str × List (Str × PyFloat)))
  | acc, [] => .ok acc
  | acc, ds :: rest =>
      match ds with
      | [] => spec2DAux cols acc rest
      | row :: vs =>
          if (vs.take cols.length).length ≠ cols.length then spec2DAux cols acc rest
          else
            match floatsOf (vs.take cols.length) with
            | .ok fs => spec2DAux cols (upsert acc row (rowDict cols fs)) rest
            | .error e => .error e

/-- The (key, value-token) pairs a 1D statement's data lines contribute:
one pair per line with at least two tokens, from its first two tokens. -/
def keyPairs (dss : List (List Str)) : List (Str × Str) :=
  dss.filterMap (fun ds =>
    match ds with
    | k :: v :: _ => some (k, v)
    | _ => none)

/-- The value token of the last contributing occurrence of a key among a
1D statement's data lines. -/
def lastVal (dss : List (List Str)) (k : Str) : Option Str :=
  ((keyPairs dss).reverse.find? (fun q => q.1 == k)).map (fun q => q.2)

/-! ### The JSON payload and json.dumps(payload, indent=2)

json.dumps and json.loads are the Python standard library, not code of
this repository; they are modelled here from the JSON interchange
format.  dumps renders with indent=2 (so with the default ", " and ": "
separators reduced to "," and ": ", items one per line) and
ensure_ascii escaping, and renders a float as its exact decimal text
(idealising the shortest round-trip repr of binary doubles, consistent
with the exact-decimal PyFloat model used throughout).  loads is a JSON
value reader that accepts everything dumps emits; it is lenient in a
few places where json.loads would reject (leading zeros in numbers, a
bare exponent marker), none of which dumps ever produces. -/

/-- A JSON value: the payload written by dat_to_json, as a tree. -/
inductive Json where
  | jnull
  | jbool (b : Bool)
  | jnum (f : PyFloat)
  | jstr (s : Str)
  | jarr (xs : List Json)
  | jobj (ms : List (Str × Json))

/-- The JSON value of a stored parameter value. -/
def pvalJson : PVal → Json
  | .num f => .jnum f
  | .strv s => .jstr s
  | .map1 m => .jobj (m.map (fun q => (q.1, Json.jnum q.2)))
  | .map2 t =>
      .jobj (t.map (fun q => (q.1, Json.jobj (q.2.map (fun r => (r.1, Json.jnum r.2))))))

/-- The payload dictionary of parse_dat, as a JSON value:
{"sets": {...}, "params": {...}}. -/
def docJson (d : Doc) : Json :=
  .jobj
    [(("sets").toList,
      .jobj (d.sets.map (fun q => (q.1, Json.jarr (q.2.map Json.jstr))))),
     (("params").toList,
      .jobj (d.params.map (fun q => (q.1, pvalJson q.2))))]

/-- The decimal digit character of n % 10. -/
def digitChar (n : Nat) : Char := Char.ofNat (48 + n % 10)

/-- Decimal digits of a natural number, most significant first; fuel
bounds the digit count (n + 1 always suffices). -/
def natDigsAux : Nat → Nat → Str
  | 0, _ => []
  | fuel + 1, n => if n < 10 then [digitChar n] else natDigsAux fuel (n / 10) ++ [digitChar n]

/-- Decimal text of a natural number. -/
def natStr (n : Nat) : Str := natDigsAux (n + 1) n

/-- A finite PyFloat is canonical when its mantissa has no trailing zero
digit and a zero mantissa comes with exponent zero; mkFinite only builds
canonical values. -/
def canonF : PyFloat → Bool
  | .finite _ m e => if m = 0 then e == 0 else m % 10 != 0
  | _ => true

/-- All floats stored inside a parameter value are canonical. -/
def pvalCanon : PVal → Bool
  | .num f => canonF f
  | .strv _ => true
  | .map1 m => m.all (fun q => canonF q.2)
  | .map2 t => t.all (fun q => q.2.all (fun r => canonF r.2))

/-- All floats stored inside a document are canonical (sets hold no
floats). -/
def docCanon (d : Doc) : Bool := d.params.all (fun q => pvalCanon q.2)

/-- The decimal text json.dumps writes for a float: the exact decimal
of a canonical finite value (always with a fractional part, as repr
prints whole floats with a trailing .0), or the literals Infinity,
-Infinity and NaN. -/
def renderFloat : PyFloat → Str
  | .nan => ("NaN").toList
  | .infty neg => if neg then ("-Infinity").toList else ("Infinity").toList
  | .finite sign m e =>
      let ds := natStr m
      let core :=
        if 0 ≤ e then ds ++ List.replicate e.toNat '0' ++ ('.' :: '0' :: [])
        else
          let k := (-e).toNat
          if k < ds.length then
            ds.take (ds.length - k) ++ '.' :: ds.drop (ds.length - k)
          else '0' :: '.' :: (List.replicate (k - ds.length) '0' ++ ds)
      if sign then '-' :: core else core

/-- Lower-case hexadecimal digit character of n < 16. -/
def toHex (n : Nat) : Char := if n < 10 then Char.ofNat (48 + n) else Char.ofNat (87 + n)

/-- Four hexadecimal digits of n < 65536, for a \uXXXX escape. -/
def hex4 (n : Nat) : Str :=
  [toHex (n / 4096 % 16), toHex (n / 256 % 16), toHex (n / 16 % 16), toHex (n % 16)]

/-- ensure_ascii escaping of one character: the two-character shorthand
escapes, printable ASCII verbatim, \uXXXX otherwise, with a surrogate
pair for characters beyond the basic multilingual plane. -/
def escC (c : Char) : Str :=
  if c = '"' then ('\\' :: '"' :: [])
  else if c = '\\' then ('\\' :: '\\' :: [])
  else if c = '\n' then ('\\' :: 'n' :: [])
  else if c = '\r' then ('\\' :: 'r' :: [])
  else if c = '\t' then ('\\' :: 't' :: [])
  else if c.toNat = 8 then ('\\' :: 'b' :: [])
  else if c.toNat = 12 then ('\\' :: 'f' :: [])
  else if 32 ≤ c.toNat ∧ c.toNat < 127 then [c]
  else if c.toNat < 65536 then '\\' :: 'u' :: hex4 c.toNat
  else
    ('\\' :: 'u' :: hex4 (55296 + (c.toNat - 65536) / 1024))
      ++ ('\\' :: 'u' :: hex4 (56320 + (c.toNat - 65536) % 1024))

/-- ensure_ascii escaping of a string body. -/
def escape (s : Str) : Str := s.flatMap escC

/-- A JSON string literal: quoted and escaped. -/
def jsonStr (s : Str) : Str := '"' :: (escape s ++ ['"'])

/-- The character of a shorthand escape \c. -/
def escShort (c : Char) : Option Char :=
  if c = '"' then some '"'
  else if c = '\\' then some '\\'
  else if c = '/' then some '/'
  else if c = 'n' then some '\n'
  else if c = 't' then some '\t'
  else if c = 'r' then some '\r'
  else if c = 'b' then some (Char.ofNat 8)
  else if c = 'f' then some (Char.ofNat 12)
  else none

/-- Value of one hexadecimal digit character. -/
def hexv (c : Char) : Option Nat :=
  if c.isDigit then some (c.toNat - 48)
  else if 'a' ≤ c ∧ c ≤ 'f' then some (c.toNat - 87)
  else if 'A' ≤ c ∧ c ≤ 'F' then some (c.toNat - 55)
  else none

/-- Four hexadecimal digit characters and their value, or none. -/
def hex4v : Str → Option (Nat × Str)
  | a :: b :: c :: d :: r =>
      match hexv a, hexv b, hexv c, hexv d with
      | some h1, some h2, some h3, some h4 =>
          some (h1 * 4096 + h2 * 256 + h3 * 16 + h4, r)
      | _, _, _, _ => none
  | _ => none

/-- Body of a JSON string after the opening quote: unescape until the
closing quote, recombining surrogate pairs; a lone surrogate escape is
rejected (it denotes no character).  The fuel bounds the number of
produced characters; one more than the input length always suffices. -/
def parseStrBody : Nat → Str → Str → Option (Str × Str)
  | 0, _, _ => none
  | _ + 1, _, [] => none
  | fuel + 1, acc, c :: r =>
      if c = '"' then some (acc.reverse, r)
      else if c = '\\' then
        match r with
        | [] => none
        | e :: r2 =>
            if e = 'u' then
              match hex4v r2 with
              | none => none
              | some (v, rr) =>
                  if 55296 ≤ v ∧ v < 56320 then
                    match rr with
                    | c2 :: e2 :: r3 =>
                        if c2 = '\\' ∧ e2 = 'u' then
                          match hex4v r3 with
                          | none => none
                          | some (w, r4) =>
                              if 56320 ≤ w ∧ w < 57344 then
                                parseStrBody fuel
                                  (Char.ofNat (65536 + (v - 55296) * 1024 + (w - 56320))
                                    :: acc) r4
                              else none
                        else none
                    | _ => none
                  else if 56320 ≤ v ∧ v < 57344 then none
                  else parseStrBody fuel (Char.ofNat v :: acc) rr
            else
              match escShort e with
              | some u => parseStrBody fuel (u :: acc) r2
              | none => none
      else parseStrBody fuel (c :: acc) r

/-- Split a leading run of decimal digits from a string. -/
def takeDigs (s : Str) : (Str × Str) := (s.takeWhile Char.isDigit, s.dropWhile Char.isDigit)

/-- A continuation after a rendered number that cannot extend it. -/
def numSafe (s : Str) : Bool :=
  match s with
  | [] => true
  | c :: _ => !(c.isDigit || c == '.' || c == 'e' || c == 'E')

/-- A JSON number after its optional minus sign: integer digits, an
optional fraction, an optional exponent; the value is normalised by
mkFinite exactly as Python float() normalises the same text. -/
def parseJNumBody (sign : Bool) (s : Str) : Option (Json × Str) :=
  match takeDigs s with
  | ([], _) => none
  | (ids, r1) =>
      let fp : (Str × Str) :=
        match r1 with
        | '.' :: r2 =>
            match takeDigs r2 with
            | ([], _) => ([], '.' :: r2)
            | (fds, r3) => (fds, r3)
        | _ => ([], r1)
      match fp.2 with
      | c :: r4 =>
          if c = 'e' ∨ c = 'E' then
            let ep : (Bool × Str) :=
              match r4 with
              | '+' :: r5 => (false, r5)
              | '-' :: r5 => (true, r5)
              | r5 => (false, r5)
            match takeDigs ep.2 with
            | ([], _) =>
                some (.jnum (mkFinite sign (ids ++ fp.1) (-(fp.1.length : Int))), fp.2)
            | (eds, r6) =>
                let ev : Int :=
                  if ep.1 then -(natOfDigits eds : Int) else (natOfDigits eds : Int)
                some (.jnum (mkFinite sign (ids ++ fp.1) (ev - (fp.1.length : Int))), r6)
          else some (.jnum (mkFinite sign (ids ++ fp.1) (-(fp.1.length : Int))), c :: r4)
      | [] => some (.jnum (mkFinite sign (ids ++ fp.1) (-(fp.1.length : Int))), [])

/-- JSON whitespace. -/
def isJWs (c : Char) : Bool := c == ' ' || c == '\t' || c == '\n' || c == '\r'

/-- Drop leading JSON whitespace. -/
def skipJWs (s : Str) : Str := s.dropWhile isJWs

/-- One-or-more comma-separated array items, given the value reader;
the list fuel is at least the remaining length, so it never runs out on
a complete input. -/
def jitemsF (pv : Str → Option (Json × Str)) : Nat → Str → Option (List Json × Str)
  | 0, _ => none
  | lf + 1, s =>
      match pv s with
      | none => none
      | some (v, r) =>
          match skipJWs r with
          | [] => none
          | c2 :: r2 =>
              if c2 = ',' then
                match jitemsF pv lf r2 with
                | some p => some (v :: p.1, p.2)
                | none => none
              else if c2 = ']' then some ([v], r2)
              else none

/-- One-or-more comma-separated object members, given the value reader. -/
def jpairsF (pv : Str → Option (Json × Str)) : Nat → Str → Option (List (Str × Json) × Str)
  | 0, _ => none
  | lf + 1, s =>
      match skipJWs s with
      | [] => none
      | c0 :: r =>
          if c0 = '"' then
            match parseStrBody (r.length + 1) [] r with
            | none => none
            | some (k, r1) =>
                match skipJWs r1 with
                | [] => none
                | c1 :: r2 =>
                    if c1 = ':' then
                      match pv r2 with
                      | none => none
                      | some (v, r3) =>
                          match skipJWs r3 with
                          | [] => none
                          | c3 :: r4 =>
                              if c3 = ',' then
                                match jpairsF pv lf r4 with
                                | some p => some ((k, v) :: p.1, p.2)
                                | none => none
                              else if c3 = '}' then some ([(k, v)], r4)
                              else none
                    else none
          else none

/-- A JSON value: fuel bounds the nesting depth. -/
def jparseF : Nat → Str → Option (Json × Str)
  | 0, _ => none
  | fuel + 1, s =>
      match skipJWs s with
      | [] => none
      | c :: r =>
          if c = '"' then
            match parseStrBody (r.length + 1) [] r with
            | some p => some (.jstr p.1, p.2)
            | none => none
          else if c = '[' then
            match skipJWs r with
            | [] => none
            | c2 :: r2 =>
                if c2 = ']' then some (.jarr [], r2)
                else
                  match jitemsF (fun s2 => jparseF fuel s2) ((c2 :: r2).length + 1)
                      (c2 :: r2) with
                  | some p => some (.jarr p.1, p.2)
                  | none => none
          else if c = '{' then
            match skipJWs r with
            | [] => none
            | c2 :: r2 =>
                if c2 = '}' then some (.jobj [], r2)
                else
                  match jpairsF (fun s2 => jparseF fuel s2) ((c2 :: r2).length + 1)
                      (c2 :: r2) with
                  | some p => some (.jobj p.1, p.2)
                  | none => none
          else if c = 't' then
            match r with
            | 'r' :: 'u' :: 'e' :: r2 => some (.jbool true, r2)
            | _ => none
          else if c = 'f' then
            match r with
            | 'a' :: 'l' :: 's' :: 'e' :: r2 => some (.jbool false, r2)
            | _ => none
          else if c = 'n' then
            match r with
            | 'u' :: 'l' :: 'l' :: r2 => some (.jnull, r2)
            | _ => none
          else if c = 'N' then
            match r with
            | 'a' :: 'N' :: r2 => some (.jnum .nan, r2)
            | _ => none
          else if c = 'I' then
            match r with
            | 'n' :: 'f' :: 'i' :: 'n' :: 'i' :: 't' :: 'y' :: r2 =>
                some (.jnum (.infty false), r2)
            | _ => none
          else if c = '-' then
            match r with
            | [] => none
            | c2 :: r2 =>
                if c2 = 'I' then
                  match r2 with
                  | 'n' :: 'f' :: 'i' :: 'n' :: 'i' :: 't' :: 'y' :: r3 =>
                      some (.jnum (.infty true), r3)
                  | _ => none
                else parseJNumBody true (c2 :: r2)
          else if c.isDigit then parseJNumBody false (c :: r)
          else none

/-- A newline followed by the indentation of the next line. -/
def nlIndent (n : Nat) : Str := '\n' :: List.replicate n ' '

/-- The items of a non-empty array under indent=2: each on its own line
at the given indentation, separated by commas. -/
def dumpItemsWith (dv : Json → Str) (ind : Nat) : List Json → Str
  | [] => []
  | x :: [] => nlIndent ind ++ dv x
  | x :: xs => nlIndent ind ++ dv x ++ ',' :: dumpItemsWith dv ind xs

/-- The members of a non-empty object under indent=2. -/
def dumpPairsWith (dv : Json → Str) (ind : Nat) : List (Str × Json) → Str
  | [] => []
  | q :: [] => nlIndent ind ++ jsonStr q.1 ++ ':' :: ' ' :: dv q.2
  | q :: ms => nlIndent ind ++ jsonStr q.1 ++ ':' :: ' ' :: dv q.2 ++ ',' :: dumpPairsWith dv ind ms

/-- json.dumps(j, indent=2) at the given current indentation; the fuel
bounds the nesting depth (the payload of a document nests at most four
levels, so the constant 8 of serializeJson suffices for it). -/
def dumpF : Nat → Nat → Json → Str
  | 0, _, _ => []
  | fuel + 1, ind, j =>
      match j with
      | .jnull => ("null").toList
      | .jbool b => if b then ("true").toList else ("false").toList
      | .jnum f => renderFloat f
      | .jstr s => jsonStr s
      | .jarr [] => ('[' :: ']' :: [])
      | .jarr xs =>
          '[' :: (dumpItemsWith (fun v => dumpF fuel (ind + 2) v) (ind + 2) xs
            ++ nlIndent ind ++ ([']'] : Str))
      | .jobj [] => ('{' :: '}' :: [])
      | .jobj ms =>
          '{' :: (dumpPairsWith (fun v => dumpF fuel (ind + 2) v) (ind + 2) ms
            ++ nlIndent ind ++ (['}'] : Str))

/-- json.dumps(v, indent=2) of a payload value. -/
def serializeJson (v : Json) : Str := dumpF 8 0 v

/-- The text dat_to_json writes: json.dumps of the payload of a parsed
document, with indent=2. -/
def serialize (d : Doc) : Str := serializeJson (docJson d)

/-- json.loads of a complete text: one value, then only whitespace. -/
def jloads (s : Str) : Option Json :=
  match jparseF (s.length + 1) s with
  | some p => if (skipJWs p.2).isEmpty then some p.1 else none
  | none => none

/-! ## Lemmas: whitespace splitting -/

theorem wsSplitAux_ws (w : Str) (hw : ∀ c ∈ w, isWsC c = true) (s : Str) :
    wsSplitAux [] (w ++ s) = wsSplitAux [] s := by
  induction w with
  | nil => rfl
  | cons c w ih =>
      have hc : isWsC c = true := hw c (List.mem_cons_self ..)
      have hrest : ∀ c ∈ w, isWsC c = true := fun x hx => hw x (List.mem_cons_of_mem _ hx)
      simp [wsSplitAux, hc, List.isEmpty_nil, ih hrest]

theorem wsSplitAux_tok (t : Str) (ht : ∀ c ∈ t, isWsC c = false) :
    ∀ (acc s : Str), wsSplitAux acc (t ++ s) = wsSplitAux (t.reverse ++ acc) s := by
  induction t with
  | nil => intro acc s; simp
  | cons c t ih =>
      intro acc s
      have hc : isWsC c = false := ht c (List.mem_cons_self ..)
      have hrest : ∀ x ∈ t, isWsC x = false := fun x hx => ht x (List.mem_cons_of_mem _ hx)
      simp only [List.cons_append, wsSplitAux, hc, Bool.false_eq_true, if_false,
        List.reverse_cons, List.append_assoc, List.singleton_append]
      exact ih hrest (c :: acc) s

theorem wsSplit_tok_cons (t : Str) (hne : t ≠ []) (ht : ∀ c ∈ t, isWsC c = false)
    (s : Str) (hs : s = [] ∨ ∃ c s2, s = c :: s2 ∧ isWsC c = true) :
    wsSplit (t ++ s) = t :: wsSplit s := by
  unfold wsSplit
  rw [wsSplitAux_tok t ht [] s]
  rcases hs with rfl | ⟨c, s2, rfl, hc⟩
  · simp [wsSplitAux, List.isEmpty_eq_true, hne]
  · have hacc : (t.reverse ++ []).isEmpty = false := by
      simp [List.isEmpty_eq_false_iff_exists_mem, List.isEmpty_eq_true, hne]
    simp [wsSplitAux, hc, hacc, List.isEmpty_eq_true, hne]

theorem wsSplit_ws (w : Str) (hw : ∀ c ∈ w, isWsC c = true) (s : Str) :
    wsSplit (w ++ s) = wsSplit s := wsSplitAux_ws w hw s

theorem wsSplit_sp (s : Str) : wsSplit (' ' :: s) = wsSplit s :=
  wsSplit_ws [' '] (by intro c hc; simp at hc; subst hc; rfl) s

/-! ## Lemmas: joinSp -/

theorem joinSp_cons_cons (x : Str) (ys : List Str) (h : ys ≠ []) :
    joinSp (x :: ys) = x ++ ' ' :: joinSp ys := by
  cases ys with
  | nil => exact absurd rfl h
  | cons y ys => rfl

theorem mem_joinSp {c : Char} : ∀ {ls : List Str}, c ∈ joinSp ls → c = ' ' ∨ ∃ l ∈ ls, c ∈ l
  | [], h => by simp [joinSp] at h
  | [x], h => by
      simp only [joinSp] at h
      exact Or.inr ⟨x, List.mem_cons_self .., h⟩
  | x :: y :: ls, h => by
      simp only [joinSp, List.mem_append, List.mem_cons] at h
      rcases h with h | h | h
      · exact Or.inr ⟨x, List.mem_cons_self .., h⟩
      · exact Or.inl h
      · rcases mem_joinSp h with h2 | ⟨l, hl, hc⟩
        · exact Or.inl h2
        · exact Or.inr ⟨l, List.mem_cons_of_mem _ hl, hc⟩

theorem joinSp_ne_nil {x : Str} {ls : List Str} (h : x ≠ []) : joinSp (x :: ls) ≠ [] := by
  cases ls with
  | nil => simpa [joinSp]
  | cons y ls => simp [joinSp, h]

/-! ## Lemmas: strip and comment removal on clean strings -/

theorem takeWhile_all (p : Char → Bool) : ∀ (s : Str), (∀ c ∈ s, p c = true) → s.takeWhile p = s
  | [], _ => rfl
  | c :: s, h => by
      simp [List.takeWhile_cons, h c (List.mem_cons_self ..),
        takeWhile_all p s (fun x hx => h x (List.mem_cons_of_mem _ hx))]

theorem takeWhile_append_all (p : Char → Bool) (a b : Str) (h : ∀ c ∈ a, p c = true) :
    (a ++ b).takeWhile p = a ++ b.takeWhile p := by
  induction a with
  | nil => rfl
  | cons c a ih =>
      simp [List.takeWhile_cons, h c (List.mem_cons_self ..),
        ih (fun x hx => h x (List.mem_cons_of_mem _ hx))]

theorem dropWhile_append_all (p : Char → Bool) (a b : Str) (h : ∀ c ∈ a, p c = true) :
    (a ++ b).dropWhile p = b.dropWhile p := by
  induction a with
  | nil => rfl
  | cons c a ih =>
      simp [List.dropWhile_cons, h c (List.mem_cons_self ..),
        ih (fun x hx => h x (List.mem_cons_of_mem _ hx))]

theorem dropWhile_head_false (p : Char → Bool) :
    ∀ (s : Str), (∀ c, s.head? = some c → p c = false) → s.dropWhile p = s
  | [], _ => rfl
  | c :: s, h => by simp [List.dropWhile_cons, h c rfl]

theorem pyStrip_eq_self (s : Str)
    (hh : ∀ c, s.head? = some c → isWsC c = false)
    (hl : ∀ c, s.getLast? = some c → isWsC c = false) : pyStrip s = s := by
  unfold pyStrip
  rw [dropWhile_head_false isWsC s hh]
  rw [dropWhile_head_false isWsC s.reverse (by simpa [List.head?_reverse] using hl)]
  exact List.reverse_reverse s

theorem stripComments_eq_self (s : Str)
    (hn : ∀ c ∈ s, c ≠ '#')
    (hh : ∀ c, s.head? = some c → isWsC c = false)
    (hl : ∀ c, s.getLast? = some c → isWsC c = false) : stripComments s = s := by
  unfold stripComments
  rw [takeWhile_all _ s (by intro c hc; simpa using hn c hc)]
  exact pyStrip_eq_self s hh hl

/-- A token that survives all character-level processing untouched:
nonempty, no whitespace, no '#'. -/
def cleanTok (t : Str) : Prop :=
  t ≠ [] ∧ (∀ c ∈ t, isWsC c = false) ∧ (∀ c ∈ t, c ≠ '#')

theorem joinSp_head? {t : Str} (ts : List Str) (h : t ≠ []) :
    (joinSp (t :: ts)).head? = t.head? := by
  cases ts with
  | nil => rfl
  | cons y ys =>
      rw [joinSp_cons_cons t (y :: ys) (by simp)]
      cases t with
      | nil => exact absurd rfl h
      | cons c r => rfl

theorem joinSp_getLast? :
    ∀ (ts : List Str), (∀ t ∈ ts, t ≠ []) → ts ≠ [] →
      ∃ t ∈ ts, (joinSp ts).getLast? = t.getLast?
  | [], _, hne => absurd rfl hne
  | [x], _, _ => ⟨x, List.mem_cons_self .., rfl⟩
  | x :: y :: ts, h, _ => by
      obtain ⟨t, ht, heq⟩ := joinSp_getLast? (y :: ts)
        (fun u hu => h u (List.mem_cons_of_mem _ hu)) (by simp)
      refine ⟨t, List.mem_cons_of_mem _ ht, ?_⟩
      have hjne : joinSp (y :: ts) ≠ [] := joinSp_ne_nil (h y (by simp))
      have hlast : (' ' :: joinSp (y :: ts)).getLast? = t.getLast? := by
        cases hj : joinSp (y :: ts) with
        | nil => exact absurd hj hjne
        | cons a l =>
            rw [hj] at heq
            exact (List.getLast?_cons_cons ..).trans heq
      have htne : t ≠ [] := h t (List.mem_cons_of_mem _ ht)
      have hsome : (t.getLast?).isSome := by
        rw [List.getLast?_isSome]; exact htne
      rw [joinSp_cons_cons x (y :: ts) (by simp), List.getLast?_append, hlast,
        Option.or_of_isSome hsome]

theorem stripComments_joinSp (ts : List Str) (h : ∀ t ∈ ts, cleanTok t) :
    stripComments (joinSp ts) = joinSp ts := by
  cases ts with
  | nil => rfl
  | cons x rest =>
      have hx : cleanTok x := h x (List.mem_cons_self ..)
      apply stripComments_eq_self
      · intro c hc
        rcases mem_joinSp hc with rfl | ⟨l, hl, hcl⟩
        · decide
        · exact (h l hl).2.2 c hcl
      · intro c hc
        rw [joinSp_head? rest hx.1] at hc
        exact hx.2.1 c (List.mem_of_mem_head? hc)
      · intro c hc
        obtain ⟨t, ht, heq⟩ := joinSp_getLast? (x :: rest) (fun u hu => (h u hu).1) (by simp)
        rw [heq] at hc
        exact (h t ht).2.1 c (List.mem_of_mem_getLast? hc)

/-! ## Lemmas: the two replace calls -/

theorem replAssign_cons_ne (c : Char) (r : Str) (h : c ≠ ':' ∨ r.head? ≠ some '=') :
    replAssign (c :: r) = c :: replAssign r := by
  cases r with
  | nil => simp [replAssign]
  | cons d r2 =>
      rw [replAssign.eq_def]
      split
      · rename_i heq
        injection heq with h1 h2
        injection h2 with h2 h3
        subst h1; subst h2
        rcases h with h | h
        · exact absurd rfl h
        · exact absurd (by simp) h
      · rename_i heq
        injection heq with h1 h2
        subst h1; subst h2
        rfl
      · rename_i heq; cases heq

theorem replAssign_append (a b : Str) (hb : b.head? ≠ some '=') :
    replAssign (a ++ b) = replAssign a ++ replAssign b := by
  induction a using replAssign.induct with
  | case1 r ih =>
      simp only [List.cons_append, replAssign]
      rw [show r.append b = r ++ b from rfl, ih]
  | case2 c r hne ih =>
      have hcond : c ≠ ':' ∨ (r ++ b).head? ≠ some '=' := by
        by_cases hc : c = ':'
        · subst hc
          refine Or.inr ?_
          cases r with
          | nil => simpa using hb
          | cons d r2 =>
              have hd : d ≠ '=' := fun he => hne r2 rfl (by rw [he])
              simpa using hd
        · exact Or.inl hc
      have hcond2 : c ≠ ':' ∨ r.head? ≠ some '=' := by
        by_cases hc : c = ':'
        · subst hc
          refine Or.inr ?_
          cases r with
          | nil => simp
          | cons d r2 =>
              have hd : d ≠ '=' := fun he => hne r2 rfl (by rw [he])
              simpa using hd
        · exact Or.inl hc
      rw [List.cons_append, replAssign_cons_ne c _ hcond, replAssign_cons_ne c _ hcond2,
        List.cons_append, ih]
  | case3 => simp [replAssign]

theorem hasAssign_false_cons {c : Char} {r : Str} (h : hasAssign (c :: r) = false) :
    (c ≠ ':' ∨ r.head? ≠ some '=') ∧ hasAssign r = false := by
  simp only [hasAssign, strContains, Bool.or_eq_false_iff] at h
  obtain ⟨h1, h2⟩ := h
  refine ⟨?_, h2⟩
  cases r with
  | nil => exact Or.inr (by simp)
  | cons d r2 =>
      simp only [List.isPrefixOf, Bool.and_eq_false_iff, beq_eq_false_iff_ne] at h1
      rcases h1 with h1 | h1
      · exact Or.inl (fun he => h1 he.symm)
      · rcases h1 with h1 | h1
        · exact Or.inr (by simpa using fun he => h1 he.symm)
        · simp [List.isPrefixOf] at h1

theorem replAssign_plain : ∀ (t : Str), hasAssign t = false → replAssign t = t
  | [], _ => rfl
  | c :: r, h => by
      obtain ⟨h1, h2⟩ := hasAssign_false_cons h
      rw [replAssign_cons_ne c r h1, replAssign_plain r h2]

theorem replSemiTok_cons_ne (c : Char) (r : Str) (h : c ≠ ';') :
    replSemiTok (c :: r) = c :: replSemiTok r := by
  rw [replSemiTok.eq_def]
  split
  · rename_i heq
    injection heq with h1 h2
    exact absurd h1 h
  · rename_i heq
    injection heq with h1 h2
    subst h1; subst h2
    rfl
  · rename_i heq; cases heq

theorem replSemiTok_append (a b : Str) :
    replSemiTok (a ++ b) = replSemiTok a ++ replSemiTok b := by
  induction a with
  | nil => rfl
  | cons c r ih =>
      by_cases hc : c = ';'
      · subst hc; simp [replSemiTok, ih]
      · rw [List.cons_append, replSemiTok_cons_ne c _ hc, replSemiTok_cons_ne c _ hc,
          List.cons_append, ih]

theorem replSemiTok_noSemi : ∀ (t : Str), (∀ c ∈ t, c ≠ ';') → replSemiTok t = t
  | [], _ => rfl
  | c :: r, h => by
      rw [replSemiTok_cons_ne c r (h c (List.mem_cons_self ..)),
        replSemiTok_noSemi r (fun x hx => h x (List.mem_cons_of_mem _ hx))]

/-! ## Lemmas: token predicates -/

theorem noWsTok_spec {t : Str} (h : noWsTok t = true) :
    t ≠ [] ∧ ∀ c ∈ t, isWsC c = false := by
  simp only [noWsTok, Bool.and_eq_true, Bool.not_eq_true', List.all_eq_true] at h
  obtain ⟨h1, h2⟩ := h
  refine ⟨?_, fun c hc => by simpa using h2 c hc⟩
  intro he
  subst he
  simp at h1

theorem plainTok_spec {t : Str} (h : plainTok t = true) :
    t ≠ [] ∧ (∀ c ∈ t, isWsC c = false) ∧ (∀ c ∈ t, c ≠ ';') ∧ (∀ c ∈ t, c ≠ '#')
      ∧ hasAssign t = false := by
  simp only [plainTok, Bool.and_eq_true, Bool.not_eq_true', List.all_eq_true] at h
  obtain ⟨⟨h1, h2⟩, h3⟩ := h
  obtain ⟨hne, hws⟩ := noWsTok_spec h1
  refine ⟨hne, hws, ?_, ?_, h3⟩
  · intro c hc
    have := h2 c hc
    simp only [Bool.and_eq_true, decide_eq_true_eq] at this
    exact this.1
  · intro c hc
    have := h2 c hc
    simp only [Bool.and_eq_true, decide_eq_true_eq] at this
    exact this.2

theorem plainTok_clean {t : Str} (h : plainTok t = true) : cleanTok t := by
  obtain ⟨h1, h2, _, h4, _⟩ := plainTok_spec h
  exact ⟨h1, h2, h4⟩

theorem plainTok_ne_assign {t : Str} (h : plainTok t = true) : t ≠ assignTok := by
  intro he
  subst he
  have := (plainTok_spec h).2.2.2.2
  simp [hasAssign, strContains, List.isPrefixOf, assignTok] at this

theorem plainTok_ne_semi {t : Str} (h : plainTok t = true) : t ≠ semiTok := by
  intro he
  subst he
  exact (plainTok_spec h).2.2.1 ';' (by simp [semiTok]) rfl

/-! ## Lemmas: replBoth on token-spaced strings -/

theorem replBoth_sp_cons (s : Str) : replBoth (' ' :: s) = ' ' :: replBoth s := by
  unfold replBoth
  rw [replAssign_cons_ne ' ' s (Or.inl (by decide)),
    replSemiTok_cons_ne ' ' (replAssign s) (by decide)]

theorem replBoth_append_sp (a z : Str) :
    replBoth (a ++ ' ' :: z) = replBoth a ++ ' ' :: replBoth z := by
  unfold replBoth
  rw [replAssign_append a (' ' :: z) (by simp),
    replSemiTok_append,
    replAssign_cons_ne ' ' z (Or.inl (by decide)),
    replSemiTok_cons_ne ' ' (replAssign z) (by decide)]

theorem replBoth_plain {t : Str} (h : plainTok t = true) : replBoth t = t := by
  obtain ⟨_, _, h3, _, h5⟩ := plainTok_spec h
  unfold replBoth
  rw [replAssign_plain t h5, replSemiTok_noSemi t h3]

/-- Splitting one processed token with a whitespace-or-empty remainder
recovers exactly that token. -/
theorem wsSplit_replBoth_tok (t : Str)
    (h : plainTok t = true ∨ t = assignTok ∨ t = semiTok) (s : Str)
    (hs : s = [] ∨ ∃ c s2, s = c :: s2 ∧ isWsC c = true) :
    wsSplit (replBoth t ++ s) = t :: wsSplit s := by
  rcases h with h | h | h
  · rw [replBoth_plain h]
    obtain ⟨h1, h2, _, _, _⟩ := plainTok_spec h
    exact wsSplit_tok_cons t h1 h2 s hs
  · subst h
    have : replBoth assignTok ++ s = ' ' :: ((':' :: '=' :: []) ++ (' ' :: s)) := rfl
    rw [this, wsSplit_sp,
      wsSplit_tok_cons (':' :: '=' :: []) (by simp) (by decide) (' ' :: s)
        (Or.inr ⟨' ', s, rfl, rfl⟩),
      wsSplit_sp]
    rfl
  · subst h
    have : replBoth semiTok ++ s = ' ' :: ((';' :: []) ++ (' ' :: s)) := rfl
    rw [this, wsSplit_sp,
      wsSplit_tok_cons (';' :: []) (by simp) (by decide) (' ' :: s)
        (Or.inr ⟨' ', s, rfl, rfl⟩),
      wsSplit_sp]
    rfl

/-- Splitting a processed space-joined token list with a
whitespace-or-empty remainder recovers exactly those tokens. -/
theorem wsSplit_replBoth_join :
    ∀ (ts : List Str), (∀ t ∈ ts, plainTok t = true ∨ t = assignTok ∨ t = semiTok) →
      ∀ (s : Str), (s = [] ∨ ∃ c s2, s = c :: s2 ∧ isWsC c = true) →
      wsSplit (replBoth (joinSp ts) ++ s) = ts ++ wsSplit s
  | [], _, s, _ => rfl
  | [t], h, s, hs => wsSplit_replBoth_tok t (h t (List.mem_cons_self ..)) s hs
  | t :: t2 :: ts, h, s, hs => by
      rw [joinSp_cons_cons t (t2 :: ts) (by simp), replBoth_append_sp,
        List.append_assoc, List.cons_append]
      rw [wsSplit_replBoth_tok t (h t (List.mem_cons_self ..))
        (' ' :: (replBoth (joinSp (t2 :: ts)) ++ s)) (Or.inr ⟨_, _, rfl, rfl⟩)]
      rw [wsSplit_sp,
        wsSplit_replBoth_join (t2 :: ts) (fun u hu => h u (List.mem_cons_of_mem _ hu)) s hs]
      rfl

/-- A token allowed in a set block: plain, or one of the two handled
delimiters. -/
def setBlockTok (t : Str) : Prop := plainTok t = true ∨ t = assignTok ∨ t = semiTok

theorem setBlockTok_clean {t : Str} (h : setBlockTok t) : cleanTok t := by
  rcases h with h | h | h
  · exact plainTok_clean h
  · subst h
    exact ⟨by simp [assignTok], by decide, by decide⟩
  · subst h
    exact ⟨by simp [semiTok], by decide, by decide⟩

theorem wsSplit_replBoth_groups :
    ∀ (groups : List (List Str)), (∀ t ∈ groups.flatten, setBlockTok t) →
      ∀ (s : Str), (s = [] ∨ ∃ c s2, s = c :: s2 ∧ isWsC c = true) →
      wsSplit (replBoth (joinSp (groups.map joinSp)) ++ s) = groups.flatten ++ wsSplit s
  | [], _, s, _ => rfl
  | [g], h, s, hs => by
      have : joinSp ([g].map joinSp) = joinSp g := rfl
      rw [this, wsSplit_replBoth_join g (fun t ht => h t (by simpa using ht)) s hs]
      simp
  | g :: g2 :: gs, h, s, hs => by
      have hmap : (g :: g2 :: gs).map joinSp = joinSp g :: (g2 :: gs).map joinSp := rfl
      rw [hmap, joinSp_cons_cons (joinSp g) ((g2 :: gs).map joinSp) (by simp),
        replBoth_append_sp, List.append_assoc, List.cons_append]
      rw [wsSplit_replBoth_join g
        (fun t ht => h t (by
          rw [List.flatten_cons]
          exact List.mem_append_left _ ht))
        (' ' :: (replBoth (joinSp ((g2 :: gs).map joinSp)) ++ s)) (Or.inr ⟨_, _, rfl, rfl⟩)]
      rw [wsSplit_sp,
        wsSplit_replBoth_groups (g2 :: gs)
          (fun t ht => h t (by
            rw [List.flatten_cons]
            exact List.mem_append_right _ ht)) s hs]
      simp

theorem blockJoined_groups (groups : List (List Str))
    (h : ∀ t ∈ groups.flatten, setBlockTok t) :
    blockJoined (groups.map joinSp) = joinSp (groups.map joinSp) := by
  unfold blockJoined
  congr 1
  rw [List.map_map]
  apply List.map_congr_left
  intro g hg
  exact stripComments_joinSp g (fun t ht =>
    setBlockTok_clean (h t (List.mem_flatten.mpr ⟨g, hg, ht⟩)))

theorem blockToks_groups (groups : List (List Str))
    (h : ∀ t ∈ groups.flatten, setBlockTok t) :
    blockToks (groups.map joinSp) = groups.flatten := by
  unfold blockToks
  rw [blockJoined_groups groups h]
  have := wsSplit_replBoth_groups groups h [] (Or.inl rfl)
  rw [List.append_nil] at this
  have h0 : wsSplit ([] : Str) = [] := rfl
  rw [h0, List.append_nil] at this
  exact this

/-! ## Lemmas: membership in joined strings and containment tests -/

theorem joinSp_mem_of {c : Char} : ∀ {ts : List Str} {t : Str}, t ∈ ts → c ∈ t → c ∈ joinSp ts
  | [], _, ht, _ => absurd ht (List.not_mem_nil _)
  | [x], t, ht, hc => by
      rcases List.mem_singleton.mp ht with rfl
      simpa [joinSp] using hc
  | x :: y :: ts, t, ht, hc => by
      rw [joinSp_cons_cons x (y :: ts) (by simp)]
      rcases List.mem_cons.mp ht with rfl | ht2
      · exact List.mem_append_left _ hc
      · exact List.mem_append_right _ (List.mem_cons_of_mem _ (joinSp_mem_of ht2 hc))

theorem contains_false_of (s : Str) (c : Char) (h : ∀ x ∈ s, x ≠ c) :
    s.contains c = false := by
  induction s with
  | nil => rfl
  | cons a t ih =>
      simp only [List.contains_cons, Bool.or_eq_false_iff, beq_eq_false_iff_ne]
      exact ⟨fun he => h a (List.mem_cons_self ..) he.symm,
        ih (fun x hx => h x (List.mem_cons_of_mem _ hx))⟩

theorem contains_true_of (s : Str) (c : Char) (h : c ∈ s) : s.contains c = true :=
  List.elem_eq_true_of_mem h

/-! ## Lemmas: block accumulation -/

theorem collectBlock_stop (last : Str) (ls : List Str) (h : last.contains ';' = true) :
    collectBlock last ls = ([], ls) := by
  unfold collectBlock
  rw [h]
  simp

theorem collectBlock_split :
    ∀ (mid : List Str) (last fin : Str) (rest : List Str),
      last.contains ';' = false → (∀ l ∈ mid, l.contains ';' = false) →
      fin.contains ';' = true →
      collectBlock last (mid ++ fin :: rest) = (mid ++ [fin], rest)
  | [], last, fin, rest, hl, _, hf => by
      unfold collectBlock
      rw [hl]
      simp only [List.nil_append]
      rw [collectBlock_stop fin rest hf]
      simp
  | m :: mid, last, fin, rest, hl, hm, hf => by
      unfold collectBlock
      rw [hl]
      simp only [List.cons_append]
      rw [collectBlock_split mid m fin rest (hm m (List.mem_cons_self ..))
        (fun l h2 => hm l (List.mem_cons_of_mem _ h2)) hf]
      simp

theorem collectBlock_all :
    ∀ (ls : List Str) (last : Str), last.contains ';' = false →
      (∀ l ∈ ls, l.contains ';' = false) →
      collectBlock last ls = (ls, [])
  | [], last, hl, _ => by
      unfold collectBlock
      rw [hl]
      simp
  | m :: ls, last, hl, hm => by
      unfold collectBlock
      rw [hl]
      simp only
      rw [collectBlock_all ls m (hm m (List.mem_cons_self ..))
        (fun l h2 => hm l (List.mem_cons_of_mem _ h2))]
      simp

/-! ## Lemmas: association-list dictionaries -/

theorem alookup_upsert_self {α : Type} (m : List (Str × α)) (k : Str) (v : α) :
    alookup (upsert m k v) k = some v := by
  induction m with
  | nil => simp [upsert, alookup]
  | cons p m ih =>
      obtain ⟨k1, v1⟩ := p
      by_cases hk : k1 = k
      · subst hk; simp [upsert, alookup]
      · simp [upsert, alookup, hk, ih]

theorem alookup_upsert_ne {α : Type} (m : List (Str × α)) (k k2 : Str) (v : α)
    (h : k2 ≠ k) : alookup (upsert m k v) k2 = alookup m k2 := by
  have hne : ¬ (k = k2) := fun he => h (Eq.symm he)
  induction m with
  | nil => simp [upsert, alookup, hne]
  | cons p m ih =>
      obtain ⟨k1, v1⟩ := p
      by_cases hk : k1 = k
      · subst hk
        simp [upsert, alookup, hne]
      · simp [upsert, alookup, hk, ih]

theorem upsert_upsert {α : Type} (m : List (Str × α)) (k : Str) (v1 v2 : α) :
    upsert (upsert m k v1) k v2 = upsert m k v2 := by
  induction m with
  | nil => simp [upsert]
  | cons p m ih =>
      obtain ⟨k1, w⟩ := p
      by_cases hk : k1 = k
      · subst hk; simp [upsert]
      · simp [upsert, hk, ih]

/-! ## Lemmas: token index -/

theorem idxOfTok_not_mem {t : Str} : ∀ {l : List Str}, t ∉ l → idxOfTok t l = none
  | [], _ => rfl
  | x :: xs, h => by
      have hx : x ≠ t := fun he => h (he ▸ List.mem_cons_self ..)
      simp only [idxOfTok, hx, if_false]
      rw [idxOfTok_not_mem (fun hm => h (List.mem_cons_of_mem _ hm))]
      rfl

theorem idxOfTok_append_self (t : Str) :
    ∀ (pre : List Str), t ∉ pre → ∀ (post : List Str),
      idxOfTok t (pre ++ t :: post) = some pre.length
  | [], _, post => by simp [idxOfTok]
  | x :: pre, h, post => by
      have hx : x ≠ t := fun he => h (he ▸ List.mem_cons_self ..)
      simp only [List.cons_append, idxOfTok, hx, if_false]
      rw [show pre.append (t :: post) = pre ++ t :: post from rfl,
        idxOfTok_append_self t pre (fun hm => h (List.mem_cons_of_mem _ hm)) post]
      simp

/-! ## Lemmas: when the scalar regex cannot match -/

theorem matchScalar_not_param (s : Str)
    (h : ('p' :: 'a' :: 'r' :: 'a' :: 'm' :: []).isPrefixOf s = false) :
    matchScalar s = none := by
  unfold matchScalar
  rw [h]
  simp

theorem matchScalar_some_semi {s : Str} {nv : Str × Str} (h : matchScalar s = some nv) :
    ';' ∈ s := by
  unfold matchScalar at h
  split at h
  · simp only at h
    split at h
    · split at h
      · split at h
        · split at h
          · split at h
            · rename_i r4 heq4
              split at h
              · rename_i r6 heq6
                have hmem : ';' ∈ r4.dropWhile (fun c => c ≠ ';') := by
                  rw [heq6]; exact List.mem_cons_self ..
                have h1 : ';' ∈ r4 := List.IsSuffix.mem hmem (List.dropWhile_suffix _)
                have h2 : ';' ∈ (((s.drop 5).dropWhile isWsC).dropWhile isWordC).dropWhile isWsC := by
                  rw [heq4]; exact List.mem_cons_of_mem _ h1
                have h3 : ';' ∈ s.drop 5 :=
                  List.IsSuffix.mem (List.IsSuffix.mem (List.IsSuffix.mem h2
                    (List.dropWhile_suffix _)) (List.dropWhile_suffix _)) (List.dropWhile_suffix _)
                exact List.IsSuffix.mem h3 (List.drop_suffix 5 s)
              · exact absurd h (by simp)
            · exact absurd h (by simp)
          · exact absurd h (by simp)
        · exact absurd h (by simp)
      · exact absurd h (by simp)
    · exact absurd h (by simp)
  · exact absurd h (by simp)

theorem matchScalar_none_of_noSemi (s : Str) (h : ∀ c ∈ s, c ≠ ';') :
    matchScalar s = none := by
  cases hm : matchScalar s with
  | none => rfl
  | some nv => exact absurd rfl (h ';' (matchScalar_some_semi hm))

/-! ## Lemmas: one loop step per statement kind -/

theorem parseLoop_scalar (fname : Str) (f : Nat) (doc : Doc) (l : Str) (rest : List Str)
    (nv : Str × Str) (h : matchScalar (stripComments l) = some nv) :
    parseLoopF fname (f + 1) doc (l :: rest)
      = parseLoopF fname f { doc with params := upsert doc.params nv.1 (pvalOf nv.2) } rest := by
  have hne : (stripComments l).isEmpty = false := by
    cases hl : stripComments l with
    | nil => rw [hl] at h; exact absurd h (by simp [matchScalar])
    | cons a b => rfl
  simp only [parseLoopF]
  rw [hne, h]
  simp

theorem parseLoop_set (fname : Str) (f : Nat) (doc : Doc) (l : Str) (rest : List Str)
    (h1 : matchScalar (stripComments l) = none)
    (h2 : setKw.isPrefixOf (stripComments l) = true) :
    parseLoopF fname (f + 1) doc (l :: rest)
      = match doSet fname (stripComments l) doc rest with
        | .ok dr => parseLoopF fname f dr.1 dr.2
        | .error e => .error e := by
  have hne : (stripComments l).isEmpty = false := by
    cases hl : stripComments l with
    | nil => rw [hl] at h2; exact absurd h2 (by simp [setKw, List.isPrefixOf])
    | cons a b => rfl
  simp only [parseLoopF]
  rw [hne, h1, h2]
  simp

theorem parseLoop_1d (fname : Str) (f : Nat) (doc : Doc) (l : Str) (rest : List Str)
    (h1 : matchScalar (stripComments l) = none)
    (h2 : setKw.isPrefixOf (stripComments l) = false)
    (h3 : paramKw.isPrefixOf (stripComments l) = true)
    (h4 : hasAssign (stripComments l) = true)
    (h5 : (beforeAssign (stripComments l)).contains ':' = false) :
    parseLoopF fname (f + 1) doc (l :: rest)
      = match do1D (stripComments l) doc rest with
        | .ok dr => parseLoopF fname f dr.1 dr.2
        | .error e => .error e := by
  have hne : (stripComments l).isEmpty = false := by
    cases hl : stripComments l with
    | nil => rw [hl] at h3; exact absurd h3 (by simp [paramKw, List.isPrefixOf])
    | cons a b => rfl
  simp only [parseLoopF]
  rw [hne, h1, h2, h3, h4, h5]
  simp

theorem parseLoop_2d (fname : Str) (f : Nat) (doc : Doc) (l : Str) (rest : List Str)
    (h1 : matchScalar (stripComments l) = none)
    (h2 : setKw.isPrefixOf (stripComments l) = false)
    (h3 : paramKw.isPrefixOf (stripComments l) = true)
    (h4 : hasAssign (stripComments l) = true)
    (h5 : (beforeAssign (stripComments l)).contains ':' = true) :
    parseLoopF fname (f + 1) doc (l :: rest)
      = match do2D (stripComments l) doc rest with
        | .ok dr => parseLoopF fname f dr.1 dr.2
        | .error e => .error e := by
  have hne : (stripComments l).isEmpty = false := by
    cases hl : stripComments l with
    | nil => rw [hl] at h3; exact absurd h3 (by simp [paramKw, List.isPrefixOf])
    | cons a b => rfl
  simp only [parseLoopF]
  rw [hne, h1, h2, h3, h4, h5]
  simp

/-! ## Lemmas: substring containment of built messages -/

theorem isPrefixOf_append_self (l x : List Char) : l.isPrefixOf (l ++ x) = true := by
  rw [List.isPrefixOf_iff_prefix]
  exact List.prefix_append l x

theorem strContains_here (nd b : Str) : strContains nd (nd ++ b) = true := by
  cases nd with
  | nil =>
      cases b with
      | nil => rfl
      | cons c t => simp [strContains, List.isPrefixOf]
  | cons c t =>
      have h1 : (c :: t).isPrefixOf ((c :: t) ++ b) = true := isPrefixOf_append_self _ _
      rw [List.cons_append]
      simp only [strContains, List.append_eq]
      rw [← List.cons_append, h1]
      simp

theorem strContains_append_mid (nd : Str) : ∀ (a b : Str), strContains nd (a ++ nd ++ b) = true
  | [], b => by
      rw [List.nil_append]
      exact strContains_here nd b
  | x :: a, b => by
      simp only [List.cons_append, strContains, List.append_eq]
      have := strContains_append_mid nd a b
      simp only [List.append_eq] at this
      rw [this]
      simp

/-! ## Lemmas: the set branch on well-formed statements -/

theorem firstLine_facts (g0 : List Str) (hset : ∀ t ∈ setTok3 :: g0, setBlockTok t) :
    stripComments (joinSp (setTok3 :: g0)) = joinSp (setTok3 :: g0)
    ∧ matchScalar (joinSp (setTok3 :: g0)) = none := by
  constructor
  · exact stripComments_joinSp _ (fun t ht => setBlockTok_clean (hset t ht))
  · apply matchScalar_not_param
    cases g0 with
    | nil => rfl
    | cons g g0 =>
        rw [joinSp_cons_cons setTok3 (g :: g0) (by simp)]
        rfl

theorem setKw_prefix_of_joinSp (g0 : List Str) (hne : g0 ≠ []) :
    setKw.isPrefixOf (joinSp (setTok3 :: g0)) = true := by
  rw [joinSp_cons_cons setTok3 g0 hne]
  have : setTok3 ++ ' ' :: joinSp g0 = setKw ++ joinSp g0 := rfl
  rw [this]
  exact isPrefixOf_append_self setKw (joinSp g0)

theorem setLine_no_assign_no_semi (ts : List Str) (h : ∀ t ∈ ts, plainTok t = true) :
    ∀ c ∈ joinSp ts, c ≠ ';' := by
  intro c hc
  rcases mem_joinSp hc with rfl | ⟨l, hl, hcl⟩
  · decide
  · exact (plainTok_spec (h l hl)).2.2.1 c hcl

/-- Core evaluation of the set branch: once the block accumulation and
its token list are known to form set S := e1 ... ek ;, the branch
stores exactly the elements between ":=" and ";". -/
theorem doSet_eval (fname line : Str) (doc : Doc) (rest extras rest2 : List Str)
    (s0 : Str) (es : List Str)
    (hS : plainTok s0 = true) (hes : ∀ e ∈ es, plainTok e = true)
    (hcb : collectBlock line rest = (extras, rest2))
    (htoks : blockToks (line :: extras) = setTok3 :: s0 :: assignTok :: (es ++ [semiTok])) :
    doSet fname line doc rest = .ok ({ doc with sets := upsert doc.sets s0 es }, rest2) := by
  unfold doSet
  simp only
  rw [hcb]
  simp only
  rw [htoks]
  have hidx1 : idxOfTok assignTok (setTok3 :: s0 :: assignTok :: (es ++ [semiTok]))
      = some 2 := by
    have : setTok3 :: s0 :: assignTok :: (es ++ [semiTok])
        = [setTok3, s0] ++ assignTok :: (es ++ [semiTok]) := rfl
    rw [this, idxOfTok_append_self assignTok [setTok3, s0] (by
      intro hm
      rcases List.mem_cons.mp hm with he | hm
      · exact absurd he.symm (by decide)
      rcases List.mem_singleton.mp hm with he
      · exact absurd he.symm (plainTok_ne_assign hS)) (es ++ [semiTok])]
    rfl
  have hidx2 : idxOfTok semiTok (setTok3 :: s0 :: assignTok :: (es ++ [semiTok]))
      = some (3 + es.length) := by
    have heq : setTok3 :: s0 :: assignTok :: (es ++ [semiTok])
        = ([setTok3, s0, assignTok] ++ es) ++ semiTok :: [] := by simp
    rw [heq, idxOfTok_append_self semiTok ([setTok3, s0, assignTok] ++ es) (by
      intro hm
      rcases List.mem_append.mp hm with hm | hm
      · rcases List.mem_cons.mp hm with he | hm
        · exact absurd he.symm (by decide)
        rcases List.mem_cons.mp hm with he | hm
        · exact absurd he.symm (plainTok_ne_semi hS)
        rcases List.mem_singleton.mp hm with he
        · exact absurd he.symm (by decide)
      · exact plainTok_ne_semi (hes _ hm) rfl) []]
    simp only [Option.some.injEq, List.length_append, List.length_cons, List.length_nil]
  rw [hidx1, hidx2]
  simp only
  have hdrop : (setTok3 :: s0 :: assignTok :: (es ++ [semiTok])).drop (2 + 1)
      = es ++ [semiTok] := rfl
  rw [hdrop]
  have harith : 3 + es.length - (2 + 1) = es.length := by omega
  rw [harith, List.take_left es [semiTok]]

/-- Evaluation of the set branch on a one-line set statement with
well-formed tokens. -/
theorem doSet_setLine (fname s0 : Str) (es : List Str) (doc : Doc) (rest : List Str)
    (hS : plainTok s0 = true) (hes : ∀ e ∈ es, plainTok e = true) :
    doSet fname (setLine s0 es) doc rest
      = .ok ({ doc with sets := upsert doc.sets s0 es }, rest) := by
  have hall : ∀ t ∈ setTok3 :: s0 :: assignTok :: (es ++ [semiTok]), setBlockTok t := by
    intro t ht
    rcases List.mem_cons.mp ht with rfl | ht
    · exact Or.inl (by decide)
    rcases List.mem_cons.mp ht with rfl | ht
    · exact Or.inl hS
    rcases List.mem_cons.mp ht with rfl | ht
    · exact Or.inr (Or.inl rfl)
    rcases List.mem_append.mp ht with ht | ht
    · exact Or.inl (hes t ht)
    · rcases List.mem_singleton.mp ht with rfl
      exact Or.inr (Or.inr rfl)
  have hsemi : (setLine s0 es).contains ';' = true := by
    apply contains_true_of
    exact joinSp_mem_of (t := semiTok) (by simp) (by simp [semiTok])
  apply doSet_eval fname _ doc rest [] rest s0 es hS hes
    (collectBlock_stop _ rest hsemi)
  have hblock : (setLine s0 es) :: ([] : List Str)
      = ([setTok3 :: s0 :: assignTok :: (es ++ [semiTok])]).map joinSp := rfl
  rw [hblock, blockToks_groups _ (by simpa using hall)]
  simp

theorem joinSp_no_semi (ts : List Str) (h : ∀ t ∈ ts, ∀ c ∈ t, c ≠ ';') :
    (joinSp ts).contains ';' = false := by
  apply contains_false_of
  intro c hc
  rcases mem_joinSp hc with rfl | ⟨l, hl, hcl⟩
  · decide
  · exact h l hl c hcl

/-- Evaluation of the set branch on a multi-line set statement: the
first line carries "set S :=" and a first chunk of elements, middle
lines further chunks, the last line the final chunk and ";". -/
theorem doSet_setLinesOf (fname s0 : Str) (c0 : List Str) (mids : List (List Str))
    (cl : List Str) (doc : Doc) (rest : List Str)
    (hS : plainTok s0 = true)
    (hc0 : ∀ e ∈ c0, plainTok e = true)
    (hmids : ∀ g ∈ mids, ∀ e ∈ g, plainTok e = true)
    (hcl : ∀ e ∈ cl, plainTok e = true) :
    doSet fname (joinSp (setTok3 :: s0 :: assignTok :: c0)) doc
        (mids.map joinSp ++ (joinSp (cl ++ [semiTok]) :: rest))
      = .ok ({ doc with sets := upsert doc.sets s0 (c0 ++ mids.flatten ++ cl) }, rest) := by
  have hnosemi0 : (joinSp (setTok3 :: s0 :: assignTok :: c0)).contains ';' = false := by
    apply joinSp_no_semi
    intro t ht
    rcases List.mem_cons.mp ht with rfl | ht
    · decide
    rcases List.mem_cons.mp ht with rfl | ht
    · exact (plainTok_spec hS).2.2.1
    rcases List.mem_cons.mp ht with rfl | ht
    · decide
    · exact (plainTok_spec (hc0 t ht)).2.2.1
  have hnosemiM : ∀ l ∈ mids.map joinSp, l.contains ';' = false := by
    intro l hl
    obtain ⟨g, hg, rfl⟩ := List.mem_map.mp hl
    exact joinSp_no_semi g (fun t ht => (plainTok_spec (hmids g hg t ht)).2.2.1)
  have hsemiL : (joinSp (cl ++ [semiTok])).contains ';' = true :=
    contains_true_of _ _ (joinSp_mem_of (t := semiTok) (by simp) (by simp [semiTok]))
  have hcb := collectBlock_split (mids.map joinSp) _ _ rest hnosemi0 hnosemiM hsemiL
  apply doSet_eval fname _ doc _ _ rest s0 (c0 ++ mids.flatten ++ cl) hS
    (by
      intro e he
      rcases List.mem_append.mp he with he | he
      · rcases List.mem_append.mp he with he | he
        · exact hc0 e he
        · obtain ⟨g, hg, heg⟩ := List.mem_flatten.mp he
          exact hmids g hg e heg
      · exact hcl e he) hcb
  have hblock : joinSp (setTok3 :: s0 :: assignTok :: c0)
        :: (mids.map joinSp ++ [joinSp (cl ++ [semiTok])])
      = ((setTok3 :: s0 :: assignTok :: c0) :: (mids ++ [cl ++ [semiTok]])).map joinSp := by
    simp [List.map_append]
  rw [hblock]
  rw [blockToks_groups _ (by
    intro t ht
    rw [List.flatten_cons] at ht
    rcases List.mem_append.mp ht with ht | ht
    · rcases List.mem_cons.mp ht with rfl | ht
      · exact Or.inl (by decide)
      rcases List.mem_cons.mp ht with rfl | ht
      · exact Or.inl hS
      rcases List.mem_cons.mp ht with rfl | ht
      · exact Or.inr (Or.inl rfl)
      · exact Or.inl (hc0 t ht)
    · rw [List.flatten_append] at ht
      rcases List.mem_append.mp ht with ht | ht
      · obtain ⟨g, hg, htg⟩ := List.mem_flatten.mp ht
        exact Or.inl (hmids g hg t htg)
      · simp only [List.flatten_cons, List.flatten_nil, List.append_nil] at ht
        rcases List.mem_append.mp ht with ht | ht
        · exact Or.inl (hcl t ht)
        · rcases List.mem_singleton.mp ht with rfl
          exact Or.inr (Or.inr rfl))]
  simp [List.flatten_append, List.append_assoc]

/-! ## Lemmas: character provenance through the processing chain -/

theorem mem_pyStrip {c : Char} {s : Str} (h : c ∈ pyStrip s) : c ∈ s := by
  unfold pyStrip at h
  rw [List.mem_reverse] at h
  have h1 := List.IsSuffix.mem h (List.dropWhile_suffix _)
  rw [List.mem_reverse] at h1
  exact List.IsSuffix.mem h1 (List.dropWhile_suffix _)

theorem mem_stripComments {c : Char} {s : Str} (h : c ∈ stripComments s) : c ∈ s := by
  unfold stripComments at h
  have h1 := mem_pyStrip h
  exact List.IsPrefix.mem h1 (List.takeWhile_prefix _)

theorem mem_replAssign {c : Char} : ∀ {s : Str}, c ∈ replAssign s → c ∈ s ∨ c = ' ' := by
  intro s
  induction s using replAssign.induct with
  | case1 r ih =>
      intro h
      simp only [replAssign, List.mem_cons] at h
      rcases h with rfl | rfl | rfl | rfl | h
      · exact Or.inr rfl
      · exact Or.inl (by simp)
      · exact Or.inl (by simp)
      · exact Or.inr rfl
      · rcases ih h with h2 | h2
        · exact Or.inl (by simp [h2])
        · exact Or.inr h2
  | case2 c2 r hne ih =>
      intro h
      have hcond : c2 ≠ ':' ∨ r.head? ≠ some '=' := by
        by_cases hc : c2 = ':'
        · subst hc
          refine Or.inr ?_
          cases r with
          | nil => simp
          | cons d r2 => simpa using fun he => hne r2 rfl (by rw [he])
        · exact Or.inl hc
      rw [replAssign_cons_ne c2 r hcond] at h
      rcases List.mem_cons.mp h with rfl | h
      · exact Or.inl (List.mem_cons_self ..)
      · rcases ih h with h2 | h2
        · exact Or.inl (List.mem_cons_of_mem _ h2)
        · exact Or.inr h2
  | case3 =>
      intro h
      simp [replAssign] at h

theorem mem_replSemiTok {c : Char} : ∀ {s : Str}, c ∈ replSemiTok s → c ∈ s ∨ c = ' ' := by
  intro s
  induction s using replSemiTok.induct with
  | case1 r ih =>
      intro h
      simp only [replSemiTok, List.mem_cons] at h
      rcases h with rfl | rfl | rfl | h
      · exact Or.inr rfl
      · exact Or.inl (by simp)
      · exact Or.inr rfl
      · rcases ih h with h2 | h2
        · exact Or.inl (by simp [h2])
        · exact Or.inr h2
  | case2 c2 r hne ih =>
      intro h
      rw [replSemiTok_cons_ne c2 r (fun he => hne he)] at h
      rcases List.mem_cons.mp h with rfl | h
      · exact Or.inl (List.mem_cons_self ..)
      · rcases ih h with h2 | h2
        · exact Or.inl (List.mem_cons_of_mem _ h2)
        · exact Or.inr h2
  | case3 =>
      intro h
      simp [replSemiTok] at h

theorem mem_of_wsSplitAux {c : Char} {t : Str} :
    ∀ {acc s : Str}, t ∈ wsSplitAux acc s → c ∈ t → c ∈ acc ∨ c ∈ s := by
  intro acc s
  induction s generalizing acc with
  | nil =>
      intro ht hc
      simp only [wsSplitAux] at ht
      split at ht
      · exact absurd ht (List.not_mem_nil _)
      · rcases List.mem_singleton.mp ht with rfl
        exact Or.inl (List.mem_reverse.mp hc)
  | cons a s ih =>
      intro ht hc
      simp only [wsSplitAux] at ht
      split at ht
      · split at ht
        · rcases ih ht hc with h | h
          · exact absurd h (List.not_mem_nil _)
          · exact Or.inr (List.mem_cons_of_mem _ h)
        · rcases List.mem_cons.mp ht with rfl | ht2
          · exact Or.inl (List.mem_reverse.mp hc)
          · rcases ih ht2 hc with h | h
            · exact absurd h (List.not_mem_nil _)
            · exact Or.inr (List.mem_cons_of_mem _ h)
      · rcases ih ht hc with h | h
        · rcases List.mem_cons.mp h with rfl | h2
          · exact Or.inr (List.mem_cons_self ..)
          · exact Or.inl h2
        · exact Or.inr (List.mem_cons_of_mem _ h)

theorem mem_of_wsSplit {c : Char} {t : Str} {s : Str} (ht : t ∈ wsSplit s) (hc : c ∈ t) :
    c ∈ s := by
  rcases mem_of_wsSplitAux ht hc with h | h
  · exact absurd h (List.not_mem_nil _)
  · exact h

/-- Tokens of a set block contain only characters of the block lines,
or blanks. -/
theorem blockToks_chars {c : Char} {t : Str} {block : List Str}
    (ht : t ∈ blockToks block) (hc : c ∈ t) (hcna : c ≠ ' ') :
    ∃ l ∈ block, c ∈ l := by
  unfold blockToks replBoth at ht
  have h1 := mem_of_wsSplit ht hc
  rcases mem_replSemiTok h1 with h2 | h2
  · rcases mem_replAssign h2 with h3 | h3
    · rcases mem_joinSp h3 with rfl | ⟨l2, hl2, hcl2⟩
      · exact absurd rfl hcna
      · obtain ⟨l, hl, rfl⟩ := List.mem_map.mp hl2
        exact ⟨l, hl, mem_stripComments hcl2⟩
    · exact absurd h3 hcna
  · exact absurd h2 hcna

/-! ## Lemmas: the set branch on malformed statements -/

/-- Evaluation of the set branch when the block has no ":=" token: the
explicit ValueError, whose text names the file and the joined block. -/
theorem doSet_noAssign_eval (fname line : Str) (doc : Doc) (rest extras rest2 : List Str)
    (toks : List Str)
    (hcb : collectBlock line rest = (extras, rest2))
    (htoks : blockToks (line :: extras) = toks)
    (hshape : ∃ a b more, toks = a :: b :: more)
    (hno : assignTok ∉ toks) :
    doSet fname line doc rest
      = .error (malformedSetMsg fname (blockJoined (line :: extras))) := by
  obtain ⟨a, b, more, rfl⟩ := hshape
  unfold doSet
  simp only
  rw [hcb]
  simp only
  rw [htoks, idxOfTok_not_mem hno]

/-- Every path of the set branch raises when neither the first line nor
any following line contains a ';' character. -/
theorem doSet_noSemi_error (fname line : Str) (doc : Doc) (rest : List Str)
    (hline : ∀ c ∈ line, c ≠ ';') (hrest : ∀ l ∈ rest, ∀ c ∈ l, c ≠ ';') :
    ∃ e, doSet fname line doc rest = .error e := by
  have hcb : collectBlock line rest = (rest, []) :=
    collectBlock_all rest line (contains_false_of _ _ hline)
      (fun l hl => contains_false_of _ _ (hrest l hl))
  have hsemi_tok : semiTok ∉ blockToks (line :: rest) := by
    intro hmem
    obtain ⟨l, hl, hcl⟩ := blockToks_chars (c := ';') hmem (by simp [semiTok]) (by decide)
    rcases List.mem_cons.mp hl with rfl | hl2
    · exact hline ';' hcl rfl
    · exact hrest l hl2 ';' hcl rfl
  unfold doSet
  simp only
  rw [hcb]
  simp only
  cases htoks : blockToks (line :: rest) with
  | nil => exact ⟨idxErrMsg, rfl⟩
  | cons a toks2 =>
      cases toks2 with
      | nil => exact ⟨idxErrMsg, rfl⟩
      | cons b more =>
          cases hidx : idxOfTok assignTok (a :: b :: more) with
          | none => exact ⟨_, rfl⟩
          | some i =>
              rw [htoks] at hsemi_tok
              rw [idxOfTok_not_mem hsemi_tok]
              exact ⟨semiNotInListMsg, rfl⟩

theorem assign_notMem_NA (c0 : List Str)
    (hc0 : ∀ e ∈ c0, plainTok e = true) :
    assignTok ∉ setTok3 :: (c0 ++ [semiTok]) := by
  intro hm
  rcases List.mem_cons.mp hm with he | hm
  · exact absurd he (by decide)
  rcases List.mem_append.mp hm with hm | hm
  · exact plainTok_ne_assign (hc0 _ hm) rfl
  · rcases List.mem_singleton.mp hm with he
    exact absurd he (by decide)

/-- Evaluation of the set branch on a one-line set statement missing
":=": the explicit Malformed-Block ValueError. -/
theorem doSet_setLineNA (fname : Str) (c0 : List Str) (doc : Doc) (rest : List Str)
    (hc0 : ∀ e ∈ c0, plainTok e = true) :
    doSet fname (setLineNA c0) doc rest
      = .error (malformedSetMsg fname (setLineNA c0)) := by
  have hall : ∀ t ∈ setTok3 :: (c0 ++ [semiTok]), setBlockTok t := by
    intro t ht
    rcases List.mem_cons.mp ht with rfl | ht
    · exact Or.inl (by decide)
    rcases List.mem_append.mp ht with ht | ht
    · exact Or.inl (hc0 t ht)
    · rcases List.mem_singleton.mp ht with rfl
      exact Or.inr (Or.inr rfl)
  have hsemi : (setLineNA c0).contains ';' = true :=
    contains_true_of _ _ (joinSp_mem_of (t := semiTok) (by simp) (by simp [semiTok]))
  have htoks : blockToks ((setLineNA c0) :: []) = setTok3 :: (c0 ++ [semiTok]) := by
    have hblock : (setLineNA c0) :: ([] : List Str)
        = ([setTok3 :: (c0 ++ [semiTok])]).map joinSp := rfl
    rw [hblock, blockToks_groups _ (by simpa using hall)]
    simp
  have hres := doSet_noAssign_eval fname (setLineNA c0) doc rest [] rest
    (setTok3 :: (c0 ++ [semiTok]))
    (collectBlock_stop _ rest hsemi) htoks
    (by
      cases c0 with
      | nil => exact ⟨setTok3, semiTok, [], rfl⟩
      | cons e c0r => exact ⟨setTok3, e, c0r ++ [semiTok], rfl⟩)
    (assign_notMem_NA c0 hc0)
  rw [hres]
  have hbj : blockJoined ((setLineNA c0) :: []) = setLineNA c0 := by
    have hblock : (setLineNA c0) :: ([] : List Str)
        = ([setTok3 :: (c0 ++ [semiTok])]).map joinSp := rfl
    rw [hblock, blockJoined_groups _ (by simpa using hall)]
    rfl
  rw [hbj]

/-- Evaluation of the set branch on a multi-line set statement missing
":=" everywhere. -/
theorem doSet_setLinesNA (fname : Str) (c0 : List Str) (mids : List (List Str))
    (cl : List Str) (doc : Doc) (rest : List Str)
    (hc0 : ∀ e ∈ c0, plainTok e = true)
    (hmids : ∀ g ∈ mids, ∀ e ∈ g, plainTok e = true)
    (hcl : ∀ e ∈ cl, plainTok e = true) :
    doSet fname (joinSp (setTok3 :: c0)) doc
        (mids.map joinSp ++ (joinSp (cl ++ [semiTok]) :: rest))
      = .error (malformedSetMsg fname
          (joinSp (((setTok3 :: c0) :: (mids ++ [cl ++ [semiTok]])).map joinSp))) := by
  have hall : ∀ t ∈ ((setTok3 :: c0) :: (mids ++ [cl ++ [semiTok]])).flatten, setBlockTok t := by
    intro t ht
    rw [List.flatten_cons] at ht
    rcases List.mem_append.mp ht with ht | ht
    · rcases List.mem_cons.mp ht with rfl | ht
      · exact Or.inl (by decide)
      · exact Or.inl (hc0 t ht)
    · rw [List.flatten_append] at ht
      rcases List.mem_append.mp ht with ht | ht
      · obtain ⟨g, hg, htg⟩ := List.mem_flatten.mp ht
        exact Or.inl (hmids g hg t htg)
      · simp only [List.flatten_cons, List.flatten_nil, List.append_nil] at ht
        rcases List.mem_append.mp ht with ht | ht
        · exact Or.inl (hcl t ht)
        · rcases List.mem_singleton.mp ht with rfl
          exact Or.inr (Or.inr rfl)
  have hnosemi0 : (joinSp (setTok3 :: c0)).contains ';' = false := by
    apply joinSp_no_semi
    intro t ht
    rcases List.mem_cons.mp ht with rfl | ht
    · decide
    · exact (plainTok_spec (hc0 t ht)).2.2.1
  have hnosemiM : ∀ l ∈ mids.map joinSp, l.contains ';' = false := by
    intro l hl
    obtain ⟨g, hg, rfl⟩ := List.mem_map.mp hl
    exact joinSp_no_semi g (fun t ht => (plainTok_spec (hmids g hg t ht)).2.2.1)
  have hsemiL : (joinSp (cl ++ [semiTok])).contains ';' = true :=
    contains_true_of _ _ (joinSp_mem_of (t := semiTok) (by simp) (by simp [semiTok]))
  have hcb := collectBlock_split (mids.map joinSp) _ _ rest hnosemi0 hnosemiM hsemiL
  have hblock : joinSp (setTok3 :: c0) :: (mids.map joinSp ++ [joinSp (cl ++ [semiTok])])
      = ((setTok3 :: c0) :: (mids ++ [cl ++ [semiTok]])).map joinSp := by
    simp [List.map_append]
  have htoks : blockToks (joinSp (setTok3 :: c0) :: (mids.map joinSp ++ [joinSp (cl ++ [semiTok])]))
      = setTok3 :: (c0 ++ mids.flatten ++ cl ++ [semiTok]) := by
    rw [hblock, blockToks_groups _ hall]
    simp [List.flatten_append, List.append_assoc]
  have hres := doSet_noAssign_eval fname (joinSp (setTok3 :: c0)) doc _ _ rest
    (setTok3 :: (c0 ++ mids.flatten ++ cl ++ [semiTok])) hcb htoks
    (by
      cases hcc : c0 ++ mids.flatten ++ cl ++ [semiTok] with
      | nil => exact absurd hcc (by simp)
      | cons e r => exact ⟨setTok3, e, r, rfl⟩)
    (by
      intro hm
      rcases List.mem_cons.mp hm with he | hm
      · exact absurd he (by decide)
      rcases List.mem_append.mp hm with hm | hm
      · rcases List.mem_append.mp hm with hm | hm
        · rcases List.mem_append.mp hm with hm | hm
          · exact plainTok_ne_assign (hc0 _ hm) rfl
          · obtain ⟨g, hg, hmg⟩ := List.mem_flatten.mp hm
            exact plainTok_ne_assign (hmids g hg _ hmg) rfl
        · exact plainTok_ne_assign (hcl _ hm) rfl
      · rcases List.mem_singleton.mp hm with he
        exact absurd he (by decide))
  rw [hres]
  have hbj : blockJoined (joinSp (setTok3 :: c0) :: (mids.map joinSp ++ [joinSp (cl ++ [semiTok])]))
      = joinSp (((setTok3 :: c0) :: (mids ++ [cl ++ [semiTok]])).map joinSp) := by
    rw [hblock, blockJoined_groups _ hall]
  rw [hbj]

/-! ## Lemmas: plain whitespace splitting of joined tokens -/

theorem wsSplit_joinSp_append :
    ∀ (ts : List Str), (∀ t ∈ ts, noWsTok t = true) →
      ∀ (s : Str), (s = [] ∨ ∃ c s2, s = c :: s2 ∧ isWsC c = true) →
      wsSplit (joinSp ts ++ s) = ts ++ wsSplit s
  | [], _, s, _ => rfl
  | [t], h, s, hs => by
      obtain ⟨hne, hws⟩ := noWsTok_spec (h t (List.mem_cons_self ..))
      exact wsSplit_tok_cons t hne hws s hs
  | t :: t2 :: ts, h, s, hs => by
      rw [joinSp_cons_cons t (t2 :: ts) (by simp), List.append_assoc, List.cons_append]
      obtain ⟨hne, hws⟩ := noWsTok_spec (h t (List.mem_cons_self ..))
      rw [wsSplit_tok_cons t hne hws (' ' :: (joinSp (t2 :: ts) ++ s)) (Or.inr ⟨_, _, rfl, rfl⟩),
        wsSplit_sp,
        wsSplit_joinSp_append (t2 :: ts) (fun u hu => h u (List.mem_cons_of_mem _ hu)) s hs]
      rfl

theorem wsSplit_joinSp (ts : List Str) (h : ∀ t ∈ ts, noWsTok t = true) :
    wsSplit (joinSp ts) = ts := by
  have := wsSplit_joinSp_append ts h [] (Or.inl rfl)
  rw [List.append_nil] at this
  rw [this]
  simp [wsSplit, wsSplitAux]

/-! ## Lemmas: identity of the remaining character maps on clean text -/

theorem tabToSp_eq_self (s : Str) (h : ∀ c ∈ s, c ≠ '\t') : tabToSp s = s := by
  induction s with
  | nil => rfl
  | cons c r ih =>
      unfold tabToSp at ih ⊢
      simp only [List.map_cons]
      rw [if_neg (h c (List.mem_cons_self ..)), ih (fun x hx => h x (List.mem_cons_of_mem _ hx))]

theorem beforeAssign_eq_self : ∀ (t : Str), hasAssign t = false → beforeAssign t = t
  | [], _ => rfl
  | c :: r, h => by
      obtain ⟨h1, h2⟩ := hasAssign_false_cons h
      have hstep : beforeAssign (c :: r) = c :: beforeAssign r := by
        cases r with
        | nil =>
            rw [beforeAssign.eq_def]
            split
            · rename_i heq
              injection heq with e1 e2
              exact absurd e2 (by simp)
            · rename_i heq
              injection heq with e1 e2
              subst e1; subst e2
              rfl
            · rename_i heq; cases heq
        | cons d r2 =>
            rw [beforeAssign.eq_def]
            split
            · rename_i heq
              injection heq with e1 e2
              injection e2 with e2 e3
              subst e1; subst e2
              rcases h1 with h1 | h1
              · exact absurd rfl h1
              · exact absurd (by simp) h1
            · rename_i heq
              injection heq with e1 e2
              subst e1; subst e2
              rfl
            · rename_i heq; cases heq
      rw [hstep, beforeAssign_eq_self r h2]

theorem beforeAssign_no_colon :
    ∀ (a : Str), (∀ c ∈ a, c ≠ ':') → ∀ (z : Str),
      beforeAssign (a ++ ':' :: '=' :: z) = a
  | [], _, z => rfl
  | c :: a, h, z => by
      have hc : c ≠ ':' := h c (List.mem_cons_self ..)
      have hstep : ∀ (w : Str), beforeAssign (c :: w) = c :: beforeAssign w := by
        intro w
        cases w with
        | nil =>
            rw [beforeAssign.eq_def]
            split
            · rename_i heq
              injection heq with e1 e2
              exact absurd e2 (by simp)
            · rename_i heq
              injection heq with e1 e2
              subst e1; subst e2
              rfl
            · rename_i heq; cases heq
        | cons d r2 =>
            rw [beforeAssign.eq_def]
            split
            · rename_i heq
              injection heq with e1 e2
              exact absurd e1 hc
            · rename_i heq
              injection heq with e1 e2
              subst e1; subst e2
              rfl
            · rename_i heq; cases heq
      rw [List.cons_append, hstep,
        beforeAssign_no_colon a (fun x hx => h x (List.mem_cons_of_mem _ hx)) z]

/-! ## Lemmas: classification of a 1D header line -/

/-- The header line of a 1D statement, "param P :=". -/
theorem header1D_facts (p : Str) (hp : plainTok p = true) (hpc : ∀ c ∈ p, c ≠ ':') :
    stripComments (joinSp [paramTok, p, assignTok]) = joinSp [paramTok, p, assignTok]
    ∧ matchScalar (joinSp [paramTok, p, assignTok]) = none
    ∧ setKw.isPrefixOf (joinSp [paramTok, p, assignTok]) = false
    ∧ paramKw.isPrefixOf (joinSp [paramTok, p, assignTok]) = true
    ∧ hasAssign (joinSp [paramTok, p, assignTok]) = true
    ∧ (beforeAssign (joinSp [paramTok, p, assignTok])).contains ':' = false := by
  obtain ⟨hne, hws, hsemi, hhash, hha⟩ := plainTok_spec hp
  have hshape : joinSp [paramTok, p, assignTok] = (paramKw ++ p ++ [' ']) ++ ':' :: '=' :: [] := by
    rw [joinSp_cons_cons paramTok [p, assignTok] (by simp),
      joinSp_cons_cons p [assignTok] (by simp)]
    simp [paramTok, paramKw, assignTok, joinSp]
  have hnocolon : ∀ c ∈ paramKw ++ p ++ [' '], c ≠ ':' := by
    intro c hc
    rcases List.mem_append.mp hc with hc | hc
    · rcases List.mem_append.mp hc with hc | hc
      · intro he; subst he; simp [paramKw] at hc
      · exact hpc c hc
    · rcases List.mem_singleton.mp hc with rfl
      decide
  refine ⟨?_, ?_, ?_, ?_, ?_, ?_⟩
  · apply stripComments_joinSp
    intro t ht
    rcases List.mem_cons.mp ht with rfl | ht
    · exact ⟨by simp [paramTok], by decide, by decide⟩
    rcases List.mem_cons.mp ht with rfl | ht
    · exact plainTok_clean hp
    rcases List.mem_singleton.mp ht with rfl
    · exact ⟨by simp [assignTok], by decide, by decide⟩
  · apply matchScalar_none_of_noSemi
    intro c hc
    rcases mem_joinSp hc with rfl | ⟨l, hl, hcl⟩
    · decide
    rcases List.mem_cons.mp hl with rfl | hl
    · intro he; subst he; simp [paramTok] at hcl
    rcases List.mem_cons.mp hl with rfl | hl
    · exact hsemi c hcl
    rcases List.mem_singleton.mp hl with rfl
    · intro he; subst he; simp [assignTok] at hcl
  · rw [joinSp_cons_cons paramTok [p, assignTok] (by simp)]
    rfl
  · rw [joinSp_cons_cons paramTok [p, assignTok] (by simp)]
    have : paramTok ++ ' ' :: joinSp [p, assignTok] = paramKw ++ joinSp [p, assignTok] := rfl
    rw [this]
    exact isPrefixOf_append_self paramKw _
  · rw [hshape]
    unfold hasAssign
    have : (paramKw ++ p ++ [' ']) ++ ':' :: '=' :: []
        = (paramKw ++ p ++ [' ']) ++ ([':', '='] ++ []) := rfl
    rw [this, ← List.append_assoc]
    exact strContains_append_mid [':', '='] (paramKw ++ p ++ [' ']) []
  · rw [hshape, beforeAssign_no_colon _ hnocolon]
    exact contains_false_of _ _ hnocolon

/-! ## Lemmas: the 1D data-line runner against its token-level form -/

theorem stripComments_semiLine : stripComments ([';'] : Str) = [';'] := rfl

theorem run1D_lines :
    ∀ (dss : List (List Str)) (acc : List (Str × PyFloat)),
      (∀ ds ∈ dss, ∀ t ∈ ds, plainTok t = true) →
      run1D acc (dss.map joinSp ++ [[';']]) = spec1DAux acc dss
  | [], acc, _ => rfl
  | ds :: dss, acc, h => by
      have hplain : ∀ t ∈ ds, plainTok t = true := h ds (List.mem_cons_self ..)
      have hrest : ∀ d2 ∈ dss, ∀ t ∈ d2, plainTok t = true :=
        fun d2 hd2 => h d2 (List.mem_cons_of_mem _ hd2)
      have hclean : stripComments (joinSp ds) = joinSp ds :=
        stripComments_joinSp ds (fun t ht => plainTok_clean (hplain t ht))
      have hnosemi : ∀ c ∈ joinSp ds, c ≠ ';' := by
        intro c hc
        rcases mem_joinSp hc with rfl | ⟨l, hl, hcl⟩
        · decide
        · exact (plainTok_spec (hplain l hl)).2.2.1 c hcl
      have hnotab : tabToSp (joinSp ds) = joinSp ds := by
        apply tabToSp_eq_self
        intro c hc
        rcases mem_joinSp hc with rfl | ⟨l, hl, hcl⟩
        · decide
        · intro he
          subst he
          have := (plainTok_spec (hplain l hl)).2.1 '\t' hcl
          simp [isWsC] at this
      have hsplit : wsSplit (joinSp ds) = ds :=
        wsSplit_joinSp ds (fun t ht => by
          have := plainTok_spec (hplain t ht)
          simp [noWsTok, List.all_eq_true]
          exact ⟨this.1, fun c hc => by simp [this.2.1 c hc]⟩)
      cases hds : ds with
      | nil =>
          simp only [List.map_cons, List.cons_append]
          unfold run1D
          simp only [hds, joinSp, stripComments, pyStrip, List.takeWhile_nil]
          simp only [List.dropWhile_nil, List.reverse_nil, List.isEmpty_nil, if_true]
          unfold spec1DAux
          simp only
          exact run1D_lines dss acc hrest
      | cons k vs =>
          subst hds
          simp only [List.map_cons, List.cons_append]
          unfold run1D
          simp only
          rw [hclean]
          have hjne : (joinSp (k :: vs)).isEmpty = false := by
            have := @joinSp_ne_nil k vs (plainTok_spec (hplain k (List.mem_cons_self ..))).1
            cases hj : joinSp (k :: vs) with
            | nil => exact absurd hj this
            | cons a b => rfl
          rw [hjne]
          simp only [Bool.false_eq_true, if_false]
          rw [contains_false_of _ _ hnosemi]
          simp only [Bool.false_eq_true, if_false]
          rw [hnotab, hsplit]
          cases vs with
          | nil =>
              unfold spec1DAux
              simp only
              exact run1D_lines dss acc hrest
          | cons v more =>
              unfold spec1DAux
              simp only
              cases hv : pyFloat v with
              | some f =>
                  simp only
                  exact run1D_lines dss (upsert acc k f) hrest
              | none => rfl

/-- Evaluation of the 1D branch on a full 1D statement: header line
"param P :=", one line per data chunk, a final ";" line. -/
theorem do1D_lines1D (p : Str) (dss : List (List Str)) (doc : Doc) (rest0 : List Str)
    (hp : plainTok p = true)
    (hdss : ∀ ds ∈ dss, ∀ t ∈ ds, plainTok t = true) :
    do1D (joinSp [paramTok, p, assignTok]) doc ((dss.map joinSp) ++ ([';'] :: rest0))
      = match spec1DAux [] dss with
        | .ok mp => .ok ({ doc with params := upsert doc.params p (.map1 mp) }, rest0)
        | .error e => .error e := by
  obtain ⟨hne, hws, hsemi, hhash, hha⟩ := plainTok_spec hp
  have hnosemi0 : (joinSp [paramTok, p, assignTok]).contains ';' = false := by
    apply joinSp_no_semi
    intro t ht
    rcases List.mem_cons.mp ht with rfl | ht
    · decide
    rcases List.mem_cons.mp ht with rfl | ht
    · exact hsemi
    rcases List.mem_singleton.mp ht with rfl
    · decide
  have hnosemiM : ∀ l ∈ dss.map joinSp, l.contains ';' = false := by
    intro l hl
    obtain ⟨g, hg, rfl⟩ := List.mem_map.mp hl
    exact joinSp_no_semi g (fun t ht => (plainTok_spec (hdss g hg t ht)).2.2.1)
  have hcb := collectBlock_split (dss.map joinSp) (joinSp [paramTok, p, assignTok]) [';'] rest0
    hnosemi0 hnosemiM rfl
  have hclean : stripComments (joinSp [paramTok, p, assignTok])
      = joinSp [paramTok, p, assignTok] := by
    apply stripComments_joinSp
    intro t ht
    rcases List.mem_cons.mp ht with rfl | ht
    · exact ⟨by simp [paramTok], by decide, by decide⟩
    rcases List.mem_cons.mp ht with rfl | ht
    · exact plainTok_clean hp
    rcases List.mem_singleton.mp ht with rfl
    · exact ⟨by simp [assignTok], by decide, by decide⟩
  have hsplit : wsSplit (joinSp [paramTok, p, assignTok]) = [paramTok, p, assignTok] := by
    apply wsSplit_joinSp
    intro t ht
    rcases List.mem_cons.mp ht with rfl | ht
    · decide
    rcases List.mem_cons.mp ht with rfl | ht
    · simp only [noWsTok, Bool.and_eq_true, Bool.not_eq_true', List.all_eq_true]
      refine ⟨by simpa using hne, fun c hc => by simp [hws c hc]⟩
    rcases List.mem_singleton.mp ht with rfl
    · decide
  have hname : pyStrip (beforeAssign p) = p := by
    rw [beforeAssign_eq_self p hha]
    apply pyStrip_eq_self
    · intro c hc
      exact hws c (List.mem_of_mem_head? hc)
    · intro c hc
      exact hws c (List.mem_of_mem_getLast? hc)
  unfold do1D
  simp only
  rw [hcb]
  simp only
  rw [hclean, hsplit]
  simp only
  rw [hname, run1D_lines dss [] hdss]

/-! ## Lemmas: walking beforeAssign and splitColon -/

theorem beforeAssign_cons_ne (c : Char) (w : Str) (h : c ≠ ':' ∨ w.head? ≠ some '=') :
    beforeAssign (c :: w) = c :: beforeAssign w := by
  cases w with
  | nil =>
      rw [beforeAssign.eq_def]
      split
      · rename_i heq
        injection heq with e1 e2
        exact absurd e2 (by simp)
      · rename_i heq
        injection heq with e1 e2
        subst e1; subst e2
        rfl
      · rename_i heq; cases heq
  | cons d r2 =>
      rw [beforeAssign.eq_def]
      split
      · rename_i heq
        injection heq with e1 e2
        injection e2 with e2 e3
        subst e1; subst e2
        rcases h with h | h
        · exact absurd rfl h
        · exact absurd (by simp) h
      · rename_i heq
        injection heq with e1 e2
        subst e1; subst e2
        rfl
      · rename_i heq; cases heq

theorem beforeAssign_append_nocolon :
    ∀ (a : Str), (∀ c ∈ a, c ≠ ':') → ∀ (w : Str),
      beforeAssign (a ++ w) = a ++ beforeAssign w
  | [], _, w => rfl
  | c :: a, h, w => by
      rw [List.cons_append,
        beforeAssign_cons_ne c (a ++ w) (Or.inl (h c (List.mem_cons_self ..))),
        beforeAssign_append_nocolon a (fun x hx => h x (List.mem_cons_of_mem _ hx)) w]
      rfl

theorem splitColon_append :
    ∀ (a : Str), (∀ c ∈ a, c ≠ ':') → ∀ (z : Str),
      splitColon (a ++ ':' :: z) = some (a, z)
  | [], _, z => rfl
  | c :: a, h, z => by
      have hc : c ≠ ':' := h c (List.mem_cons_self ..)
      have hstep : splitColon (c :: (a ++ ':' :: z))
          = (splitColon (a ++ ':' :: z)).map (fun q => (c :: q.1, q.2)) := by
        rw [splitColon.eq_def]
        split
        · rename_i heq
          injection heq with e1 e2
          exact absurd e1 hc
        · rename_i heq
          injection heq with e1 e2
          subst e1; subst e2
          rfl
        · rename_i heq; cases heq
      rw [List.cons_append, hstep,
        splitColon_append a (fun x hx => h x (List.mem_cons_of_mem _ hx)) z]
      rfl

theorem pyStrip_pad (x : Str) (hne : x ≠ [])
    (hh : ∀ c, x.head? = some c → isWsC c = false)
    (hl : ∀ c, x.getLast? = some c → isWsC c = false) :
    pyStrip (' ' :: (x ++ [' '])) = x := by
  unfold pyStrip
  have h1 : (' ' :: (x ++ [' '])).dropWhile isWsC = x ++ [' '] := by
    rw [List.dropWhile_cons, if_pos (by decide)]
    cases hx : x with
    | nil => exact absurd hx hne
    | cons a r =>
        rw [List.cons_append, List.dropWhile_cons,
          if_neg (by
            have := hh a (by rw [hx]; rfl)
            simp [this])]
  rw [h1]
  have h2 : (x ++ [' ']).reverse = ' ' :: x.reverse := by simp
  rw [h2, List.dropWhile_cons, if_pos (by decide)]
  have h3 : x.reverse.dropWhile isWsC = x.reverse := by
    apply dropWhile_head_false
    intro c hc
    rw [List.head?_reverse] at hc
    exact hl c hc
  rw [h3, List.reverse_reverse]

/-- One loop step on a whole 1D statement with plain tokens: the
statement stores exactly its token-level mapping, or raises the
token-level error. -/
theorem parseLoop_lines1D (fname : Str) (f : Nat) (doc : Doc) (p : Str)
    (dss : List (List Str)) (rest0 : List Str)
    (hp : plainTok p = true) (hpc : ∀ c ∈ p, c ≠ ':')
    (hdss : ∀ ds ∈ dss, ∀ t ∈ ds, plainTok t = true) :
    parseLoopF fname (f + 1) doc (lines1D p dss ++ rest0)
      = match spec1DAux [] dss with
        | .ok mp => parseLoopF fname f { doc with params := upsert doc.params p (.map1 mp) } rest0
        | .error e => .error e := by
  obtain ⟨hsc, hms, hset, hparam, hassign, hcolon⟩ := header1D_facts p hp hpc
  have hlines : lines1D p dss ++ rest0
      = joinSp [paramTok, p, assignTok] :: ((dss.map joinSp) ++ ([';'] :: rest0)) := by
    unfold lines1D
    simp
  rw [hlines, parseLoop_1d fname f doc _ _ (by rw [hsc]; exact hms) (by rw [hsc]; exact hset)
    (by rw [hsc]; exact hparam) (by rw [hsc]; exact hassign) (by rw [hsc]; exact hcolon)]
  rw [hsc, do1D_lines1D p dss doc rest0 hp hdss]
  cases hspec : spec1DAux [] dss with
  | ok mp => rfl
  | error e => rfl

/-! ## Lemmas: the 2D data-line runner against its token-level form -/

theorem run2D_lines (cols : List Str) :
    ∀ (dss : List (List Str)) (acc : List (Str × List (Str × PyFloat))),
      (∀ ds ∈ dss, ∀ t ∈ ds, plainTok t = true) →
      run2D cols acc (dss.map joinSp ++ [[';']]) = spec2DAux cols acc dss
  | [], acc, _ => rfl
  | ds :: dss, acc, h => by
      have hplain : ∀ t ∈ ds, plainTok t = true := h ds (List.mem_cons_self ..)
      have hrest : ∀ d2 ∈ dss, ∀ t ∈ d2, plainTok t = true :=
        fun d2 hd2 => h d2 (List.mem_cons_of_mem _ hd2)
      have hclean : stripComments (joinSp ds) = joinSp ds :=
        stripComments_joinSp ds (fun t ht => plainTok_clean (hplain t ht))
      have hnosemi : ∀ c ∈ joinSp ds, c ≠ ';' := by
        intro c hc
        rcases mem_joinSp hc with rfl | ⟨l, hl, hcl⟩
        · decide
        · exact (plainTok_spec (hplain l hl)).2.2.1 c hcl
      have hnotab : tabToSp (joinSp ds) = joinSp ds := by
        apply tabToSp_eq_self
        intro c hc
        rcases mem_joinSp hc with rfl | ⟨l, hl, hcl⟩
        · decide
        · intro he
          subst he
          have := (plainTok_spec (hplain l hl)).2.1 '\t' hcl
          simp [isWsC] at this
      have hsplit : wsSplit (joinSp ds) = ds :=
        wsSplit_joinSp ds (fun t ht => by
          have := plainTok_spec (hplain t ht)
          simp only [noWsTok, Bool.and_eq_true, Bool.not_eq_true', List.all_eq_true]
          refine ⟨by simpa using this.1, fun c hc => by simp [this.2.1 c hc]⟩)
      cases hds : ds with
      | nil =>
          simp only [List.map_cons, List.cons_append]
          unfold run2D
          simp only [hds, joinSp, stripComments, pyStrip, List.takeWhile_nil]
          simp only [List.dropWhile_nil, List.reverse_nil, List.isEmpty_nil, if_true]
          unfold spec2DAux
          simp only
          exact run2D_lines cols dss acc hrest
      | cons row vs =>
          subst hds
          simp only [List.map_cons, List.cons_append]
          unfold run2D
          simp only
          rw [hclean]
          have hjne : (joinSp (row :: vs)).isEmpty = false := by
            have := @joinSp_ne_nil row vs
              (plainTok_spec (hplain row (List.mem_cons_self ..))).1
            cases hj : joinSp (row :: vs) with
            | nil => exact absurd hj this
            | cons a b => rfl
          rw [hjne]
          simp only [Bool.false_eq_true, if_false]
          rw [contains_false_of _ _ hnosemi]
          simp only [Bool.false_eq_true, if_false]
          rw [hnotab, hsplit]
          simp only
          unfold spec2DAux
          simp only
          by_cases hlen : (vs.take cols.length).length ≠ cols.length
          · rw [if_pos hlen, if_pos hlen]
            exact run2D_lines cols dss acc hrest
          · rw [if_neg hlen, if_neg hlen]
            cases hf : floatsOf (vs.take cols.length) with
            | ok fs =>
                simp only
                exact run2D_lines cols dss (upsert acc row (rowDict cols fs)) hrest
            | error e => rfl

/-! ## Lemmas: classification and evaluation of a 2D header -/

theorem header2D_chars (p : Str) (cols : List Str) {c : Char}
    (hc : c ∈ paramTok ++ (' ' :: p) ++ (':' :: ' ' :: (joinSp cols ++ (' ' :: assignTok)))) :
    c ∈ paramTok ∨ c = ' ' ∨ c ∈ p ∨ c = ':' ∨ c = '=' ∨ ∃ t ∈ cols, c ∈ t := by
  rcases List.mem_append.mp hc with hc | hc
  · rcases List.mem_append.mp hc with hc | hc
    · exact Or.inl hc
    · rcases List.mem_cons.mp hc with rfl | hc
      · exact Or.inr (Or.inl rfl)
      · exact Or.inr (Or.inr (Or.inl hc))
  · rcases List.mem_cons.mp hc with rfl | hc
    · exact Or.inr (Or.inr (Or.inr (Or.inl rfl)))
    rcases List.mem_cons.mp hc with rfl | hc
    · exact Or.inr (Or.inl rfl)
    rcases List.mem_append.mp hc with hc | hc
    · rcases mem_joinSp hc with rfl | ⟨l, hl, hcl⟩
      · exact Or.inr (Or.inl rfl)
      · exact Or.inr (Or.inr (Or.inr (Or.inr (Or.inr ⟨l, hl, hcl⟩))))
    · rcases List.mem_cons.mp hc with rfl | hc
      · exact Or.inr (Or.inl rfl)
      rcases List.mem_cons.mp hc with rfl | hc
      · exact Or.inr (Or.inr (Or.inr (Or.inl rfl)))
      rcases List.mem_singleton.mp hc with rfl
      · exact Or.inr (Or.inr (Or.inr (Or.inr (Or.inl rfl))))

theorem header2D_facts (p : Str) (cols : List Str)
    (hp : plainTok p = true) (hpc : ∀ c ∈ p, c ≠ ':')
    (hcols : ∀ t ∈ cols, plainTok t = true) :
    stripComments (paramTok ++ (' ' :: p) ++ (':' :: ' ' :: (joinSp cols ++ (' ' :: assignTok))))
      = paramTok ++ (' ' :: p) ++ (':' :: ' ' :: (joinSp cols ++ (' ' :: assignTok)))
    ∧ matchScalar (paramTok ++ (' ' :: p) ++ (':' :: ' ' :: (joinSp cols ++ (' ' :: assignTok)))) = none
    ∧ setKw.isPrefixOf (paramTok ++ (' ' :: p) ++ (':' :: ' ' :: (joinSp cols ++ (' ' :: assignTok)))) = false
    ∧ paramKw.isPrefixOf (paramTok ++ (' ' :: p) ++ (':' :: ' ' :: (joinSp cols ++ (' ' :: assignTok)))) = true
    ∧ hasAssign (paramTok ++ (' ' :: p) ++ (':' :: ' ' :: (joinSp cols ++ (' ' :: assignTok)))) = true
    ∧ (beforeAssign (paramTok ++ (' ' :: p) ++ (':' :: ' ' :: (joinSp cols ++ (' ' :: assignTok))))).contains ':'
        = true := by
  obtain ⟨hne, hws, hsemi, hhash, hha⟩ := plainTok_spec hp
  have hsplit1 : paramTok ++ (' ' :: p) ++ (':' :: ' ' :: (joinSp cols ++ (' ' :: assignTok)))
      = paramKw ++ (p ++ (':' :: (' ' :: (joinSp cols ++ (' ' :: assignTok))))) := by
    simp [paramTok, paramKw, assignTok]
  refine ⟨?_, ?_, ?_, ?_, ?_, ?_⟩
  · apply stripComments_eq_self
    · intro c hc
      rcases header2D_chars p cols hc with hc | hc | hc | hc | hc | ⟨t, ht, hct⟩
      · intro he; subst he; simp [paramTok] at hc
      · subst hc; decide
      · exact hhash c hc
      · subst hc; decide
      · subst hc; decide
      · exact (plainTok_spec (hcols t ht)).2.2.2.1 c hct
    · intro c hc
      have : c = 'p' := by
        simp [paramTok] at hc
        exact hc.symm
      subst this
      decide
    · intro c hc
      have hshape : paramTok ++ (' ' :: p) ++ (':' :: ' ' :: (joinSp cols ++ (' ' :: assignTok)))
          = (paramTok ++ (' ' :: p) ++ (':' :: ' ' :: joinSp cols)) ++ [' ', ':', '='] := by
        simp [assignTok]
      rw [hshape, List.getLast?_append] at hc
      simp only [Option.or_eq_some] at hc
      rcases hc with hc | ⟨hc, _⟩
      · have : c = '=' := by simpa using hc.symm
        subst this
        decide
      · simp at hc
  · apply matchScalar_none_of_noSemi
    intro c hc
    rcases header2D_chars p cols hc with hc | hc | hc | hc | hc | ⟨t, ht, hct⟩
    · intro he; subst he; simp [paramTok] at hc
    · subst hc; decide
    · exact hsemi c hc
    · subst hc; decide
    · subst hc; decide
    · exact (plainTok_spec (hcols t ht)).2.2.1 c hct
  · simp [paramTok, setKw, List.isPrefixOf]
  · rw [hsplit1]
    exact isPrefixOf_append_self paramKw _
  · have hshape : paramTok ++ (' ' :: p) ++ (':' :: ' ' :: (joinSp cols ++ (' ' :: assignTok)))
        = ((paramTok ++ (' ' :: p) ++ (':' :: ' ' :: joinSp cols) ++ [' ']) ++ [':', '=']) ++ [] := by
      simp [assignTok]
    rw [hshape]
    unfold hasAssign
    exact strContains_append_mid [':', '='] _ []
  · rw [hsplit1, beforeAssign_append_nocolon paramKw (by decide) _,
      beforeAssign_append_nocolon p hpc _,
      beforeAssign_cons_ne ':' _ (Or.inr (by simp))]
    apply contains_true_of
    exact List.mem_append_right _ (List.mem_append_right _ (List.mem_cons_self ..))

/-- Evaluation of the 2D branch on a full 2D statement: header line
"param P: c1 ... cn :=", one line per data row, a final ";" line. -/
theorem do2D_lines2D (p : Str) (cols : List Str) (dss : List (List Str))
    (doc : Doc) (rest0 : List Str)
    (hp : plainTok p = true) (hpc : ∀ c ∈ p, c ≠ ':')
    (hcols : ∀ t ∈ cols, plainTok t = true)
    (hcolsc : ∀ t ∈ cols, ∀ c ∈ t, c ≠ ':')
    (hcne : cols ≠ [])
    (hdss : ∀ ds ∈ dss, ∀ t ∈ ds, plainTok t = true) :
    do2D (paramTok ++ (' ' :: p) ++ (':' :: ' ' :: (joinSp cols ++ (' ' :: assignTok)))) doc
        ((dss.map joinSp) ++ ([';'] :: rest0))
      = match spec2DAux cols [] dss with
        | .ok tb => .ok ({ doc with params := upsert doc.params p (.map2 tb) }, rest0)
        | .error e => .error e := by
  obtain ⟨hne, hws, hsemi, hhash, hha⟩ := plainTok_spec hp
  obtain ⟨hsc, hms, hset, hparam, hassign, hcolon⟩ := header2D_facts p cols hp hpc hcols
  have hnosemi0 : (paramTok ++ (' ' :: p)
      ++ (':' :: ' ' :: (joinSp cols ++ (' ' :: assignTok)))).contains ';' = false := by
    apply contains_false_of
    intro c hc
    rcases header2D_chars p cols hc with hc | hc | hc | hc | hc | ⟨t, ht, hct⟩
    · intro he; subst he; simp [paramTok] at hc
    · subst hc; decide
    · exact hsemi c hc
    · subst hc; decide
    · subst hc; decide
    · exact (plainTok_spec (hcols t ht)).2.2.1 c hct
  have hnosemiM : ∀ l ∈ dss.map joinSp, l.contains ';' = false := by
    intro l hl
    obtain ⟨g, hg, rfl⟩ := List.mem_map.mp hl
    exact joinSp_no_semi g (fun t ht => (plainTok_spec (hdss g hg t ht)).2.2.1)
  have hcb := collectBlock_split (dss.map joinSp) _ [';'] rest0 hnosemi0 hnosemiM rfl
  have hsplit1 : paramTok ++ (' ' :: p) ++ (':' :: ' ' :: (joinSp cols ++ (' ' :: assignTok)))
      = paramKw ++ (p ++ (':' :: (' ' :: (joinSp cols ++ (' ' :: assignTok))))) := by
    simp [paramTok, paramKw, assignTok]
  have hdrop : (paramTok ++ (' ' :: p)
      ++ (':' :: ' ' :: (joinSp cols ++ (' ' :: assignTok)))).drop 6
      = p ++ (':' :: (' ' :: (joinSp cols ++ (' ' :: assignTok)))) := by
    rw [hsplit1]
    have h6 : (6 : Nat) = paramKw.length := rfl
    rw [h6, List.drop_left]
  have hsplitc : splitColon (p ++ (':' :: (' ' :: (joinSp cols ++ (' ' :: assignTok)))))
      = some (p, ' ' :: (joinSp cols ++ (' ' :: assignTok))) := splitColon_append p hpc _
  have hnmp : pyStrip p = p := by
    apply pyStrip_eq_self
    · intro c hc
      exact hws c (List.mem_of_mem_head? hc)
    · intro c hc
      exact hws c (List.mem_of_mem_getLast? hc)
  have hba : beforeAssign (' ' :: (joinSp cols ++ (' ' :: assignTok)))
      = ' ' :: (joinSp cols ++ [' ']) := by
    rw [beforeAssign_cons_ne ' ' _ (Or.inl (by decide)),
      beforeAssign_append_nocolon (joinSp cols) (by
        intro c hc
        rcases mem_joinSp hc with rfl | ⟨l, hl, hcl⟩
        · decide
        · exact hcolsc l hl c hcl) _,
      beforeAssign_cons_ne ' ' assignTok (Or.inl (by decide))]
    rfl
  have hcolsedge : ∀ t ∈ cols, t ≠ [] := fun t ht => (plainTok_spec (hcols t ht)).1
  have hjne : joinSp cols ≠ [] := by
    cases cols with
    | nil => exact absurd rfl hcne
    | cons a r => exact joinSp_ne_nil (hcolsedge a (List.mem_cons_self ..))
  have hstripc : pyStrip (' ' :: (joinSp cols ++ [' '])) = joinSp cols := by
    apply pyStrip_pad _ hjne
    · intro c hc
      cases cols with
      | nil => exact absurd rfl hcne
      | cons a r =>
          rw [joinSp_head? r (hcolsedge a (List.mem_cons_self ..))] at hc
          exact (plainTok_spec (hcols a (List.mem_cons_self ..))).2.1 c
            (List.mem_of_mem_head? hc)
    · intro c hc
      obtain ⟨t, ht, heq⟩ := joinSp_getLast? cols hcolsedge hcne
      rw [heq] at hc
      exact (plainTok_spec (hcols t ht)).2.1 c (List.mem_of_mem_getLast? hc)
  have hnotabc : tabToSp (joinSp cols) = joinSp cols := by
    apply tabToSp_eq_self
    intro c hc
    rcases mem_joinSp hc with rfl | ⟨l, hl, hcl⟩
    · decide
    · intro he
      subst he
      have := (plainTok_spec (hcols l hl)).2.1 '\t' hcl
      simp [isWsC] at this
  have hsplitcols : wsSplit (joinSp cols) = cols :=
    wsSplit_joinSp cols (fun t ht => by
      have := plainTok_spec (hcols t ht)
      simp only [noWsTok, Bool.and_eq_true, Bool.not_eq_true', List.all_eq_true]
      refine ⟨by simpa using this.1, fun c hc => by simp [this.2.1 c hc]⟩)
  unfold do2D
  simp only
  rw [hcb]
  simp only
  rw [hsc, hdrop, hsplitc]
  simp only
  rw [hnmp, hba, hstripc, hnotabc, hsplitcols, run2D_lines cols dss [] hdss]

/-- One loop step on a whole 2D statement with plain tokens: the
statement stores exactly its token-level table, or raises the
token-level error. -/
theorem parseLoop_lines2D (fname : Str) (f : Nat) (doc : Doc) (p : Str) (cols : List Str)
    (dss : List (List Str)) (rest0 : List Str)
    (hp : plainTok p = true) (hpc : ∀ c ∈ p, c ≠ ':')
    (hcols : ∀ t ∈ cols, plainTok t = true)
    (hcolsc : ∀ t ∈ cols, ∀ c ∈ t, c ≠ ':')
    (hcne : cols ≠ [])
    (hdss : ∀ ds ∈ dss, ∀ t ∈ ds, plainTok t = true) :
    parseLoopF fname (f + 1) doc (lines2D p cols dss ++ rest0)
      = match spec2DAux cols [] dss with
        | .ok tb => parseLoopF fname f { doc with params := upsert doc.params p (.map2 tb) } rest0
        | .error e => .error e := by
  obtain ⟨hsc, hms, hset, hparam, hassign, hcolon⟩ := header2D_facts p cols hp hpc hcols
  have hlines : lines2D p cols dss ++ rest0
      = (paramTok ++ (' ' :: p) ++ (':' :: ' ' :: (joinSp cols ++ (' ' :: assignTok))))
          :: ((dss.map joinSp) ++ ([';'] :: rest0)) := by
    unfold lines2D
    simp
  rw [hlines, parseLoop_2d fname f doc _ _ (by rw [hsc]; exact hms) (by rw [hsc]; exact hset)
    (by rw [hsc]; exact hparam) (by rw [hsc]; exact hassign) (by rw [hsc]; exact hcolon)]
  rw [hsc, do2D_lines2D p cols dss doc rest0 hp hpc hcols hcolsc hcne hdss]
  cases hspec : spec2DAux cols [] dss with
  | ok tb => rfl
  | error e => rfl

/-! ## Lemmas: one loop step on whole set statements -/

theorem setLine_tokens_ok (s0 : Str) (es : List Str)
    (hS : plainTok s0 = true) (hes : ∀ e ∈ es, plainTok e = true) :
    ∀ t ∈ setTok3 :: s0 :: assignTok :: (es ++ [semiTok]), setBlockTok t := by
  intro t ht
  rcases List.mem_cons.mp ht with rfl | ht
  · exact Or.inl (by decide)
  rcases List.mem_cons.mp ht with rfl | ht
  · exact Or.inl hS
  rcases List.mem_cons.mp ht with rfl | ht
  · exact Or.inr (Or.inl rfl)
  rcases List.mem_append.mp ht with ht | ht
  · exact Or.inl (hes t ht)
  · rcases List.mem_singleton.mp ht with rfl
    exact Or.inr (Or.inr rfl)

theorem parseLoop_setLine (fname : Str) (f : Nat) (doc : Doc) (s0 : Str) (es : List Str)
    (rest : List Str)
    (hS : plainTok s0 = true) (hes : ∀ e ∈ es, plainTok e = true) :
    parseLoopF fname (f + 1) doc (setLine s0 es :: rest)
      = parseLoopF fname f { doc with sets := upsert doc.sets s0 es } rest := by
  obtain ⟨hstrip, hms⟩ := firstLine_facts (s0 :: assignTok :: (es ++ [semiTok]))
    (setLine_tokens_ok s0 es hS hes)
  have hdef : setLine s0 es = joinSp (setTok3 :: s0 :: assignTok :: (es ++ [semiTok])) := rfl
  rw [parseLoop_set fname f doc _ rest (by rw [hdef, hstrip]; exact hms)
    (by rw [hdef, hstrip]; exact setKw_prefix_of_joinSp _ (by simp))]
  rw [hdef, hstrip, ← hdef, doSet_setLine fname s0 es doc rest hS hes]

theorem parseLoop_setLinesOf (fname : Str) (f : Nat) (doc : Doc) (s0 : Str)
    (c0 : List Str) (mids : List (List Str)) (cl : List Str) (rest : List Str)
    (hS : plainTok s0 = true)
    (hc0 : ∀ e ∈ c0, plainTok e = true)
    (hmids : ∀ g ∈ mids, ∀ e ∈ g, plainTok e = true)
    (hcl : ∀ e ∈ cl, plainTok e = true) :
    parseLoopF fname (f + 1) doc (setLinesOf s0 c0 mids cl ++ rest)
      = parseLoopF fname f
          { doc with sets := upsert doc.sets s0 (c0 ++ mids.flatten ++ cl) } rest := by
  have hall : ∀ t ∈ setTok3 :: s0 :: assignTok :: c0, setBlockTok t := by
    intro t ht
    rcases List.mem_cons.mp ht with rfl | ht
    · exact Or.inl (by decide)
    rcases List.mem_cons.mp ht with rfl | ht
    · exact Or.inl hS
    rcases List.mem_cons.mp ht with rfl | ht
    · exact Or.inr (Or.inl rfl)
    · exact Or.inl (hc0 t ht)
  obtain ⟨hstrip, hms⟩ := firstLine_facts (s0 :: assignTok :: c0) hall
  have hlines : setLinesOf s0 c0 mids cl ++ rest
      = joinSp (setTok3 :: s0 :: assignTok :: c0)
          :: (mids.map joinSp ++ (joinSp (cl ++ [semiTok]) :: rest)) := by
    unfold setLinesOf
    simp
  rw [hlines, parseLoop_set fname f doc _ _ (by rw [hstrip]; exact hms)
    (by rw [hstrip]; exact setKw_prefix_of_joinSp _ (by simp))]
  rw [hstrip, doSet_setLinesOf fname s0 c0 mids cl doc rest hS hc0 hmids hcl]

theorem parseLoop_setLineNA (fname : Str) (f : Nat) (doc : Doc) (c0 : List Str)
    (rest : List Str)
    (hc0 : ∀ e ∈ c0, plainTok e = true) :
    parseLoopF fname (f + 1) doc (setLineNA c0 :: rest)
      = .error (malformedSetMsg fname (setLineNA c0)) := by
  have hall : ∀ t ∈ setTok3 :: (c0 ++ [semiTok]), setBlockTok t := by
    intro t ht
    rcases List.mem_cons.mp ht with rfl | ht
    · exact Or.inl (by decide)
    rcases List.mem_append.mp ht with ht | ht
    · exact Or.inl (hc0 t ht)
    · rcases List.mem_singleton.mp ht with rfl
      exact Or.inr (Or.inr rfl)
  obtain ⟨hstrip, hms⟩ := firstLine_facts (c0 ++ [semiTok]) hall
  have hdef : setLineNA c0 = joinSp (setTok3 :: (c0 ++ [semiTok])) := rfl
  rw [parseLoop_set fname f doc _ rest (by rw [hdef, hstrip]; exact hms)
    (by rw [hdef, hstrip]; exact setKw_prefix_of_joinSp _ (by simp))]
  rw [hdef, hstrip, ← hdef, doSet_setLineNA fname c0 doc rest hc0]

theorem parseLoop_setLinesNA (fname : Str) (f : Nat) (doc : Doc)
    (c0 : List Str) (mids : List (List Str)) (cl : List Str) (rest : List Str)
    (hc0 : ∀ e ∈ c0, plainTok e = true) (hcne : c0 ≠ [])
    (hmids : ∀ g ∈ mids, ∀ e ∈ g, plainTok e = true)
    (hcl : ∀ e ∈ cl, plainTok e = true) :
    parseLoopF fname (f + 1) doc (setLinesNA c0 mids cl ++ rest)
      = .error (malformedSetMsg fname
          (joinSp (((setTok3 :: c0) :: (mids ++ [cl ++ [semiTok]])).map joinSp))) := by
  have hall : ∀ t ∈ setTok3 :: c0, setBlockTok t := by
    intro t ht
    rcases List.mem_cons.mp ht with rfl | ht
    · exact Or.inl (by decide)
    · exact Or.inl (hc0 t ht)
  obtain ⟨hstrip, hms⟩ := firstLine_facts c0 hall
  have hlines : setLinesNA c0 mids cl ++ rest
      = joinSp (setTok3 :: c0)
          :: (mids.map joinSp ++ (joinSp (cl ++ [semiTok]) :: rest)) := by
    unfold setLinesNA
    simp
  rw [hlines, parseLoop_set fname f doc _ _ (by rw [hstrip]; exact hms)
    (by rw [hstrip]; exact setKw_prefix_of_joinSp _ hcne)]
  rw [hstrip, doSet_setLinesNA fname c0 mids cl doc rest hc0 hmids hcl]

/-- One loop step when the scanner reaches a set-statement line and no
';' occurs on it or any later line: every path raises. -/
theorem parseLoop_set_noSemi (fname : Str) (f : Nat) (doc : Doc) (l : Str)
    (rest : List Str)
    (hpre : setKw.isPrefixOf (stripComments l) = true)
    (hl : ∀ c ∈ l, c ≠ ';') (hrest : ∀ r ∈ rest, ∀ c ∈ r, c ≠ ';') :
    ∃ e, parseLoopF fname (f + 1) doc (l :: rest) = .error e := by
  have hlstrip : ∀ c ∈ stripComments l, c ≠ ';' :=
    fun c hc => hl c (mem_stripComments hc)
  have hms : matchScalar (stripComments l) = none :=
    matchScalar_none_of_noSemi _ hlstrip
  rw [parseLoop_set fname f doc l rest hms hpre]
  obtain ⟨e, he⟩ := doSet_noSemi_error fname (stripComments l) doc rest hlstrip hrest
  rw [he]
  exact ⟨e, rfl⟩

/-! ## Lemmas: character classes -/

theorem ws_enum {c : Char} (h : isWsC c = true) :
    c = ' ' ∨ c = '\t' ∨ c = '\n' ∨ c = '\r' ∨ c = Char.ofNat 11 ∨ c = Char.ofNat 12 := by
  simp only [isWsC, Bool.or_eq_true, beq_iff_eq] at h
  tauto

theorem wordC_not_ws {c : Char} (h : isWordC c = true) : isWsC c = false := by
  cases hw : isWsC c with
  | false => rfl
  | true =>
      rcases ws_enum hw with rfl | rfl | rfl | rfl | rfl | rfl <;> exact absurd h (by decide)

theorem identHead_word {c : Char} (h : isIdentHead c = true) : isWordC c = true := by
  simp only [isIdentHead, Bool.or_eq_true] at h
  simp only [isWordC, Bool.or_eq_true]
  tauto

theorem ws_not_word {c : Char} (h : isWsC c = true) : isWordC c = false := by
  cases hw : isWordC c with
  | false => rfl
  | true => rw [wordC_not_ws hw] at h; cases h

/-! ## Lemmas: the scalar regex matches a scalar statement line -/

theorem matchScalar_scalarLine (x w1 w2 v : Str)
    (hx : x ≠ [])
    (hxhead : ∀ c, x.head? = some c → isIdentHead c = true)
    (hxword : ∀ c ∈ x, isWordC c = true)
    (hw1 : w1 ≠ []) (hw1ws : ∀ c ∈ w1, isWsC c = true)
    (hw2ws : ∀ c ∈ w2, isWsC c = true)
    (hv : v ≠ []) (hvsemi : ∀ c ∈ v, c ≠ ';') :
    matchScalar (scalarLine x w1 w2 v) = some (x, pyStrip v) := by
  obtain ⟨wc, w1t, rfl⟩ : ∃ wc w1t, w1 = wc :: w1t := by
    cases w1 with
    | nil => exact absurd rfl hw1
    | cons a b => exact ⟨a, b, rfl⟩
  obtain ⟨xh, xt, rfl⟩ : ∃ xh xt, x = xh :: xt := by
    cases x with
    | nil => exact absurd rfl hx
    | cons a b => exact ⟨a, b, rfl⟩
  have hxhws : isWsC xh = false :=
    wordC_not_ws (identHead_word (hxhead xh rfl))
  have hshape : scalarLine (xh :: xt) (wc :: w1t) w2 v
      = paramTok ++ (wc :: (w1t ++ (xh :: (xt ++ (w2 ++ '=' :: (v ++ [';'])))))) := by
    unfold scalarLine
    simp [List.append_assoc]
  have hdrop5 : (paramTok ++ (wc :: (w1t ++ (xh :: (xt ++ (w2 ++ '=' :: (v ++ [';']))))))).drop 5
      = wc :: (w1t ++ (xh :: (xt ++ (w2 ++ '=' :: (v ++ [';']))))) := by
    have h5 : (5 : Nat) = paramTok.length := rfl
    rw [h5, List.drop_left]
  have hdropws : List.dropWhile isWsC (wc :: (w1t ++ (xh :: (xt ++ (w2 ++ '=' :: (v ++ [';']))))))
      = xh :: (xt ++ (w2 ++ '=' :: (v ++ [';']))) := by
    have h1 : wc :: (w1t ++ (xh :: (xt ++ (w2 ++ '=' :: (v ++ [';'])))))
        = (wc :: w1t) ++ ((xh :: xt) ++ (w2 ++ '=' :: (v ++ [';']))) := by simp
    rw [h1, dropWhile_append_all isWsC (wc :: w1t) _ hw1ws, List.cons_append,
      List.dropWhile_cons, if_neg (by simp [hxhws])]
  have hbword : ∀ c, (w2 ++ '=' :: (v ++ [';'])).head? = some c → isWordC c = false := by
    intro c hc
    cases w2 with
    | nil =>
        simp only [List.nil_append, List.head?_cons, Option.some.injEq] at hc
        subst hc
        decide
    | cons a b =>
        simp only [List.cons_append, List.head?_cons, Option.some.injEq] at hc
        subst hc
        exact ws_not_word (hw2ws a (List.mem_cons_self ..))
  have htake : List.takeWhile isWordC (xh :: (xt ++ (w2 ++ '=' :: (v ++ [';']))))
      = xh :: xt := by
    have h1 : xh :: (xt ++ (w2 ++ '=' :: (v ++ [';'])))
        = (xh :: xt) ++ (w2 ++ '=' :: (v ++ [';'])) := by simp
    rw [h1, takeWhile_append_all isWordC (xh :: xt) _ hxword]
    cases hb : (w2 ++ '=' :: (v ++ [';'])) with
    | nil => simp
    | cons a b =>
        rw [List.takeWhile_cons, if_neg (by
          have := hbword a (by rw [hb]; rfl)
          simp [this])]
        simp
  have hdropword : List.dropWhile isWordC (xh :: (xt ++ (w2 ++ '=' :: (v ++ [';']))))
      = w2 ++ '=' :: (v ++ [';']) := by
    have h1 : xh :: (xt ++ (w2 ++ '=' :: (v ++ [';'])))
        = (xh :: xt) ++ (w2 ++ '=' :: (v ++ [';'])) := by simp
    rw [h1, dropWhile_append_all isWordC (xh :: xt) _ hxword]
    exact dropWhile_head_false isWordC _ hbword
  have hdropws2 : List.dropWhile isWsC (w2 ++ '=' :: (v ++ [';'])) = '=' :: (v ++ [';']) := by
    rw [dropWhile_append_all isWsC w2 _ hw2ws, List.dropWhile_cons, if_neg (by decide)]
  have htakev : List.takeWhile (fun c => c ≠ ';') (v ++ [';']) = v := by
    rw [takeWhile_append_all _ v _ (by
      intro c hc
      simp [hvsemi c hc])]
    simp
  have hdropv : List.dropWhile (fun c => c ≠ ';') (v ++ [';']) = [';'] := by
    rw [dropWhile_append_all _ v _ (by
      intro c hc
      simp [hvsemi c hc])]
    simp
  unfold matchScalar
  rw [hshape]
  rw [show (('p' :: 'a' :: 'r' :: 'a' :: 'm' :: []) : Str) = paramTok from rfl]
  rw [if_pos (isPrefixOf_append_self paramTok _)]
  simp only
  rw [hdrop5]
  simp only
  rw [if_pos (hw1ws wc (List.mem_cons_self ..))]
  rw [hdropws]
  simp only
  rw [if_pos (hxhead xh rfl)]
  rw [htake, hdropword, hdropws2]
  simp only
  rw [htakev, hdropv]
  simp only
  rw [if_pos ⟨by simp [hv], rfl⟩]

/-- One loop step on a scalar statement line: params[name] is set to
the float of the stripped value text, or the text itself. -/
theorem parseLoop_scalarLine (fname : Str) (f : Nat) (doc : Doc) (x w1 w2 v : Str)
    (rest : List Str)
    (hx : x ≠ [])
    (hxhead : ∀ c, x.head? = some c → isIdentHead c = true)
    (hxword : ∀ c ∈ x, isWordC c = true)
    (hw1 : w1 ≠ []) (hw1ws : ∀ c ∈ w1, isWsC c = true)
    (hw2ws : ∀ c ∈ w2, isWsC c = true)
    (hv : v ≠ []) (hvsemi : ∀ c ∈ v, c ≠ ';') (hvhash : ∀ c ∈ v, c ≠ '#') :
    parseLoopF fname (f + 1) doc (scalarLine x w1 w2 v :: rest)
      = parseLoopF fname f
          { doc with params := upsert doc.params x (pvalOf (pyStrip v)) } rest := by
  have hchars : ∀ c ∈ scalarLine x w1 w2 v,
      c ∈ paramTok ∨ c ∈ w1 ∨ c ∈ x ∨ c ∈ w2 ∨ c = '=' ∨ c ∈ v ∨ c = ';' := by
    intro c hc
    unfold scalarLine at hc
    rcases List.mem_append.mp hc with hc | hc
    · rcases List.mem_append.mp hc with hc | hc
      · rcases List.mem_append.mp hc with hc | hc
        · rcases List.mem_append.mp hc with hc | hc
          · rcases List.mem_append.mp hc with hc | hc
            · exact Or.inl hc
            · exact Or.inr (Or.inl hc)
          · exact Or.inr (Or.inr (Or.inl hc))
        · exact Or.inr (Or.inr (Or.inr (Or.inl hc)))
      · rcases List.mem_cons.mp hc with rfl | hc
        · exact Or.inr (Or.inr (Or.inr (Or.inr (Or.inl rfl))))
        · exact Or.inr (Or.inr (Or.inr (Or.inr (Or.inr (Or.inl hc)))))
    · rcases List.mem_singleton.mp hc with rfl
      exact Or.inr (Or.inr (Or.inr (Or.inr (Or.inr (Or.inr rfl)))))
  have hstrip : stripComments (scalarLine x w1 w2 v) = scalarLine x w1 w2 v := by
    apply stripComments_eq_self
    · intro c hc
      rcases hchars c hc with hc | hc | hc | hc | hc | hc | hc
      · intro he; subst he; simp [paramTok] at hc
      · intro he
        subst he
        have := hw1ws _ hc
        simp [isWsC] at this
      · intro he
        subst he
        have := hxword _ hc
        simp [isWordC, Char.isAlpha, Char.isUpper, Char.isLower, Char.isDigit] at this
      · intro he
        subst he
        have := hw2ws _ hc
        simp [isWsC] at this
      · subst hc; decide
      · exact hvhash c hc
      · subst hc; decide
    · intro c hc
      unfold scalarLine at hc
      have : c = 'p' := by
        simp [paramTok] at hc
        exact hc.symm
      subst this
      decide
    · intro c hc
      unfold scalarLine at hc
      rw [List.getLast?_append] at hc
      simp only [Option.or_eq_some] at hc
      rcases hc with hc | ⟨hc, _⟩
      · have : c = ';' := by simpa using hc.symm
        subst this
        decide
      · simp at hc
  have hm : matchScalar (stripComments (scalarLine x w1 w2 v)) = some (x, pyStrip v) := by
    rw [hstrip]
    exact matchScalar_scalarLine x w1 w2 v hx hxhead hxword hw1 hw1ws hw2ws hv hvsemi
  exact parseLoop_scalar fname f doc _ rest (x, pyStrip v) hm

/-! ## Lemmas: last-write-wins lookup through the 1D fold -/

theorem lastVal_cons_pair (k v : Str) (more : List Str) (dss : List (List Str)) (key : Str) :
    lastVal ((k :: v :: more) :: dss) key
      = match lastVal dss key with
        | some w => some w
        | none => if k = key then some v else none := by
  unfold lastVal keyPairs
  simp only [List.filterMap_cons, List.reverse_cons, List.find?_append]
  cases hf : List.find? (fun q => q.1 == key)
      (dss.filterMap (fun ds =>
        match ds with
        | k :: v :: _ => some (k, v)
        | _ => none)).reverse with
  | none =>
      simp only [hf, Option.or_none, Option.none_or, Option.map_none, List.find?_singleton]
      by_cases hk : k = key
      · simp [hk]
      · simp [List.find?, show (k == key) = false by simpa using hk, hk]
  | some q =>
      simp [hf]

theorem lastVal_cons_short (ds : List Str) (dss : List (List Str)) (key : Str)
    (h : ds = [] ∨ ∃ k, ds = [k]) :
    lastVal (ds :: dss) key = lastVal dss key := by
  rcases h with rfl | ⟨k, rfl⟩
  · rfl
  · rfl

theorem spec1DAux_lookup_absent :
    ∀ (dss : List (List Str)) (acc m : List (Str × PyFloat)) (key : Str),
      spec1DAux acc dss = .ok m → lastVal dss key = none →
      alookup m key = alookup acc key
  | [], acc, m, key, hok, _ => by
      unfold spec1DAux at hok
      injection hok with h
      rw [h]
  | [] :: dss, acc, m, key, hok, hlv => by
      unfold spec1DAux at hok
      exact spec1DAux_lookup_absent dss acc m key hok
        (by rw [← lastVal_cons_short [] dss key (Or.inl rfl)]; exact hlv)
  | [k] :: dss, acc, m, key, hok, hlv => by
      unfold spec1DAux at hok
      exact spec1DAux_lookup_absent dss acc m key hok
        (by rw [← lastVal_cons_short [k] dss key (Or.inr ⟨k, rfl⟩)]; exact hlv)
  | (k :: v :: more) :: dss, acc, m, key, hok, hlv => by
      unfold spec1DAux at hok
      simp only at hok
      rw [lastVal_cons_pair k v more dss key] at hlv
      cases hlv2 : lastVal dss key with
      | some w => rw [hlv2] at hlv; simp at hlv
      | none =>
          rw [hlv2] at hlv
          simp only at hlv
          have hk : k ≠ key := by
            intro he
            rw [if_pos he] at hlv
            cases hlv
          cases hpf : pyFloat v with
          | none => rw [hpf] at hok; cases hok
          | some fl =>
              rw [hpf] at hok
              simp only at hok
              rw [spec1DAux_lookup_absent dss (upsert acc k fl) m key hok hlv2,
                alookup_upsert_ne acc k key fl (fun he => hk he.symm)]

theorem spec1DAux_lookup_last :
    ∀ (dss : List (List Str)) (acc m : List (Str × PyFloat)) (key v : Str) (f : PyFloat),
      spec1DAux acc dss = .ok m → lastVal dss key = some v → pyFloat v = some f →
      alookup m key = some f
  | [], acc, m, key, v, f, hok, hlv, _ => by
      unfold lastVal keyPairs at hlv
      simp at hlv
  | [] :: dss, acc, m, key, v, f, hok, hlv, hpf => by
      unfold spec1DAux at hok
      exact spec1DAux_lookup_last dss acc m key v f hok
        (by rw [← lastVal_cons_short [] dss key (Or.inl rfl)]; exact hlv) hpf
  | [k] :: dss, acc, m, key, v, f, hok, hlv, hpf => by
      unfold spec1DAux at hok
      exact spec1DAux_lookup_last dss acc m key v f hok
        (by rw [← lastVal_cons_short [k] dss key (Or.inr ⟨k, rfl⟩)]; exact hlv) hpf
  | (k :: v2 :: more) :: dss, acc, m, key, v, f, hok, hlv, hpf => by
      unfold spec1DAux at hok
      simp only at hok
      rw [lastVal_cons_pair k v2 more dss key] at hlv
      cases hpf2 : pyFloat v2 with
      | none => rw [hpf2] at hok; cases hok
      | some f2 =>
          rw [hpf2] at hok
          simp only at hok
          cases hlv2 : lastVal dss key with
          | some w =>
              rw [hlv2] at hlv
              simp only [Option.some.injEq] at hlv
              exact spec1DAux_lookup_last dss (upsert acc k f2) m key w f hok hlv2
                (by rw [hlv]; exact hpf)
          | none =>
              rw [hlv2] at hlv
              simp only at hlv
              have hk : k = key := by
                by_cases hk : k = key
                · exact hk
                · rw [if_neg hk] at hlv; cases hlv
              rw [if_pos hk] at hlv
              injection hlv with hlv
              subst hlv
              rw [hpf] at hpf2
              injection hpf2 with hpf2
              subst hpf2
              rw [spec1DAux_lookup_absent dss (upsert acc k f) m key hok hlv2]
              subst hk
              exact alookup_upsert_self acc k f

/-! ## Lemmas: the shape of float conversion errors -/

theorem floatErrMsg_contains (v : Str) : strContains v (floatErrMsg v) = true := by
  unfold floatErrMsg
  have h1 : ("could not convert string to float: ").toList ++ [sq] ++ v ++ [sq]
      = (("could not convert string to float: ").toList ++ [sq]) ++ v ++ [sq] := by
    simp [List.append_assoc]
  rw [h1]
  exact strContains_append_mid v _ [sq]

theorem floatsOf_error :
    ∀ (vals : List Str) (e : Str), floatsOf vals = .error e →
      ∃ v ∈ vals, pyFloat v = none ∧ e = floatErrMsg v
  | [], e, h => by cases h
  | v :: vals, e, h => by
      unfold floatsOf at h
      cases hv : pyFloat v with
      | some f =>
          rw [hv] at h
          cases hrec : floatsOf vals with
          | ok fs => rw [hrec] at h; cases h
          | error e2 =>
              rw [hrec] at h
              injection h with h
              obtain ⟨w, hw, hpfw, hew⟩ := floatsOf_error vals e2 hrec
              exact ⟨w, List.mem_cons_of_mem _ hw, hpfw, by rw [← h]; exact hew⟩
      | none =>
          rw [hv] at h
          injection h with h
          exact ⟨v, List.mem_cons_self .., hv, h.symm⟩

theorem spec1DAux_error :
    ∀ (dss : List (List Str)) (acc : List (Str × PyFloat)) (e : Str),
      spec1DAux acc dss = .error e →
      ∃ v, pyFloat v = none ∧ e = floatErrMsg v
  | [], _, e, h => by cases h
  | ds :: dss, acc, e, h => by
      unfold spec1DAux at h
      cases hds : ds with
      | nil =>
          rw [hds] at h
          exact spec1DAux_error dss acc e h
      | cons k vs =>
          cases hvs : vs with
          | nil =>
              rw [hds, hvs] at h
              exact spec1DAux_error dss acc e h
          | cons v more =>
              rw [hds, hvs] at h
              simp only at h
              cases hv : pyFloat v with
              | some f =>
                  rw [hv] at h
                  exact spec1DAux_error dss (upsert acc k f) e h
              | none =>
                  rw [hv] at h
                  injection h with h
                  exact ⟨v, hv, h.symm⟩

theorem spec2DAux_error (cols : List Str) :
    ∀ (dss : List (List Str)) (acc : List (Str × List (Str × PyFloat))) (e : Str),
      spec2DAux cols acc dss = .error e →
      ∃ v, pyFloat v = none ∧ e = floatErrMsg v
  | [], _, e, h => by cases h
  | ds :: dss, acc, e, h => by
      unfold spec2DAux at h
      cases hds : ds with
      | nil =>
          rw [hds] at h
          exact spec2DAux_error cols dss acc e h
      | cons row vs =>
          rw [hds] at h
          simp only at h
          split at h
          · exact spec2DAux_error cols dss acc e h
          · cases hf : floatsOf (vs.take cols.length) with
            | ok fs =>
                rw [hf] at h
                exact spec2DAux_error cols dss (upsert acc row (rowDict cols fs)) e h
            | error e2 =>
                rw [hf] at h
                injection h with h
                obtain ⟨w, hw, hpfw, hew⟩ := floatsOf_error _ e2 hf
                exact ⟨w, hpfw, by rw [← h]; exact hew⟩

/-! ## Lemmas: single steps of the token-level data processing -/

theorem spec1DAux_nil (acc : List (Str × PyFloat)) (dss : List (List Str)) :
    spec1DAux acc ([] :: dss) = spec1DAux acc dss := by
  conv_lhs => rw [spec1DAux.eq_def]

theorem spec1DAux_single (acc : List (Str × PyFloat)) (k : Str) (dss : List (List Str)) :
    spec1DAux acc ([k] :: dss) = spec1DAux acc dss := by
  conv_lhs => rw [spec1DAux.eq_def]

theorem spec1DAux_pair (acc : List (Str × PyFloat)) (k v : Str) (more : List Str)
    (dss : List (List Str)) (fl : PyFloat) (hfl : pyFloat v = some fl) :
    spec1DAux acc ((k :: v :: more) :: dss) = spec1DAux (upsert acc k fl) dss := by
  conv_lhs => rw [spec1DAux.eq_def]
  simp only
  rw [hfl]

theorem spec1DAux_pair_bad (acc : List (Str × PyFloat)) (k v : Str) (more : List Str)
    (dss : List (List Str)) (hfl : pyFloat v = none) :
    spec1DAux acc ((k :: v :: more) :: dss) = .error (floatErrMsg v) := by
  conv_lhs => rw [spec1DAux.eq_def]
  simp only
  rw [hfl]

theorem spec2DAux_drop (cols : List Str) (acc : List (Str × List (Str × PyFloat)))
    (row : Str) (vs : List Str) (dss : List (List Str))
    (h : (vs.take cols.length).length ≠ cols.length) :
    spec2DAux cols acc ((row :: vs) :: dss) = spec2DAux cols acc dss := by
  conv_lhs => rw [spec2DAux.eq_def]
  simp only
  rw [if_pos h]

theorem spec2DAux_keep (cols : List Str) (acc : List (Str × List (Str × PyFloat)))
    (row : Str) (vs : List Str) (fs : List PyFloat) (dss : List (List Str))
    (h : (vs.take cols.length).length = cols.length)
    (hf : floatsOf (vs.take cols.length) = .ok fs) :
    spec2DAux cols acc ((row :: vs) :: dss)
      = spec2DAux cols (upsert acc row (rowDict cols fs)) dss := by
  conv_lhs => rw [spec2DAux.eq_def]
  simp only
  rw [if_neg (by rw [h]; exact fun hne => hne rfl), hf]

/-! ## Lemmas: contents of the malformed-set message -/

theorem malformedSetMsg_has_fname (fname joined : Str) :
    strContains fname (malformedSetMsg fname joined) = true := by
  unfold malformedSetMsg
  have h1 : ("Malformed set block in ").toList ++ fname ++ (": ").toList ++ joined
      = ("Malformed set block in ").toList ++ fname ++ ((": ").toList ++ joined) := by
    simp [List.append_assoc]
  rw [h1]
  exact strContains_append_mid fname _ _

theorem malformedSetMsg_has_joined (fname joined : Str) :
    strContains joined (malformedSetMsg fname joined) = true := by
  unfold malformedSetMsg
  have h1 : ("Malformed set block in ").toList ++ fname ++ (": ").toList ++ joined
      = (("Malformed set block in ").toList ++ fname ++ (": ").toList) ++ joined ++ [] := by
    simp
  rw [h1]
  exact strContains_append_mid joined _ []

/-! ## Lemmas: decimal digits -/

theorem char_toNat_inj (a b : Char) (h : a.toNat = b.toNat) : a = b := by
  apply Char.ext
  apply UInt32.ext
  simpa [Char.toNat, UInt32.toNat] using h

theorem digit_toNat_bounds (c : Char) (h : c.isDigit = true) :
    48 ≤ c.toNat ∧ c.toNat ≤ 57 := by
  simp [Char.isDigit] at h
  exact h

theorem natOfDigits_append_digit (xs : List Char) (c : Char) :
    natOfDigits (xs ++ [c]) = natOfDigits xs * 10 + (c.toNat - 48) := by
  unfold natOfDigits
  rw [List.foldl_append]
  rfl

theorem natOfDigits_cons_zero (xs : List Char) :
    natOfDigits ('0' :: xs) = natOfDigits xs := rfl

theorem natOfDigits_replicate_prefix (j : Nat) (xs : List Char) :
    natOfDigits (List.replicate j '0' ++ xs) = natOfDigits xs := by
  induction j with
  | zero => rfl
  | succ j ih => rw [List.replicate_succ, List.cons_append, natOfDigits_cons_zero, ih]

theorem natOfDigits_mod10 (xs : List Char) (c : Char) (h : c.isDigit = true) :
    natOfDigits (xs ++ [c]) % 10 = c.toNat - 48 := by
  rw [natOfDigits_append_digit]
  obtain ⟨h1, h2⟩ := digit_toNat_bounds c h
  omega

theorem ofNat_digit_facts (m : Nat) (h : m < 10) :
    (Char.ofNat (48 + m)).isDigit = true ∧ (Char.ofNat (48 + m)).toNat = 48 + m := by
  interval_cases m <;> exact ⟨by decide, by decide⟩

theorem digitChar_facts (n : Nat) :
    (digitChar n).isDigit = true ∧ (digitChar n).toNat = 48 + n % 10 :=
  ofNat_digit_facts (n % 10) (Nat.mod_lt _ (by omega))

theorem natDigsAux_facts :
    ∀ (fuel n : Nat), n < 10 ^ (fuel + 1) →
      natOfDigits (natDigsAux (fuel + 1) n) = n
      ∧ natDigsAux (fuel + 1) n ≠ []
      ∧ (∀ c ∈ natDigsAux (fuel + 1) n, c.isDigit = true)
  | 0, n, h => by
      have hn : n < 10 := by simpa using h
      have hstep : natDigsAux 1 n = [digitChar n] := by
        show (if n < 10 then [digitChar n] else natDigsAux 0 (n / 10) ++ [digitChar n])
          = [digitChar n]
        rw [if_pos hn]
      rw [hstep]
      obtain ⟨hd, ht⟩ := digitChar_facts n
      refine ⟨?_, by simp, ?_⟩
      · show natOfDigits ([] ++ [digitChar n]) = n
        rw [natOfDigits_append_digit, ht]
        unfold natOfDigits
        simp
        omega
      · intro c hc
        rw [List.mem_singleton.mp hc]
        exact hd
  | fuel + 1, n, h => by
      have hstep : natDigsAux (fuel + 1 + 1) n
          = if n < 10 then [digitChar n]
            else natDigsAux (fuel + 1) (n / 10) ++ [digitChar n] := rfl
      obtain ⟨hd, ht⟩ := digitChar_facts n
      by_cases hn : n < 10
      · rw [hstep, if_pos hn]
        refine ⟨?_, by simp, ?_⟩
        · show natOfDigits ([] ++ [digitChar n]) = n
          rw [natOfDigits_append_digit, ht]
          unfold natOfDigits
          simp
          omega
        · intro c hc
          rw [List.mem_singleton.mp hc]
          exact hd
      · have hdiv : n / 10 < 10 ^ (fuel + 1) := by
          rw [Nat.div_lt_iff_lt_mul (by omega)]
          calc n < 10 ^ (fuel + 1 + 1) := h
            _ = 10 ^ (fuel + 1) * 10 := by ring
        obtain ⟨ih1, ih2, ih3⟩ := natDigsAux_facts fuel (n / 10) hdiv
        rw [hstep, if_neg hn]
        refine ⟨?_, by simp, ?_⟩
        · rw [natOfDigits_append_digit, ih1, ht]
          omega
        · intro c hc
          rcases List.mem_append.mp hc with hc | hc
          · exact ih3 c hc
          · rw [List.mem_singleton.mp hc]
            exact hd

theorem natStr_facts (n : Nat) :
    natOfDigits (natStr n) = n ∧ natStr n ≠ []
      ∧ (∀ c ∈ natStr n, c.isDigit = true) := by
  unfold natStr
  exact natDigsAux_facts n n
    (lt_of_lt_of_le (Nat.lt_pow_self (by omega) n)
      (Nat.pow_le_pow_right (by omega) (by omega)))

theorem natStr_last (n : Nat) : ∃ pre, natStr n = pre ++ [digitChar n] := by
  unfold natStr
  have hstep : natDigsAux (n + 1) n
      = if n < 10 then [digitChar n]
        else natDigsAux n (n / 10) ++ [digitChar n] := by
    cases n with
    | zero => rfl
    | succ m => rfl
  rw [hstep]
  by_cases hn : n < 10
  · rw [if_pos hn]
    exact ⟨[], rfl⟩
  · rw [if_neg hn]
    exact ⟨_, rfl⟩

/-! ## Lemmas: mkFinite and canonical floats -/

theorem dropWhile_cons_head (p : Char → Bool) :
    ∀ (l : Str) (h : Char) (t : Str), l.dropWhile p = h :: t → p h = false
  | [], h, t, heq => by cases heq
  | c :: l, h, t, heq => by
      rw [List.dropWhile_cons] at heq
      by_cases hp : p c = true
      · rw [if_pos hp] at heq
        exact dropWhile_cons_head p l h t heq
      · rw [if_neg hp] at heq
        injection heq with h1 h2
        rw [← h1]
        exact Bool.not_eq_true _ ▸ hp

theorem mkFinite_keep (s : Bool) (ds : List Char) (c : Char) (e : Int)
    (hne : c ≠ '0') :
    mkFinite s (ds ++ [c]) e = .finite s (natOfDigits (ds ++ [c])) e := by
  unfold mkFinite
  simp only
  have h1 : (ds ++ [c]).reverse = c :: ds.reverse := by simp
  have hni : ¬ ((decide (c = '0')) = true) := by simp [hne]
  rw [h1, List.dropWhile_cons, if_neg hni]
  have h2 : (c :: ds.reverse).reverse = ds ++ [c] := by simp
  rw [h2]
  have hni2 : ¬ ((ds ++ [c]).isEmpty = true) := by simp
  rw [if_neg hni2]
  simp

theorem mkFinite_append_zeros (s : Bool) (ds : List Char) (j : Nat) (e : Int) :
    mkFinite s (ds ++ List.replicate j '0') e = mkFinite s ds (e + j) := by
  unfold mkFinite
  simp only
  have h1 : (ds ++ List.replicate j '0').reverse
      = List.replicate j '0' ++ ds.reverse := by simp
  rw [h1, dropWhile_append_all _ _ _
    (by intro c hc; rw [List.eq_of_mem_replicate hc]; simp)]
  have hlen : (List.dropWhile (fun c => decide (c = '0')) ds.reverse).reverse.length
      ≤ ds.length := by
    rw [List.length_reverse]
    calc (List.dropWhile (fun c => decide (c = '0')) ds.reverse).length
        ≤ ds.reverse.length := (List.dropWhile_sublist _).length_le
      _ = ds.length := List.length_reverse ds
  by_cases hE : (List.dropWhile (fun c => decide (c = '0')) ds.reverse).reverse.isEmpty = true
  · rw [if_pos hE, if_pos hE]
  · rw [if_neg hE, if_neg hE]
    have hlen2 : (ds ++ List.replicate j '0').length = ds.length + j := by simp
    rw [hlen2]
    congr 1
    omega

theorem mkFinite_canon (s : Bool) (ds : List Char) (e : Int)
    (hds : ∀ c ∈ ds, c.isDigit = true) :
    canonF (mkFinite s ds e) = true := by
  unfold mkFinite
  simp only
  cases hrev : List.dropWhile (fun c => decide (c = '0')) ds.reverse with
  | nil =>
      rfl
  | cons h t =>
      have hh0 : ¬ (h = '0') := by
        have := dropWhile_cons_head _ ds.reverse h t hrev
        simpa using this
      have hmem : h ∈ ds := by
        have hsub : h ∈ ds.reverse :=
          (List.dropWhile_sublist (fun c => decide (c = '0'))).subset
            (by rw [hrev]; exact List.mem_cons_self ..)
        exact List.mem_reverse.mp hsub
      have hdig : h.isDigit = true := hds h hmem
      have hni : ¬ (((h :: t).reverse).isEmpty = true) := by simp
      rw [if_neg hni]
      have hshape : (h :: t).reverse = t.reverse ++ [h] := by simp
      unfold canonF
      rw [hshape]
      have hmod : natOfDigits (t.reverse ++ [h]) % 10 = h.toNat - 48 :=
        natOfDigits_mod10 t.reverse h hdig
      obtain ⟨hb1, hb2⟩ := digit_toNat_bounds h hdig
      have hne48 : h.toNat ≠ 48 := by
        intro hc
        exact hh0 (char_toNat_inj h '0' (by rw [hc]; rfl))
      have hmne : natOfDigits (t.reverse ++ [h]) ≠ 0 := by
        intro hc
        rw [hc] at hmod
        omega
      simp only
      rw [if_neg hmne]
      simp only [bne_iff_ne, ne_eq, decide_eq_true_eq]
      omega

theorem digTail_digits (s : Str) : ∀ c ∈ (digTail s).1, c.isDigit = true := by
  induction s using digTail.induct with
  | case1 d r hd ih =>
      intro c hc
      rw [digTail.eq_1] at hc
      rw [if_pos hd] at hc
      simp only at hc
      rcases List.mem_cons.mp hc with rfl | hc
      · exact hd
      · exact ih c hc
  | case2 d r hd =>
      intro c hc
      rw [digTail.eq_1, if_neg hd] at hc
      cases hc
  | case3 d r hne hd ih =>
      intro c hc
      rw [digTail.eq_2 d r hne, if_pos hd] at hc
      simp only at hc
      rcases List.mem_cons.mp hc with rfl | hc
      · exact hd
      · exact ih c hc
  | case4 d r hne hd =>
      intro c hc
      rw [digTail.eq_2 d r hne, if_neg hd] at hc
      cases hc
  | case5 =>
      intro c hc
      rw [digTail.eq_3] at hc
      cases hc

theorem digRun_digits (s : Str) (p : List Char × Str) (h : digRun s = some p) :
    ∀ c ∈ p.1, c.isDigit = true := by
  unfold digRun at h
  split at h
  · rename_i d r
    split at h
    · rename_i hd
      injection h with h
      rw [← h]
      intro c hc
      rcases List.mem_cons.mp hc with rfl | hc
      · exact hd
      · exact digTail_digits r c hc
    · cases h
  · cases h

theorem optDigits_digits (s : Str) : ∀ c ∈ (optDigits s).1, c.isDigit = true := by
  unfold optDigits
  split
  · rename_i p hp
    exact digRun_digits s p hp
  · intro c hc
    cases hc

theorem pyFloatBody_canon (sign : Bool) (s : Str) (f : PyFloat)
    (h : pyFloatBody sign s = some f) : canonF f = true := by
  unfold pyFloatBody at h
  simp only at h
  split at h
  · cases h
  · rename_i ids fds r3 heq
    have hall : ∀ c ∈ ids ++ fds, c.isDigit = true := by
      intro c hc
      split at heq
      · rename_i r2 hsc
        split at heq
        · cases heq
        · injection heq with heq2
          injection heq2 with h1 h2
          injection h2 with h2 h3
          rw [← h1, ← h2] at hc
          rcases List.mem_append.mp hc with hm | hm
          · exact optDigits_digits s c hm
          · exact optDigits_digits r2 c hm
      · split at heq
        · cases heq
        · injection heq with heq2
          injection heq2 with h1 h2
          injection h2 with h2 h3
          rw [← h1, ← h2] at hc
          rcases List.mem_append.mp hc with hm | hm
          · exact optDigits_digits s c hm
          · cases hm
    split at h
    · injection h with h
      rw [← h]
      exact mkFinite_canon sign (ids ++ fds) _ hall
    · split at h
      · split at h
        · split at h
          · injection h with h
            rw [← h]
            exact mkFinite_canon sign (ids ++ fds) _ hall
          · cases h
        · cases h
      · cases h

theorem pyFloat_canon (s : Str) (f : PyFloat) (h : pyFloat s = some f) :
    canonF f = true := by
  unfold pyFloat at h
  simp only at h
  split at h
  · injection h with h
    rw [← h]
    rfl
  · split at h
    · injection h with h
      rw [← h]
      rfl
    · exact pyFloatBody_canon _ _ f h

/-! ## Lemmas: parsing stores only canonical floats -/

theorem upsert_all {α : Type} (p : α → Bool) :
    ∀ (m : List (Str × α)) (k : Str) (v : α),
      m.all (fun q => p q.2) = true → p v = true →
      (upsert m k v).all (fun q => p q.2) = true
  | [], k, v, _, hv => by
      unfold upsert
      simp [hv]
  | (k1, v1) :: m, k, v, hm, hv => by
      unfold upsert
      simp only [List.all_cons, Bool.and_eq_true] at hm
      by_cases hk : k1 = k
      · rw [if_pos hk]
        simp [hv, hm.2]
      · rw [if_neg hk]
        simp only [List.all_cons, Bool.and_eq_true]
        exact ⟨hm.1, upsert_all p m k v hm.2 hv⟩

theorem pvalOf_canon (vs : Str) : pvalCanon (pvalOf vs) = true := by
  unfold pvalOf
  split
  · rename_i f hf
    exact pyFloat_canon vs f hf
  · rfl

theorem floatsOf_canon :
    ∀ (vals : List Str) (fs : List PyFloat), floatsOf vals = .ok fs →
      ∀ f ∈ fs, canonF f = true
  | [], fs, h => by
      injection h with h
      rw [← h]
      intro f hf
      cases hf
  | v :: vals, fs, h => by
      unfold floatsOf at h
      cases hv : pyFloat v with
      | some f0 =>
          rw [hv] at h
          cases hrec : floatsOf vals with
          | ok fs2 =>
              rw [hrec] at h
              injection h with h
              rw [← h]
              intro f hf
              rcases List.mem_cons.mp hf with rfl | hf
              · exact pyFloat_canon v f hv
              · exact floatsOf_canon vals fs2 hrec f hf
          | error e =>
              rw [hrec] at h
              cases h
      | none =>
          rw [hv] at h
          cases h

theorem foldl_upsert_all (p : PyFloat → Bool) :
    ∀ (ps : List (Str × PyFloat)) (acc : List (Str × PyFloat)),
      acc.all (fun q => p q.2) = true →
      (∀ q ∈ ps, p q.2 = true) →
      (ps.foldl (fun m q => upsert m q.1 q.2) acc).all (fun q => p q.2) = true
  | [], acc, hacc, _ => hacc
  | q :: ps, acc, hacc, hps => by
      rw [List.foldl_cons]
      exact foldl_upsert_all p ps (upsert acc q.1 q.2)
        (upsert_all p acc q.1 q.2 hacc (hps q (List.mem_cons_self ..)))
        (fun w hw => hps w (List.mem_cons_of_mem _ hw))

theorem rowDict_canon (cols : List Str) (fs : List PyFloat)
    (hfs : ∀ f ∈ fs, canonF f = true) :
    (rowDict cols fs).all (fun q => canonF q.2) = true := by
  unfold rowDict
  exact foldl_upsert_all canonF (cols.zip fs) [] rfl
    (fun q hq => hfs q.2 (List.of_mem_zip hq).2)

theorem run1D_canon :
    ∀ (ls : List Str) (acc m : List (Str × PyFloat)),
      run1D acc ls = .ok m → acc.all (fun q => canonF q.2) = true →
      m.all (fun q => canonF q.2) = true
  | [], acc, m, h, hacc => by
      injection h with h
      rw [← h]
      exact hacc
  | l :: ls, acc, m, h, hacc => by
      unfold run1D at h
      simp only at h
      split at h
      · exact run1D_canon ls acc m h hacc
      · split at h
        · rename_i k v more heq
          cases hv : pyFloat v with
          | some f0 =>
              rw [hv] at h
              exact run1D_canon ls _ m h
                (upsert_all canonF acc k f0 hacc (pyFloat_canon v f0 hv))
          | none =>
              rw [hv] at h
              cases h
        · exact run1D_canon ls acc m h hacc

theorem run2D_canon (cols : List Str) :
    ∀ (ls : List Str) (acc tb : List (Str × List (Str × PyFloat))),
      run2D cols acc ls = .ok tb →
      acc.all (fun q => q.2.all (fun r => canonF r.2)) = true →
      tb.all (fun q => q.2.all (fun r => canonF r.2)) = true
  | [], acc, tb, h, hacc => by
      injection h with h
      rw [← h]
      exact hacc
  | l :: ls, acc, tb, h, hacc => by
      unfold run2D at h
      simp only at h
      split at h
      · exact run2D_canon cols ls acc tb h hacc
      · split at h
        · exact run2D_canon cols ls acc tb h hacc
        · rename_i row vs heq
          split at h
          · exact run2D_canon cols ls acc tb h hacc
          · cases hf : floatsOf (vs.take cols.length) with
            | ok fs =>
                rw [hf] at h
                exact run2D_canon cols ls _ tb h
                  (upsert_all (fun l => l.all (fun r => canonF r.2))
                    acc row (rowDict cols fs) hacc
                    (rowDict_canon cols fs (floatsOf_canon _ fs hf)))
            | error e =>
                rw [hf] at h
                cases h

theorem docCanon_sets (doc : Doc) (s2 : List (Str × List Str))
    (h : docCanon doc = true) : docCanon { doc with sets := s2 } = true := h

theorem docCanon_params (doc : Doc) (x : Str) (v : PVal)
    (h : docCanon doc = true) (hv : pvalCanon v = true) :
    docCanon { doc with params := upsert doc.params x v } = true := by
  unfold docCanon at h ⊢
  exact upsert_all pvalCanon doc.params x v h hv

theorem doSet_canon (fname line : Str) (doc : Doc) (rest : List Str)
    (dr : Doc × List Str) (h : doSet fname line doc rest = .ok dr)
    (hdoc : docCanon doc = true) : docCanon dr.1 = true := by
  unfold doSet at h
  simp only at h
  split at h
  · split at h
    · cases h
    · split at h
      · cases h
      · injection h with h
        rw [← h]
        exact docCanon_sets doc _ hdoc
  · cases h

theorem do1D_canon (line : Str) (doc : Doc) (rest : List Str)
    (dr : Doc × List Str) (h : do1D line doc rest = .ok dr)
    (hdoc : docCanon doc = true) : docCanon dr.1 = true := by
  unfold do1D at h
  simp only at h
  split at h
  · rename_i t more heq
    cases hrun : run1D [] (collectBlock line rest).1 with
    | ok mp =>
        rw [hrun] at h
        injection h with h
        rw [← h]
        exact docCanon_params doc _ (.map1 mp) hdoc (run1D_canon _ [] mp hrun rfl)
    | error e =>
        rw [hrun] at h
        cases h
  · cases h

theorem do2D_canon (line : Str) (doc : Doc) (rest : List Str)
    (dr : Doc × List Str) (h : do2D line doc rest = .ok dr)
    (hdoc : docCanon doc = true) : docCanon dr.1 = true := by
  unfold do2D at h
  simp only at h
  split at h
  · cases h
  · rename_i nr heq
    cases hrun : run2D (wsSplit (tabToSp (pyStrip (beforeAssign nr.2)))) []
        (collectBlock line rest).1 with
    | ok tb =>
        rw [hrun] at h
        injection h with h
        rw [← h]
        exact docCanon_params doc _ (.map2 tb) hdoc (run2D_canon _ _ [] tb hrun rfl)
    | error e =>
        rw [hrun] at h
        cases h

theorem parseLoopF_canon :
    ∀ (fuel : Nat) (fname : Str) (doc : Doc) (ls : List Str) (d : Doc),
      parseLoopF fname fuel doc ls = .ok d → docCanon doc = true →
      docCanon d = true
  | fuel, fname, doc, [], d, h, hc => by
      cases fuel with
      | zero =>
          unfold parseLoopF at h
          injection h with h
          rw [← h]
          exact hc
      | succ f =>
          unfold parseLoopF at h
          injection h with h
          rw [← h]
          exact hc
  | 0, fname, doc, l :: rest, d, h, hc => by
      unfold parseLoopF at h
      cases h
  | fuel + 1, fname, doc, l :: rest, d, h, hc => by
      unfold parseLoopF at h
      simp only at h
      split at h
      · exact parseLoopF_canon fuel fname doc rest d h hc
      · split at h
        · rename_i nv heq
          exact parseLoopF_canon fuel fname _ rest d h
            (docCanon_params doc nv.1 (pvalOf nv.2) hc (pvalOf_canon nv.2))
        · split at h
          · split at h
            · rename_i dr heq
              exact parseLoopF_canon fuel fname dr.1 dr.2 d h
                (doSet_canon fname _ doc rest dr heq hc)
            · cases h
          · split at h
            · split at h
              · rename_i dr heq
                exact parseLoopF_canon fuel fname dr.1 dr.2 d h
                  (do1D_canon _ doc rest dr heq hc)
              · cases h
            · split at h
              · split at h
                · rename_i dr heq
                  exact parseLoopF_canon fuel fname dr.1 dr.2 d h
                    (do2D_canon _ doc rest dr heq hc)
                · cases h
              · exact parseLoopF_canon fuel fname doc rest d h hc

theorem parseDat_canon (fname : Str) (lines : List Str) (d : Doc)
    (h : parseDat fname lines = .ok d) : docCanon d = true :=
  parseLoopF_canon lines.length fname ⟨[], []⟩ lines d h rfl

/-! ## Lemmas: the string escape round trip -/

theorem toNat_ofNat_valid (n : Nat) (h : n.isValidChar) : (Char.ofNat n).toNat = n := by
  unfold Char.ofNat
  rw [dif_pos h]
  unfold Char.ofNatAux Char.toNat
  simp [UInt32.toNat]

theorem ofNat_toNat (c : Char) : Char.ofNat c.toNat = c := by
  have h : c.toNat.isValidChar := c.valid
  unfold Char.ofNat
  rw [dif_pos h]
  unfold Char.ofNatAux
  apply Char.ext
  apply UInt32.ext
  simp [Char.toNat, UInt32.toNat]

theorem char_valid_nat (c : Char) :
    c.toNat < 55296 ∨ (57343 < c.toNat ∧ c.toNat < 1114112) := c.valid

theorem hexv_toHex (d : Nat) (h : d < 16) : hexv (toHex d) = some d := by
  interval_cases d <;> decide

theorem hex4v_hex4 (n : Nat) (h : n < 65536) (r : Str) :
    hex4v (hex4 n ++ r) = some (n, r) := by
  have hsh : hex4 n ++ r
      = toHex (n / 4096 % 16) :: toHex (n / 256 % 16) :: toHex (n / 16 % 16)
        :: toHex (n % 16) :: r := rfl
  rw [hsh]
  unfold hex4v
  simp only
  rw [hexv_toHex _ (by omega), hexv_toHex _ (by omega),
    hexv_toHex _ (by omega), hexv_toHex _ (by omega)]
  simp only
  have hval : (n / 4096 % 16) * 4096 + (n / 256 % 16) * 256 + (n / 16 % 16) * 16 + n % 16
      = n := by omega
  rw [hval]

theorem parseStrBody_step (fuel : Nat) (acc : Str) (c : Char) (r : Str)
    (h1 : c ≠ '"') (h2 : c ≠ '\\') :
    parseStrBody (fuel + 1) acc (c :: r) = parseStrBody fuel (c :: acc) r := by
  cases r with
  | nil => rw [parseStrBody.eq_3, if_neg h1, if_neg h2]
  | cons e r2 => rw [parseStrBody.eq_4, if_neg h1, if_neg h2]

theorem parseStrBody_quote (fuel : Nat) (acc : Str) (r : Str) :
    parseStrBody (fuel + 1) acc ('"' :: r) = some (acc.reverse, r) := by
  cases r with
  | nil => rw [parseStrBody.eq_3, if_pos rfl]
  | cons e r2 => rw [parseStrBody.eq_4, if_pos rfl]

theorem parseStrBody_short (fuel : Nat) (acc : Str) (e u : Char) (r2 : Str)
    (he : escShort e = some u) (hne : e ≠ 'u') :
    parseStrBody (fuel + 1) acc ('\\' :: e :: r2) = parseStrBody fuel (u :: acc) r2 := by
  rw [parseStrBody.eq_4, if_neg (by decide), if_pos rfl, if_neg hne, he]

theorem parseStrBody_uesc (fuel : Nat) (acc : Str) (r2 : Str) (v : Nat) (rr : Str)
    (hh : hex4v r2 = some (v, rr))
    (hv1 : ¬ (55296 ≤ v ∧ v < 56320)) (hv2 : ¬ (56320 ≤ v ∧ v < 57344)) :
    parseStrBody (fuel + 1) acc ('\\' :: 'u' :: r2)
      = parseStrBody fuel (Char.ofNat v :: acc) rr := by
  rw [parseStrBody.eq_4, if_neg (by decide), if_pos rfl, if_pos rfl, hh]
  simp only
  rw [if_neg hv1, if_neg hv2]

theorem parseStrBody_upair (fuel : Nat) (acc : Str) (r2 r3 : Str) (v w : Nat) (r4 : Str)
    (hh : hex4v r2 = some (v, '\\' :: 'u' :: r3))
    (hw : hex4v r3 = some (w, r4))
    (hv : 55296 ≤ v ∧ v < 56320) (hwr : 56320 ≤ w ∧ w < 57344) :
    parseStrBody (fuel + 1) acc ('\\' :: 'u' :: r2)
      = parseStrBody fuel
          (Char.ofNat (65536 + (v - 55296) * 1024 + (w - 56320)) :: acc) r4 := by
  rw [parseStrBody.eq_4, if_neg (by decide), if_pos rfl, if_pos rfl, hh]
  simp only
  rw [if_pos hv, if_pos (show True ∧ True from ⟨trivial, trivial⟩), hw]
  simp only
  rw [if_pos hwr]

theorem escape_cons (c : Char) (s : Str) : escape (c :: s) = escC c ++ escape s := rfl

theorem parseStrBody_escape :
    ∀ (s : Str) (acc rest : Str) (fuel : Nat), s.length ≤ fuel →
      parseStrBody (fuel + 1) acc (escape s ++ '"' :: rest)
        = some (acc.reverse ++ s, rest)
  | [], acc, rest, fuel, _ => by
      have h : escape [] ++ '"' :: rest = '"' :: rest := rfl
      rw [h, parseStrBody_quote, List.append_nil]
  | c :: s, acc, rest, fuel, hf => by
      cases fuel with
      | zero => simp at hf
      | succ f =>
          have hf2 : s.length ≤ f := by
            simp only [List.length_cons] at hf
            omega
          have htext : escape (c :: s) ++ '"' :: rest
              = escC c ++ (escape s ++ '"' :: rest) := by
            rw [escape_cons, List.append_assoc]
          rw [htext]
          unfold escC
          split_ifs with h1 h2 h3 h4 h5 h6 h7 h8 h9
          · subst h1
            rw [show (('\\' :: '"' :: []) : Str) ++ (escape s ++ '"' :: rest)
                = '\\' :: '"' :: (escape s ++ '"' :: rest) from rfl]
            rw [parseStrBody_short (f + 1) acc '"' '"' _ rfl (by decide)]
            rw [parseStrBody_escape s ('"' :: acc) rest f hf2]
            simp
          · subst h2
            rw [show (('\\' :: '\\' :: []) : Str) ++ (escape s ++ '"' :: rest)
                = '\\' :: '\\' :: (escape s ++ '"' :: rest) from rfl]
            rw [parseStrBody_short (f + 1) acc '\\' '\\' _ rfl (by decide)]
            rw [parseStrBody_escape s ('\\' :: acc) rest f hf2]
            simp
          · subst h3
            rw [show (('\\' :: 'n' :: []) : Str) ++ (escape s ++ '"' :: rest)
                = '\\' :: 'n' :: (escape s ++ '"' :: rest) from rfl]
            rw [parseStrBody_short (f + 1) acc 'n' '\n' _ rfl (by decide)]
            rw [parseStrBody_escape s ('\n' :: acc) rest f hf2]
            simp
          · subst h4
            rw [show (('\\' :: 'r' :: []) : Str) ++ (escape s ++ '"' :: rest)
                = '\\' :: 'r' :: (escape s ++ '"' :: rest) from rfl]
            rw [parseStrBody_short (f + 1) acc 'r' '\r' _ rfl (by decide)]
            rw [parseStrBody_escape s ('\r' :: acc) rest f hf2]
            simp
          · subst h5
            rw [show (('\\' :: 't' :: []) : Str) ++ (escape s ++ '"' :: rest)
                = '\\' :: 't' :: (escape s ++ '"' :: rest) from rfl]
            rw [parseStrBody_short (f + 1) acc 't' '\t' _ rfl (by decide)]
            rw [parseStrBody_escape s ('\t' :: acc) rest f hf2]
            simp
          · have hc : c = Char.ofNat 8 := char_toNat_inj c (Char.ofNat 8) (by rw [h6]; decide)
            subst hc
            rw [show (('\\' :: 'b' :: []) : Str) ++ (escape s ++ '"' :: rest)
                = '\\' :: 'b' :: (escape s ++ '"' :: rest) from rfl]
            rw [parseStrBody_short (f + 1) acc 'b' (Char.ofNat 8) _ rfl (by decide)]
            rw [parseStrBody_escape s (Char.ofNat 8 :: acc) rest f hf2]
            simp
          · have hc : c = Char.ofNat 12 := char_toNat_inj c (Char.ofNat 12) (by rw [h7]; decide)
            subst hc
            rw [show (('\\' :: 'f' :: []) : Str) ++ (escape s ++ '"' :: rest)
                = '\\' :: 'f' :: (escape s ++ '"' :: rest) from rfl]
            rw [parseStrBody_short (f + 1) acc 'f' (Char.ofNat 12) _ rfl (by decide)]
            rw [parseStrBody_escape s (Char.ofNat 12 :: acc) rest f hf2]
            simp
          · rw [show ([c] : Str) ++ (escape s ++ '"' :: rest)
                = c :: (escape s ++ '"' :: rest) from rfl]
            rw [parseStrBody_step (f + 1) acc c _ h1 h2]
            rw [parseStrBody_escape s (c :: acc) rest f hf2]
            simp
          · have hval := char_valid_nat c
            have hnosur : ¬ (55296 ≤ c.toNat ∧ c.toNat < 56320) := by omega
            have hnosur2 : ¬ (56320 ≤ c.toNat ∧ c.toNat < 57344) := by omega
            rw [show ('\\' :: 'u' :: hex4 c.toNat) ++ (escape s ++ '"' :: rest)
                = '\\' :: 'u' :: (hex4 c.toNat ++ (escape s ++ '"' :: rest)) from rfl]
            rw [parseStrBody_uesc (f + 1) acc _ c.toNat _
              (hex4v_hex4 c.toNat h9 _) hnosur hnosur2]
            rw [ofNat_toNat c]
            rw [parseStrBody_escape s (c :: acc) rest f hf2]
            simp
          · have hval := char_valid_nat c
            have hge : 65536 ≤ c.toNat := by omega
            have hlt : c.toNat < 1114112 := by omega
            have hhi : 55296 + (c.toNat - 65536) / 1024 < 65536 := by omega
            have hlo : 56320 + (c.toNat - 65536) % 1024 < 65536 := by omega
            have htext2 : (('\\' :: 'u' :: hex4 (55296 + (c.toNat - 65536) / 1024))
                  ++ ('\\' :: 'u' :: hex4 (56320 + (c.toNat - 65536) % 1024)))
                  ++ (escape s ++ '"' :: rest)
                = '\\' :: 'u' :: (hex4 (55296 + (c.toNat - 65536) / 1024)
                    ++ ('\\' :: 'u' :: (hex4 (56320 + (c.toNat - 65536) % 1024)
                      ++ (escape s ++ '"' :: rest)))) := by
              simp
            rw [htext2]
            rw [parseStrBody_upair (f + 1) acc _ _
              (55296 + (c.toNat - 65536) / 1024) (56320 + (c.toNat - 65536) % 1024) _
              (hex4v_hex4 _ hhi _) (hex4v_hex4 _ hlo _)
              (by omega) (by omega)]
            have hcomb : 65536 + (55296 + (c.toNat - 65536) / 1024 - 55296) * 1024
                + (56320 + (c.toNat - 65536) % 1024 - 56320) = c.toNat := by omega
            rw [hcomb, ofNat_toNat c]
            rw [parseStrBody_escape s (c :: acc) rest f hf2]
            simp

/-! ## Lemmas: the number round trip -/

theorem takeWhile_head_false (p : Char → Bool) (s : Str)
    (h : ∀ c, s.head? = some c → p c = false) : s.takeWhile p = [] := by
  cases s with
  | nil => rfl
  | cons c t => simp [List.takeWhile_cons, h c rfl]

theorem digit_ne_all (c : Char) (h : c.isDigit = true) :
    c ≠ '.' ∧ c ≠ 'e' ∧ c ≠ 'E' ∧ c ≠ '"' ∧ c ≠ '[' ∧ c ≠ '{' ∧ c ≠ 't' ∧ c ≠ 'f'
      ∧ c ≠ 'n' ∧ c ≠ 'N' ∧ c ≠ 'I' ∧ c ≠ '-' ∧ isJWs c = false := by
  refine ⟨?_, ?_, ?_, ?_, ?_, ?_, ?_, ?_, ?_, ?_, ?_, ?_, ?_⟩
  all_goals first
  | · intro hc
      rw [hc] at h
      exact absurd h (by decide)
  | · cases hjw : isJWs c
      · rfl
      · simp only [isJWs, Bool.or_eq_true, beq_iff_eq] at hjw
        rcases hjw with ((rfl | rfl) | rfl) | rfl <;> exact absurd h (by decide)

theorem numSafe_head (rest : Str) (h : numSafe rest = true) :
    ∀ c, rest.head? = some c →
      c.isDigit = false ∧ c ≠ '.' ∧ c ≠ 'e' ∧ c ≠ 'E' := by
  cases rest with
  | nil =>
      intro c hc
      cases hc
  | cons c0 t =>
      intro c hc
      injection hc with hc
      subst hc
      unfold numSafe at h
      simp only [Bool.not_eq_eq_eq_not, Bool.not_true, Bool.or_eq_false_iff] at h
      obtain ⟨⟨⟨h1, h2⟩, h3⟩, h4⟩ := h
      exact ⟨h1, by simpa using h2, by simpa using h3, by simpa using h4⟩

theorem takeDigs_split (a b : Str) (ha : ∀ c ∈ a, c.isDigit = true)
    (hb : ∀ c, b.head? = some c → c.isDigit = false) :
    takeDigs (a ++ b) = (a, b) := by
  unfold takeDigs
  rw [takeWhile_append_all _ a b ha, takeWhile_head_false _ b hb,
    dropWhile_append_all _ a b ha, dropWhile_head_false _ b hb]
  simp

theorem parseJNumBody_frac (sign : Bool) (ids fds rest : Str)
    (hidsne : ids ≠ []) (hidsd : ∀ c ∈ ids, c.isDigit = true)
    (hfdsne : fds ≠ []) (hfdsd : ∀ c ∈ fds, c.isDigit = true)
    (hsafe : numSafe rest = true) :
    parseJNumBody sign (ids ++ '.' :: (fds ++ rest))
      = some (.jnum (mkFinite sign (ids ++ fds) (-(fds.length : Int))), rest) := by
  have hrest := numSafe_head rest hsafe
  have h1 : takeDigs (ids ++ '.' :: (fds ++ rest)) = (ids, '.' :: (fds ++ rest)) :=
    takeDigs_split ids _ hidsd
      (by intro c hc; injection hc with hc; rw [← hc]; decide)
  have h2 : takeDigs (fds ++ rest) = (fds, rest) :=
    takeDigs_split fds rest hfdsd (fun c hc => (hrest c hc).1)
  obtain ⟨c0, tl, hids⟩ := List.exists_cons_of_ne_nil hidsne
  obtain ⟨f0, ftl, hfds⟩ := List.exists_cons_of_ne_nil hfdsne
  unfold parseJNumBody
  rw [h1]
  subst hids
  simp only
  rw [h2]
  subst hfds
  simp only
  cases rest with
  | nil => rfl
  | cons c r4 =>
      obtain ⟨_, _, he, hE⟩ := hrest c rfl
      simp only
      rw [if_neg (by
        intro hor
        rcases hor with hor | hor
        · exact he hor
        · exact hE hor)]

theorem renderFloat_shape (sign : Bool) (m : Nat) (e : Int)
    (hcanon : canonF (.finite sign m e) = true) :
    ∃ ids fds,
      renderFloat (.finite sign m e)
          = (if sign then ['-'] else []) ++ (ids ++ '.' :: fds)
        ∧ ids ≠ [] ∧ (∀ c ∈ ids, c.isDigit = true)
        ∧ fds ≠ [] ∧ (∀ c ∈ fds, c.isDigit = true)
        ∧ mkFinite sign (ids ++ fds) (-(fds.length : Int)) = .finite sign m e := by
  obtain ⟨hval, hne, hdigs⟩ := natStr_facts m
  have hrf : renderFloat (.finite sign m e)
      = (if sign then ['-'] else [])
        ++ (if 0 ≤ e then natStr m ++ List.replicate e.toNat '0' ++ ('.' :: '0' :: [])
            else if (-e).toNat < (natStr m).length then
              (natStr m).take ((natStr m).length - (-e).toNat)
                ++ '.' :: (natStr m).drop ((natStr m).length - (-e).toNat)
            else '0' :: '.' ::
              (List.replicate ((-e).toNat - (natStr m).length) '0' ++ natStr m)) := by
    unfold renderFloat
    simp only
    cases sign <;> simp
  unfold canonF at hcanon
  simp only at hcanon
  by_cases hm : m = 0
  · subst hm
    rw [if_pos rfl] at hcanon
    have he : e = 0 := by
      have := beq_iff_eq.mp hcanon
      exact this
    subst he
    refine ⟨['0'], ['0'], ?_, by simp, by decide, by simp, by decide, ?_⟩
    · rw [hrf, if_pos le_rfl]
      rfl
    · rfl
  · rw [if_neg hm] at hcanon
    have hmod : m % 10 ≠ 0 := by simpa using hcanon
    obtain ⟨pre, hpre⟩ := natStr_last m
    have hdc : digitChar m ≠ '0' := by
      intro hdc
      obtain ⟨_, ht⟩ := digitChar_facts m
      rw [hdc] at ht
      have : m % 10 = 0 := by
        have h48 : ('0').toNat = 48 := by decide
        omega
      exact hmod this
    by_cases hepos : 0 ≤ e
    · refine ⟨natStr m ++ List.replicate e.toNat '0', ['0'], ?_, ?_, ?_, by simp, ?_, ?_⟩
      · rw [hrf, if_pos hepos]
      · simp [hne]
      · intro c hc
        rcases List.mem_append.mp hc with hc | hc
        · exact hdigs c hc
        · rw [List.eq_of_mem_replicate hc]
          decide
      · intro c hc
        rw [List.mem_singleton.mp hc]
        decide
      · have hassoc : (natStr m ++ List.replicate e.toNat '0') ++ ['0']
            = natStr m ++ List.replicate (e.toNat + 1) '0' := by
          rw [List.append_assoc]
          congr 1
          rw [List.replicate_succ']
        rw [hassoc, mkFinite_append_zeros, hpre,
          mkFinite_keep sign pre (digitChar m) _ hdc, ← hpre, hval]
        congr 1
        simp
        omega
    · have hklt : 1 ≤ (-e).toNat := by omega
      by_cases hlen : (-e).toNat < (natStr m).length
      · refine ⟨(natStr m).take ((natStr m).length - (-e).toNat),
          (natStr m).drop ((natStr m).length - (-e).toNat), ?_, ?_, ?_, ?_, ?_, ?_⟩
        · rw [hrf, if_neg hepos, if_pos hlen]
        · intro htake
          have := congrArg List.length htake
          simp [List.length_take] at this
          omega
        · intro c hc
          exact hdigs c (List.mem_of_mem_take hc)
        · intro hdrop
          have := congrArg List.length hdrop
          simp [List.length_drop] at this
          omega
        · intro c hc
          exact hdigs c (List.mem_of_mem_drop hc)
        · rw [List.take_append_drop, hpre,
            mkFinite_keep sign pre (digitChar m) _ hdc, ← hpre, hval]
          congr 1
          simp [List.length_drop]
          omega
      · refine ⟨['0'], List.replicate ((-e).toNat - (natStr m).length) '0' ++ natStr m,
          ?_, by simp, by decide, by simp [hne], ?_, ?_⟩
        · rw [hrf, if_neg hepos, if_neg hlen]
          rfl
        · intro c hc
          rcases List.mem_append.mp hc with hc | hc
          · rw [List.eq_of_mem_replicate hc]
            decide
          · exact hdigs c hc
        · have hassoc : (['0'] : Str)
              ++ (List.replicate ((-e).toNat - (natStr m).length) '0' ++ natStr m)
              = (List.replicate ((-e).toNat - (natStr m).length + 1) '0' ++ pre)
                  ++ [digitChar m] := by
            rw [List.replicate_succ]
            simp [hpre]
          rw [hassoc, mkFinite_keep sign _ (digitChar m) _ hdc]
          have hvaleq : natOfDigits
              ((List.replicate ((-e).toNat - (natStr m).length + 1) '0' ++ pre)
                ++ [digitChar m]) = m := by
            rw [List.append_assoc, natOfDigits_replicate_prefix, ← hpre, hval]
          rw [hvaleq]
          congr 1
          simp [List.length_replicate, ← hpre]
          omega

/-! ## Lemmas: the JSON value reader on dumped text -/

theorem skipJWs_cons_ws (c : Char) (s : Str) (h : isJWs c = true) :
    skipJWs (c :: s) = skipJWs s := by
  unfold skipJWs
  simp [List.dropWhile_cons, h]

theorem skipJWs_cons_nonws (c : Char) (s : Str) (h : isJWs c = false) :
    skipJWs (c :: s) = c :: s := by
  unfold skipJWs
  simp [List.dropWhile_cons, h]

theorem skipJWs_idem (s : Str) : skipJWs (skipJWs s) = skipJWs s := by
  unfold skipJWs
  cases hd : s.dropWhile isJWs with
  | nil => rfl
  | cons c t =>
      have hc := dropWhile_cons_head isJWs s c t hd
      simp [List.dropWhile_cons, hc]

theorem skipJWs_nlIndent (n : Nat) (s : Str) :
    skipJWs (nlIndent n ++ s) = skipJWs s := by
  unfold nlIndent
  rw [List.cons_append, skipJWs_cons_ws _ _ (by decide)]
  unfold skipJWs
  rw [dropWhile_append_all _ _ _
    (by intro c hc; rw [List.eq_of_mem_replicate hc]; decide)]

theorem jparseF_skip (fuel : Nat) (s : Str) :
    jparseF fuel (skipJWs s) = jparseF fuel s := by
  cases fuel with
  | zero => rfl
  | succ f => rw [jparseF.eq_2, jparseF.eq_2, skipJWs_idem]

theorem jpairsF_skip (pv : Str → Option (Json × Str)) (lf : Nat) (s : Str) :
    jpairsF pv lf (skipJWs s) = jpairsF pv lf s := by
  cases lf with
  | zero => rfl
  | succ l => rw [jpairsF.eq_2, jpairsF.eq_2, skipJWs_idem]

theorem jitemsF_skip_pv (pv : Str → Option (Json × Str)) (lf : Nat) (s : Str)
    (hws : ∀ s2, pv (skipJWs s2) = pv s2) :
    jitemsF pv lf (skipJWs s) = jitemsF pv lf s := by
  cases lf with
  | zero => rfl
  | succ l => rw [jitemsF.eq_2, jitemsF.eq_2, hws]

theorem escC_len (c : Char) : 1 ≤ (escC c).length := by
  unfold escC
  split_ifs <;> simp [hex4]

theorem len_escape_ge (s : Str) : s.length ≤ (escape s).length := by
  induction s with
  | nil => simp [escape]
  | cons c t ih =>
      rw [escape_cons]
      have := escC_len c
      simp only [List.length_append, List.length_cons]
      omega

theorem numSafe_comma (r : Str) : numSafe (',' :: r) = true := rfl

theorem numSafe_nl (r : Str) : numSafe ('\n' :: r) = true := rfl

theorem numSafe_nil : numSafe ([] : Str) = true := rfl

theorem jparseF_jstr (fuel : Nat) (s : Str) (rest : Str) :
    jparseF (fuel + 1) (jsonStr s ++ rest) = some (.jstr s, rest) := by
  have htext : jsonStr s ++ rest = '"' :: (escape s ++ '"' :: rest) := by
    unfold jsonStr
    simp
  rw [htext, jparseF.eq_2,
    skipJWs_cons_nonws _ _ (by decide)]
  simp only
  rw [if_pos trivial]
  have hlen : s.length ≤ (escape s ++ '"' :: rest).length := by
    have := len_escape_ge s
    simp only [List.length_append, List.length_cons]
    omega
  rw [parseStrBody_escape s [] rest (escape s ++ '"' :: rest).length hlen]
  simp

theorem jparseF_nan (fuel : Nat) (rest : Str) :
    jparseF (fuel + 1) (("NaN").toList ++ rest) = some (.jnum .nan, rest) := rfl

theorem jparseF_inf (fuel : Nat) (rest : Str) :
    jparseF (fuel + 1) (("Infinity").toList ++ rest)
      = some (.jnum (.infty false), rest) := rfl

theorem jparseF_ninf (fuel : Nat) (rest : Str) :
    jparseF (fuel + 1) (("-Infinity").toList ++ rest)
      = some (.jnum (.infty true), rest) := rfl

theorem jparseF_num (fuel : Nat) (f : PyFloat) (rest : Str)
    (hc : canonF f = true) (hsafe : numSafe rest = true) :
    jparseF (fuel + 1) (renderFloat f ++ rest) = some (.jnum f, rest) := by
  cases f with
  | nan => exact jparseF_nan fuel rest
  | infty neg =>
      cases neg with
      | false => exact jparseF_inf fuel rest
      | true => exact jparseF_ninf fuel rest
  | finite sign m e =>
      obtain ⟨ids, fds, hshape, hine, hid, hfne, hfd, hmk⟩ := renderFloat_shape sign m e hc
      rw [hshape]
      obtain ⟨c0, tl, hids⟩ := List.exists_cons_of_ne_nil hine
      subst hids
      have hc0 : c0.isDigit = true := hid c0 (List.mem_cons_self ..)
      obtain ⟨hdot, hee, hEE, hq, hlb, hlc, ht2, hf2, hn2, hN2, hI2, hm2, hws⟩ :=
        digit_ne_all c0 hc0
      cases sign with
      | false =>
          have htext : ((if (false : Bool) then ['-'] else []) ++ ((c0 :: tl) ++ '.' :: fds))
                ++ rest
              = c0 :: (tl ++ '.' :: (fds ++ rest)) := by simp
          rw [htext, jparseF.eq_2, skipJWs_cons_nonws _ _ hws]
          simp only
          rw [if_neg hq, if_neg hlb, if_neg hlc, if_neg ht2, if_neg hf2, if_neg hn2,
            if_neg hN2, if_neg hI2, if_neg hm2, if_pos hc0]
          have hjoin : c0 :: (tl ++ '.' :: (fds ++ rest))
              = (c0 :: tl) ++ '.' :: (fds ++ rest) := rfl
          rw [hjoin, parseJNumBody_frac false (c0 :: tl) fds rest hine hid hfne hfd hsafe,
            hmk]
      | true =>
          have htext : ((if (true : Bool) then ['-'] else []) ++ ((c0 :: tl) ++ '.' :: fds))
                ++ rest
              = '-' :: (c0 :: (tl ++ '.' :: (fds ++ rest))) := by simp
          rw [htext, jparseF.eq_2, skipJWs_cons_nonws _ _ (by decide)]
          simp only
          rw [if_neg (by decide), if_neg (by decide), if_neg (by decide),
            if_neg (by decide), if_neg (by decide), if_neg (by decide),
            if_neg (by decide), if_neg (by decide), if_pos trivial]
          rw [if_neg hI2]
          have hjoin : c0 :: (tl ++ '.' :: (fds ++ rest))
              = (c0 :: tl) ++ '.' :: (fds ++ rest) := rfl
          rw [hjoin, parseJNumBody_frac true (c0 :: tl) fds rest hine hid hfne hfd hsafe,
            hmk]

theorem dumpPairs_len (dv : Json → Str) (ind : Nat) :
    ∀ (ms : List (Str × Json)), ms.length ≤ (dumpPairsWith dv ind ms).length
  | [] => by simp [dumpPairsWith]
  | q :: [] => by
      unfold dumpPairsWith
      simp [nlIndent]
  | q :: q2 :: ms => by
      unfold dumpPairsWith
      have ih := dumpPairs_len dv ind (q2 :: ms)
      simp only [List.length_cons, List.length_append, nlIndent] at *
      omega

theorem dumpItems_len (dv : Json → Str) (ind : Nat) :
    ∀ (xs : List Json), xs.length ≤ (dumpItemsWith dv ind xs).length
  | [] => by simp [dumpItemsWith]
  | x :: [] => by
      unfold dumpItemsWith
      simp [nlIndent]
  | x :: x2 :: xs => by
      unfold dumpItemsWith
      have ih := dumpItems_len dv ind (x2 :: xs)
      simp only [List.length_cons, List.length_append, nlIndent] at *
      omega

theorem jpairsF_dump (pv : Str → Option (Json × Str)) (dv : Json → Str) (ind : Nat)
    (hws : ∀ s2, pv (skipJWs s2) = pv s2) :
    ∀ (ms : List (Str × Json)) (lf : Nat) (rest : Str),
      ms ≠ [] → ms.length ≤ lf →
      (∀ kv ∈ ms, ∀ r2, numSafe r2 = true → pv (dv kv.2 ++ r2) = some (kv.2, r2)) →
      jpairsF pv lf (dumpPairsWith dv (ind + 2) ms ++ (nlIndent ind ++ ('}' :: rest)))
        = some (ms, rest)
  | [], _, _, hne, _, _ => absurd rfl hne
  | (k, v) :: ms, 0, rest, _, hlf, _ => by simp at hlf
  | (k, v) :: ms, lf + 1, rest, _, hlf, hpv => by
      have hpv1 : ∀ r2, numSafe r2 = true → pv (dv v ++ r2) = some (v, r2) :=
        hpv (k, v) (List.mem_cons_self ..)
      have hspace : ∀ X, pv (' ' :: X) = pv X := by
        intro X
        calc pv (' ' :: X) = pv (skipJWs (' ' :: X)) := (hws (' ' :: X)).symm
          _ = pv (skipJWs X) := by rw [skipJWs_cons_ws _ _ (by decide)]
          _ = pv X := hws X
      cases ms with
      | nil =>
          have hT : dumpPairsWith dv (ind + 2) [(k, v)] ++ (nlIndent ind ++ ('}' :: rest))
              = nlIndent (ind + 2)
                  ++ ('"' :: (escape k ++ '"'
                    :: (':' :: ' ' :: (dv v ++ (nlIndent ind ++ ('}' :: rest)))))) := by
            unfold dumpPairsWith jsonStr
            simp
          rw [hT, jpairsF.eq_2]
          rw [skipJWs_nlIndent, skipJWs_cons_nonws _ _ (by decide)]
          simp only
          rw [if_pos trivial]
          have hlen : k.length
              ≤ (escape k ++ '"'
                  :: (':' :: ' ' :: (dv v ++ (nlIndent ind ++ ('}' :: rest))))).length := by
            have := len_escape_ge k
            simp only [List.length_append, List.length_cons]
            omega
          rw [parseStrBody_escape k [] _ _ hlen]
          simp only [List.reverse_nil, List.nil_append]
          rw [skipJWs_cons_nonws _ _ (by decide)]
          simp only
          rw [if_pos trivial]
          rw [hspace, hpv1 (nlIndent ind ++ ('}' :: rest)) (by rfl)]
          simp only
          rw [skipJWs_nlIndent, skipJWs_cons_nonws _ _ (by decide)]
          simp only
          rw [if_neg (by decide), if_pos trivial]
      | cons q2 ms2 =>
          have hT : dumpPairsWith dv (ind + 2) ((k, v) :: q2 :: ms2)
                ++ (nlIndent ind ++ ('}' :: rest))
              = nlIndent (ind + 2)
                  ++ ('"' :: (escape k ++ '"'
                    :: (':' :: ' ' :: (dv v
                      ++ (',' :: (dumpPairsWith dv (ind + 2) (q2 :: ms2)
                        ++ (nlIndent ind ++ ('}' :: rest)))))))) := by
            unfold dumpPairsWith jsonStr
            simp
            cases ms2 <;> simp [dumpPairsWith, jsonStr]
          rw [hT, jpairsF.eq_2]
          rw [skipJWs_nlIndent, skipJWs_cons_nonws _ _ (by decide)]
          simp only
          rw [if_pos trivial]
          have hlen : k.length
              ≤ (escape k ++ '"'
                  :: (':' :: ' ' :: (dv v
                    ++ (',' :: (dumpPairsWith dv (ind + 2) (q2 :: ms2)
                      ++ (nlIndent ind ++ ('}' :: rest))))))).length := by
            have := len_escape_ge k
            simp only [List.length_append, List.length_cons]
            omega
          rw [parseStrBody_escape k [] _ _ hlen]
          simp only [List.reverse_nil, List.nil_append]
          rw [skipJWs_cons_nonws _ _ (by decide)]
          simp only
          rw [if_pos trivial]
          rw [hspace, hpv1 _ (numSafe_comma _)]
          simp only
          rw [skipJWs_cons_nonws _ _ (by decide)]
          simp only
          rw [if_pos trivial]
          rw [jpairsF_dump pv dv ind hws (q2 :: ms2) lf rest (by simp)
            (by simp only [List.length_cons] at hlf ⊢; omega)
            (fun kv hkv => hpv kv (List.mem_cons_of_mem _ hkv))]

theorem jitemsF_dump (pv : Str → Option (Json × Str)) (dv : Json → Str) (ind : Nat)
    (hws : ∀ s2, pv (skipJWs s2) = pv s2) :
    ∀ (xs : List Json) (lf : Nat) (rest : Str),
      xs ≠ [] → xs.length ≤ lf →
      (∀ x ∈ xs, ∀ r2, numSafe r2 = true → pv (dv x ++ r2) = some (x, r2)) →
      jitemsF pv lf (dumpItemsWith dv (ind + 2) xs ++ (nlIndent ind ++ (']' :: rest)))
        = some (xs, rest)
  | [], _, _, hne, _, _ => absurd rfl hne
  | x :: xs, 0, rest, _, hlf, _ => by simp at hlf
  | x :: xs, lf + 1, rest, _, hlf, hpv => by
      have hpv1 : ∀ r2, numSafe r2 = true → pv (dv x ++ r2) = some (x, r2) :=
        hpv x (List.mem_cons_self ..)
      have hnl : ∀ X, pv (nlIndent (ind + 2) ++ X) = pv X := by
        intro X
        calc pv (nlIndent (ind + 2) ++ X)
            = pv (skipJWs (nlIndent (ind + 2) ++ X)) := (hws _).symm
          _ = pv (skipJWs X) := by rw [skipJWs_nlIndent]
          _ = pv X := hws X
      cases xs with
      | nil =>
          have hT : dumpItemsWith dv (ind + 2) [x] ++ (nlIndent ind ++ (']' :: rest))
              = nlIndent (ind + 2) ++ (dv x ++ (nlIndent ind ++ (']' :: rest))) := by
            unfold dumpItemsWith
            simp
          rw [hT, jitemsF.eq_2, hnl, hpv1 _ (by rfl)]
          simp only
          rw [skipJWs_nlIndent, skipJWs_cons_nonws _ _ (by decide)]
          simp only
          rw [if_neg (by decide), if_pos trivial]
      | cons x2 xs2 =>
          have hT : dumpItemsWith dv (ind + 2) (x :: x2 :: xs2)
                ++ (nlIndent ind ++ (']' :: rest))
              = nlIndent (ind + 2)
                  ++ (dv x ++ (',' :: (dumpItemsWith dv (ind + 2) (x2 :: xs2)
                    ++ (nlIndent ind ++ (']' :: rest))))) := by
            unfold dumpItemsWith
            simp
            cases xs2 <;> simp [dumpItemsWith]
          rw [hT, jitemsF.eq_2, hnl, hpv1 _ (numSafe_comma _)]
          simp only
          rw [skipJWs_cons_nonws _ _ (by decide)]
          simp only
          rw [if_pos trivial]
          rw [jitemsF_dump pv dv ind hws (x2 :: xs2) lf rest (by simp)
            (by simp only [List.length_cons] at hlf ⊢; omega)
            (fun y hy => hpv y (List.mem_cons_of_mem _ hy))]

theorem dumpPairs_shape (dv : Json → Str) (i : Nat) (q : Str × Json)
    (ms : List (Str × Json)) :
    ∃ Q, dumpPairsWith dv i (q :: ms) = nlIndent i ++ ('"' :: Q)
      ∧ ms.length ≤ Q.length := by
  cases ms with
  | nil =>
      refine ⟨escape q.1 ++ '"' :: (':' :: ' ' :: dv q.2), ?_, by simp⟩
      unfold dumpPairsWith jsonStr
      simp
  | cons q2 ms2 =>
      refine ⟨escape q.1 ++ '"' :: (':' :: ' ' :: (dv q.2
        ++ ',' :: dumpPairsWith dv i (q2 :: ms2))), ?_, ?_⟩
      · unfold dumpPairsWith jsonStr
        simp
        cases ms2 <;> simp [dumpPairsWith, jsonStr]
      · have := dumpPairs_len dv i (q2 :: ms2)
        simp only [List.length_append, List.length_cons] at *
        omega

theorem dumpItems_shape (dv : Json → Str) (i : Nat) (x : Json) (xs : List Json)
    (t : Str) (hh : dv x = '"' :: t) :
    ∃ Q, dumpItemsWith dv i (x :: xs) = nlIndent i ++ ('"' :: Q)
      ∧ xs.length ≤ Q.length := by
  cases xs with
  | nil =>
      refine ⟨t, ?_, by simp⟩
      unfold dumpItemsWith
      simp [hh]
  | cons x2 xs2 =>
      refine ⟨t ++ ',' :: dumpItemsWith dv i (x2 :: xs2), ?_, ?_⟩
      · unfold dumpItemsWith
        simp [hh]
        cases xs2 <;> simp [dumpItemsWith]
      · have := dumpItems_len dv i (x2 :: xs2)
        simp only [List.length_append, List.length_cons] at *
        omega

theorem jparseF_objval (fuel : Nat) (dv : Json → Str) (ind : Nat)
    (ms : List (Str × Json)) (rest : Str) (hne : ms ≠ [])
    (hpv : ∀ kv ∈ ms, ∀ r2, numSafe r2 = true →
        jparseF fuel (dv kv.2 ++ r2) = some (kv.2, r2)) :
    jparseF (fuel + 1)
        (('{' :: (dumpPairsWith dv (ind + 2) ms ++ nlIndent ind ++ ('}' :: [])))
          ++ rest)
      = some (.jobj ms, rest) := by
  obtain ⟨q, ms2, hms⟩ := List.exists_cons_of_ne_nil hne
  subst hms
  obtain ⟨Q, hQ, hQl⟩ := dumpPairs_shape dv (ind + 2) q ms2
  have hT : ('{' :: (dumpPairsWith dv (ind + 2) (q :: ms2) ++ nlIndent ind
        ++ ('}' :: []))) ++ rest
      = '{' :: (dumpPairsWith dv (ind + 2) (q :: ms2)
          ++ (nlIndent ind ++ ('}' :: rest))) := by
    simp
  have hsw : skipJWs (dumpPairsWith dv (ind + 2) (q :: ms2)
        ++ (nlIndent ind ++ ('}' :: rest)))
      = '"' :: (Q ++ (nlIndent ind ++ ('}' :: rest))) := by
    rw [hQ, List.append_assoc, skipJWs_nlIndent, List.cons_append,
      skipJWs_cons_nonws _ _ (by decide)]
  rw [hT, jparseF.eq_2, skipJWs_cons_nonws _ _ (by decide)]
  simp only
  rw [if_neg (by decide), if_neg (by decide), if_pos trivial, hsw]
  simp only
  rw [if_neg (by decide)]
  rw [show ('"' :: (Q ++ (nlIndent ind ++ ('}' :: rest))))
      = skipJWs (dumpPairsWith dv (ind + 2) (q :: ms2)
        ++ (nlIndent ind ++ ('}' :: rest))) from hsw.symm]
  rw [jpairsF_skip]
  rw [jpairsF_dump (fun s2 => jparseF fuel s2) dv ind (fun s2 => jparseF_skip fuel s2)
    (q :: ms2) _ rest (by simp)
    (by
      rw [hsw]
      simp only [List.length_cons, List.length_append, nlIndent]
      simp only [List.length_cons, List.length_replicate]
      omega)
    hpv]

theorem jparseF_arrval (fuel : Nat) (dv : Json → Str) (ind : Nat)
    (xs : List Json) (rest : Str) (x0 : Json) (xs0 : List Json) (t0 : Str)
    (hxs : xs = x0 :: xs0) (hh : dv x0 = '"' :: t0)
    (hpv : ∀ x ∈ xs, ∀ r2, numSafe r2 = true →
        jparseF fuel (dv x ++ r2) = some (x, r2)) :
    jparseF (fuel + 1)
        (('[' :: (dumpItemsWith dv (ind + 2) xs ++ nlIndent ind ++ (']' :: [])))
          ++ rest)
      = some (.jarr xs, rest) := by
  subst hxs
  obtain ⟨Q, hQ, hQl⟩ := dumpItems_shape dv (ind + 2) x0 xs0 t0 hh
  have hT : ('[' :: (dumpItemsWith dv (ind + 2) (x0 :: xs0) ++ nlIndent ind
        ++ (']' :: []))) ++ rest
      = '[' :: (dumpItemsWith dv (ind + 2) (x0 :: xs0)
          ++ (nlIndent ind ++ (']' :: rest))) := by
    simp
  have hsw : skipJWs (dumpItemsWith dv (ind + 2) (x0 :: xs0)
        ++ (nlIndent ind ++ (']' :: rest)))
      = '"' :: (Q ++ (nlIndent ind ++ (']' :: rest))) := by
    rw [hQ, List.append_assoc, skipJWs_nlIndent, List.cons_append,
      skipJWs_cons_nonws _ _ (by decide)]
  rw [hT, jparseF.eq_2, skipJWs_cons_nonws _ _ (by decide)]
  simp only
  rw [if_neg (by decide), if_pos trivial, hsw]
  simp only
  rw [if_neg (by decide)]
  rw [show ('"' :: (Q ++ (nlIndent ind ++ (']' :: rest))))
      = skipJWs (dumpItemsWith dv (ind + 2) (x0 :: xs0)
        ++ (nlIndent ind ++ (']' :: rest))) from hsw.symm]
  rw [jitemsF_skip_pv _ _ _ (fun s2 => jparseF_skip fuel s2)]
  rw [jitemsF_dump (fun s2 => jparseF fuel s2) dv ind (fun s2 => jparseF_skip fuel s2)
    (x0 :: xs0) _ rest (by simp)
    (by
      rw [hsw]
      simp only [List.length_cons, List.length_append, nlIndent]
      simp only [List.length_cons, List.length_replicate]
      omega)
    hpv]

theorem jparseF_emptyobj (fuel : Nat) (rest : Str) :
    jparseF (fuel + 1) (('{' :: '}' :: []) ++ rest) = some (.jobj [], rest) := rfl

theorem jparseF_emptyarr (fuel : Nat) (rest : Str) :
    jparseF (fuel + 1) (('[' :: ']' :: []) ++ rest) = some (.jarr [], rest) := rfl

theorem jparseF_setsentry (fuel fd ind : Nat) (xs : List Str) (rest : Str) :
    jparseF (fuel + 3) (dumpF (fd + 2) ind (.jarr (xs.map Json.jstr)) ++ rest)
      = some (.jarr (xs.map Json.jstr), rest) := by
  cases xs with
  | nil => exact jparseF_emptyarr (fuel + 2) rest
  | cons s0 ss =>
      have hdump : dumpF (fd + 2) ind (.jarr ((s0 :: ss).map Json.jstr))
          = '[' :: (dumpItemsWith (fun v => dumpF (fd + 1) (ind + 2) v) (ind + 2)
              ((s0 :: ss).map Json.jstr) ++ nlIndent ind ++ (']' :: [])) := rfl
      rw [hdump]
      exact jparseF_arrval (fuel + 2) _ ind _ rest (.jstr s0) (ss.map Json.jstr)
        (escape s0 ++ ['"']) (by simp) rfl
        (by
          intro x hx r2 hr2
          obtain ⟨t, ht, rfl⟩ := List.mem_map.mp hx
          exact jparseF_jstr (fuel + 1) t r2)

theorem jparseF_rowobj (fuel fd ind : Nat) (row : List (Str × PyFloat)) (rest : Str)
    (hc : row.all (fun r => canonF r.2) = true) :
    jparseF (fuel + 2)
        (dumpF (fd + 2) ind (.jobj (row.map (fun r => (r.1, Json.jnum r.2)))) ++ rest)
      = some (.jobj (row.map (fun r => (r.1, Json.jnum r.2))), rest) := by
  cases row with
  | nil => exact jparseF_emptyobj (fuel + 1) rest
  | cons r0 rs =>
      have hdump : dumpF (fd + 2) ind (.jobj ((r0 :: rs).map (fun r => (r.1, Json.jnum r.2))))
          = '{' :: (dumpPairsWith (fun v => dumpF (fd + 1) (ind + 2) v) (ind + 2)
              ((r0 :: rs).map (fun r => (r.1, Json.jnum r.2))) ++ nlIndent ind
              ++ ('}' :: [])) := rfl
      rw [hdump]
      exact jparseF_objval (fuel + 1) _ ind _ rest (by simp)
        (by
          intro kv hkv r2 hr2
          obtain ⟨p, hp, rfl⟩ := List.mem_map.mp hkv
          have hcp : canonF p.2 = true := by
            rw [List.all_eq_true] at hc
            exact hc p hp
          exact jparseF_num fuel p.2 r2 hcp hr2)

theorem jparseF_pval (fuel fd ind : Nat) (pv : PVal) (rest : Str)
    (hcanon : pvalCanon pv = true) (hsafe : numSafe rest = true) :
    jparseF (fuel + 3) (dumpF (fd + 3) ind (pvalJson pv) ++ rest)
      = some (pvalJson pv, rest) := by
  cases pv with
  | num f => exact jparseF_num (fuel + 2) f rest hcanon hsafe
  | strv s => exact jparseF_jstr (fuel + 2) s rest
  | map1 m =>
      cases m with
      | nil => exact jparseF_emptyobj (fuel + 2) rest
      | cons q m2 =>
          rw [show pvalJson (.map1 (q :: m2))
              = .jobj ((q :: m2).map (fun p => (p.1, Json.jnum p.2))) from rfl]
          rw [show dumpF (fd + 3) ind
                (.jobj ((q :: m2).map (fun p => (p.1, Json.jnum p.2))))
              = '{' :: (dumpPairsWith (fun v => dumpF (fd + 2) (ind + 2) v) (ind + 2)
                  ((q :: m2).map (fun p => (p.1, Json.jnum p.2))) ++ nlIndent ind
                  ++ ('}' :: [])) from rfl]
          exact jparseF_objval (fuel + 2) _ ind _ rest (by simp)
            (by
              intro kv hkv r2 hr2
              obtain ⟨p, hp, rfl⟩ := List.mem_map.mp hkv
              have hcp : canonF p.2 = true := by
                unfold pvalCanon at hcanon
                rw [List.all_eq_true] at hcanon
                exact hcanon p hp
              exact jparseF_num (fuel + 1) p.2 r2 hcp hr2)
  | map2 t =>
      cases t with
      | nil => exact jparseF_emptyobj (fuel + 2) rest
      | cons q t2 =>
          rw [show pvalJson (.map2 (q :: t2))
              = .jobj ((q :: t2).map (fun p =>
                  (p.1, Json.jobj (p.2.map (fun r => (r.1, Json.jnum r.2)))))) from rfl]
          rw [show dumpF (fd + 3) ind
                (.jobj ((q :: t2).map (fun p =>
                  (p.1, Json.jobj (p.2.map (fun r => (r.1, Json.jnum r.2)))))))
              = '{' :: (dumpPairsWith (fun v => dumpF (fd + 2) (ind + 2) v) (ind + 2)
                  ((q :: t2).map (fun p =>
                    (p.1, Json.jobj (p.2.map (fun r => (r.1, Json.jnum r.2))))))
                  ++ nlIndent ind ++ ('}' :: [])) from rfl]
          exact jparseF_objval (fuel + 2) _ ind _ rest (by simp)
            (by
              intro kv hkv r2 hr2
              obtain ⟨p, hp, rfl⟩ := List.mem_map.mp hkv
              have hcp : p.2.all (fun r => canonF r.2) = true := by
                unfold pvalCanon at hcanon
                rw [List.all_eq_true] at hcanon
                exact hcanon p hp
              exact jparseF_rowobj fuel fd (ind + 2) p.2 r2 hcp)

theorem jparseF_setsobj (fuel fd : Nat) (sets : List (Str × List Str)) (rest : Str) :
    jparseF (fuel + 4)
        (dumpF (fd + 3) 2 (.jobj (sets.map (fun q => (q.1, Json.jarr (q.2.map Json.jstr)))))
          ++ rest)
      = some (.jobj (sets.map (fun q => (q.1, Json.jarr (q.2.map Json.jstr)))), rest) := by
  cases sets with
  | nil => exact jparseF_emptyobj (fuel + 3) rest
  | cons q ss =>
      have hdump : dumpF (fd + 3) 2
            (.jobj ((q :: ss).map (fun q => (q.1, Json.jarr (q.2.map Json.jstr)))))
          = '{' :: (dumpPairsWith (fun v => dumpF (fd + 2) (2 + 2) v) (2 + 2)
              ((q :: ss).map (fun q => (q.1, Json.jarr (q.2.map Json.jstr))))
              ++ nlIndent 2 ++ ('}' :: [])) := rfl
      rw [hdump]
      exact jparseF_objval (fuel + 3) _ 2 _ rest (by simp)
        (by
          intro kv hkv r2 hr2
          obtain ⟨p, hp, rfl⟩ := List.mem_map.mp hkv
          exact jparseF_setsentry fuel fd (2 + 2) p.2 r2)

theorem jparseF_paramsobj (fuel fd : Nat) (params : List (Str × PVal)) (rest : Str)
    (hc : params.all (fun q => pvalCanon q.2) = true) :
    jparseF (fuel + 4)
        (dumpF (fd + 4) 2 (.jobj (params.map (fun q => (q.1, pvalJson q.2)))) ++ rest)
      = some (.jobj (params.map (fun q => (q.1, pvalJson q.2))), rest) := by
  cases params with
  | nil => exact jparseF_emptyobj (fuel + 3) rest
  | cons q ps =>
      have hdump : dumpF (fd + 4) 2
            (.jobj ((q :: ps).map (fun q => (q.1, pvalJson q.2))))
          = '{' :: (dumpPairsWith (fun v => dumpF (fd + 3) (2 + 2) v) (2 + 2)
              ((q :: ps).map (fun q => (q.1, pvalJson q.2)))
              ++ nlIndent 2 ++ ('}' :: [])) := rfl
      rw [hdump]
      exact jparseF_objval (fuel + 3) _ 2 _ rest (by simp)
        (by
          intro kv hkv r2 hr2
          obtain ⟨p, hp, rfl⟩ := List.mem_map.mp hkv
          have hcp : pvalCanon p.2 = true := by
            rw [List.all_eq_true] at hc
            exact hc p hp
          exact jparseF_pval fuel fd (2 + 2) p.2 r2 hcp hr2)

theorem jparseF_doc (fuel : Nat) (d : Doc) (rest : Str) (hd : docCanon d = true) :
    jparseF (fuel + 5) (dumpF 8 0 (docJson d) ++ rest) = some (docJson d, rest) := by
  have hdump : dumpF 8 0 (docJson d)
      = '{' :: (dumpPairsWith (fun v => dumpF 7 (0 + 2) v) (0 + 2)
          [(("sets").toList,
            .jobj (d.sets.map (fun q => (q.1, Json.jarr (q.2.map Json.jstr))))),
           (("params").toList,
            .jobj (d.params.map (fun q => (q.1, pvalJson q.2))))]
          ++ nlIndent 0 ++ ('}' :: [])) := rfl
  have hjd : docJson d
      = .jobj [(("sets").toList,
          .jobj (d.sets.map (fun q => (q.1, Json.jarr (q.2.map Json.jstr))))),
         (("params").toList,
          .jobj (d.params.map (fun q => (q.1, pvalJson q.2))))] := rfl
  rw [hdump, hjd]
  exact jparseF_objval (fuel + 4) _ 0 _ rest (by simp)
    (by
      intro kv hkv r2 hr2
      rcases List.mem_cons.mp hkv with rfl | hkv
      · exact jparseF_setsobj fuel 4 d.sets r2
      · rcases List.mem_cons.mp hkv with rfl | hkv
        · exact jparseF_paramsobj fuel 3 d.params r2 hd
        · cases hkv)

theorem serialize_len (d : Doc) : 5 ≤ (serialize d).length := by
  unfold serialize serializeJson
  have hdump : dumpF 8 0 (docJson d)
      = '{' :: (dumpPairsWith (fun v => dumpF 7 (0 + 2) v) (0 + 2)
          [(("sets").toList,
            .jobj (d.sets.map (fun q => (q.1, Json.jarr (q.2.map Json.jstr))))),
           (("params").toList,
            .jobj (d.params.map (fun q => (q.1, pvalJson q.2))))]
          ++ nlIndent 0 ++ ('}' :: [])) := rfl
  rw [hdump]
  have := dumpPairs_len (fun v => dumpF 7 (0 + 2) v) (0 + 2)
    [(("sets").toList,
      .jobj (d.sets.map (fun q => (q.1, Json.jarr (q.2.map Json.jstr))))),
     (("params").toList,
      .jobj (d.params.map (fun q => (q.1, pvalJson q.2))))]
  simp only [List.length_cons, List.length_append, nlIndent, List.length_replicate] at *
  omega

theorem jloads_serialize (d : Doc) (hd : docCanon d = true) :
    jloads (serialize d) = some (docJson d) := by
  unfold jloads
  obtain ⟨fuel0, hf⟩ : ∃ fuel0, (serialize d).length + 1 = fuel0 + 5 :=
    ⟨(serialize d).length - 4, by have := serialize_len d; omega⟩
  have htext : serialize d = dumpF 8 0 (docJson d) ++ [] := by
    unfold serialize serializeJson
    rw [List.append_nil]
  rw [hf]
  conv_lhs => rw [htext]
  rw [jparseF_doc fuel0 d [] hd]
  rfl

/-! ## The claims -/

/-- C8: serialization is idempotent over the parse/serialize cycle: for
every input file that parse_dat accepts, serializing the parsed
document with json.dumps(payload, indent=2), reading that text back as
a JSON value (the canonical interchange format, not the .dat parser)
recovers exactly the payload value of the parsed document, and
serializing the value read back produces text identical to the first
serialization. -/
theorem c8_serialize_roundtrip (fname : Str) (lines : List Str) (d : Doc)
    (hparse : parseDat fname lines = .ok d) :
    jloads (serialize d) = some (docJson d)
    ∧ ∀ v, jloads (serialize d) = some v → serializeJson v = serialize d := by
  have hcanon : docCanon d = true := parseDat_canon fname lines d hparse
  have h1 := jloads_serialize d hcanon
  refine ⟨h1, ?_⟩
  intro v hv
  rw [h1] at hv
  injection hv with hv
  rw [← hv]
  rfl

theorem c8_witness :
    jloads (serialize ⟨[], [(("A").toList, PVal.num (PyFloat.finite false 1 0))]⟩)
        = some (docJson ⟨[], [(("A").toList, PVal.num (PyFloat.finite false 1 0))]⟩)
    ∧ ∀ v, jloads (serialize ⟨[], [(("A").toList, PVal.num (PyFloat.finite false 1 0))]⟩)
          = some v
        → serializeJson v
            = serialize ⟨[], [(("A").toList, PVal.num (PyFloat.finite false 1 0))]⟩ :=
  c8_serialize_roundtrip ("w.dat").toList [("param A=1;").toList]
    ⟨[], [(("A").toList, PVal.num (PyFloat.finite false 1 0))]⟩ (by rfl)


/-- C1: in a 2D table statement, a data row whose value-token count after
truncation to the declared column count differs from that count is
silently dropped (the row fold continues on the remaining rows with the
table unchanged), while a well-formed sibling row is kept; in the
concrete example with header param DemandaPPA: C1 C2 := and data rows
H01 10 20, H02 5 and H03 7 8 ; the parse succeeds and maps DemandaPPA to
exactly the H01 and H03 entries, with H02 absent and no error raised. -/
theorem c1_2d_row_drop_keep (cols : List Str) (acc : List (Str × List (Str × PyFloat)))
    (row : Str) (vs ws : List Str) (fs : List PyFloat) (dss : List (List Str))
    (hbad : (vs.take cols.length).length ≠ cols.length)
    (hgood : (ws.take cols.length).length = cols.length)
    (hfs : floatsOf (ws.take cols.length) = .ok fs) :
    spec2DAux cols acc ((row :: vs) :: dss) = spec2DAux cols acc dss
    ∧ spec2DAux cols acc ((row :: ws) :: dss)
        = spec2DAux cols (upsert acc row (rowDict cols fs)) dss
    ∧ parseDat ("x.dat").toList
        [("param DemandaPPA: C1 C2 :=").toList, ("H01 10 20").toList,
          ("H02 5").toList, ("H03 7 8 ;").toList]
      = .ok ⟨[], [(("DemandaPPA").toList, PVal.map2
          [(("H01").toList,
            [(("C1").toList, .finite false 1 1), (("C2").toList, .finite false 2 1)]),
            (("H03").toList,
            [(("C1").toList, .finite false 7 0), (("C2").toList, .finite false 8 0)])])]⟩ :=
  ⟨spec2DAux_drop cols acc row vs dss hbad,
   spec2DAux_keep cols acc row ws fs dss hgood hfs,
   by rfl⟩

theorem c1_witness :
    spec2DAux [("C1").toList, ("C2").toList] []
        ((("H02").toList :: [("5").toList]) :: [])
      = spec2DAux [("C1").toList, ("C2").toList] [] []
    ∧ spec2DAux [("C1").toList, ("C2").toList] []
        ((("H02").toList :: [("7").toList, ("8").toList]) :: [])
      = spec2DAux [("C1").toList, ("C2").toList]
          (upsert [] ("H02").toList (rowDict [("C1").toList, ("C2").toList]
            [PyFloat.finite false 7 0, PyFloat.finite false 8 0])) []
    ∧ parseDat ("x.dat").toList
        [("param DemandaPPA: C1 C2 :=").toList, ("H01 10 20").toList,
          ("H02 5").toList, ("H03 7 8 ;").toList]
      = .ok ⟨[], [(("DemandaPPA").toList, PVal.map2
          [(("H01").toList,
            [(("C1").toList, .finite false 1 1), (("C2").toList, .finite false 2 1)]),
            (("H03").toList,
            [(("C1").toList, .finite false 7 0), (("C2").toList, .finite false 8 0)])])]⟩ :=
  c1_2d_row_drop_keep [("C1").toList, ("C2").toList] [] ("H02").toList
    [("5").toList] [("7").toList, ("8").toList]
    [PyFloat.finite false 7 0, PyFloat.finite false 8 0] []
    (by decide) (by decide) (by rfl)

/-- C2 (amended): every 1D param statement is parsed line by line: each
data line contributes at most one (key, value) pair taken from its first
two tokens — any further tokens on that line are ignored rather than
consumed as additional pairs, so the first physical line of the
statement contributes nothing — a line with fewer than two tokens
contributes nothing and raises no error, the value token is parsed as
floating point, and the resulting mapping is stored under the statement
name. -/
theorem c2_1d_per_line (fname : Str) (f : Nat) (doc : Doc) (p : Str)
    (dss : List (List Str)) (rest : List Str)
    (acc : List (Str × PyFloat)) (k v : Str) (more : List Str) (fl : PyFloat)
    (dss2 : List (List Str))
    (hp : plainTok p = true) (hpc : ∀ c ∈ p, c ≠ ':')
    (hdss : ∀ ds ∈ dss, ∀ t ∈ ds, plainTok t = true)
    (hfl : pyFloat v = some fl) :
    (parseLoopF fname (f + 1) doc (lines1D p dss ++ rest)
      = match spec1DAux [] dss with
        | .ok mp =>
            parseLoopF fname f { doc with params := upsert doc.params p (.map1 mp) } rest
        | .error e => .error e)
    ∧ spec1DAux acc ((k :: v :: more) :: dss2) = spec1DAux (upsert acc k fl) dss2
    ∧ spec1DAux acc ([] :: dss2) = spec1DAux acc dss2
    ∧ spec1DAux acc ([k] :: dss2) = spec1DAux acc dss2 :=
  ⟨parseLoop_lines1D fname f doc p dss rest hp hpc hdss,
   spec1DAux_pair acc k v more dss2 fl hfl,
   spec1DAux_nil acc dss2,
   spec1DAux_single acc k dss2⟩

theorem c2_counterexample :
    parseDat ("f.dat").toList [("param P := k1 1 k2 2 ;").toList]
        = .ok ⟨[], [(("P").toList, PVal.map1 [])]⟩
    ∧ parseDat ("f.dat").toList
        [("param P :=").toList, ("k1 1 k2 2").toList, (";").toList]
        = .ok ⟨[], [(("P").toList,
            PVal.map1 [(("k1").toList, PyFloat.finite false 1 0)])]⟩
    ∧ alookup [(("k1").toList, PyFloat.finite false 1 0)] ("k2").toList = none :=
  ⟨rfl, rfl, rfl⟩

theorem c2_witness :
    (parseLoopF ("f").toList 1 ⟨[], []⟩
        (lines1D ("P").toList [[("k1").toList, ("1").toList]] ++ [])
      = match spec1DAux [] [[("k1").toList, ("1").toList]] with
        | .ok mp =>
            parseLoopF ("f").toList 0
              { (⟨[], []⟩ : Doc) with params := upsert [] ("P").toList (.map1 mp) } []
        | .error e => .error e)
    ∧ spec1DAux [] ((("a").toList :: ("2").toList :: [("x").toList]) :: [])
        = spec1DAux (upsert [] ("a").toList (PyFloat.finite false 2 0)) []
    ∧ spec1DAux [] ([] :: []) = spec1DAux [] []
    ∧ spec1DAux [] ([("a").toList] :: []) = spec1DAux [] [] :=
  c2_1d_per_line ("f").toList 0 ⟨[], []⟩ ("P").toList
    [[("k1").toList, ("1").toList]] [] [] ("a").toList ("2").toList
    [("x").toList] (PyFloat.finite false 2 0) []
    (by decide) (by decide) (by decide) (by rfl)

/-- C3: a set statement whose block contains no := token — whether the
statement sits on one physical line or spans several — makes parsing
fail with the malformed-set error; the message contains both the file
name and the joined block text, and no document is returned. -/
theorem c3_malformed_set (fname : Str) (f : Nat) (doc : Doc) (c0 : List Str)
    (mids : List (List Str)) (cl : List Str) (rest : List Str)
    (hc0 : ∀ e ∈ c0, plainTok e = true) (hcne : c0 ≠ [])
    (hmids : ∀ g ∈ mids, ∀ e ∈ g, plainTok e = true)
    (hcl : ∀ e ∈ cl, plainTok e = true) :
    (parseLoopF fname (f + 1) doc (setLineNA c0 :: rest)
        = .error (malformedSetMsg fname (setLineNA c0))
      ∧ strContains fname (malformedSetMsg fname (setLineNA c0)) = true
      ∧ strContains (setLineNA c0) (malformedSetMsg fname (setLineNA c0)) = true
      ∧ ∀ d, parseLoopF fname (f + 1) doc (setLineNA c0 :: rest) ≠ .ok d)
    ∧ (∃ j, parseLoopF fname (f + 1) doc (setLinesNA c0 mids cl ++ rest)
          = .error (malformedSetMsg fname j)
        ∧ strContains fname (malformedSetMsg fname j) = true
        ∧ strContains j (malformedSetMsg fname j) = true)
    ∧ ∀ d, parseLoopF fname (f + 1) doc (setLinesNA c0 mids cl ++ rest) ≠ .ok d := by
  refine ⟨⟨parseLoop_setLineNA fname f doc c0 rest hc0,
      malformedSetMsg_has_fname fname (setLineNA c0),
      malformedSetMsg_has_joined fname (setLineNA c0), ?_⟩,
    ⟨joinSp (((setTok3 :: c0) :: (mids ++ [cl ++ [semiTok]])).map joinSp),
      parseLoop_setLinesNA fname f doc c0 mids cl rest hc0 hcne hmids hcl,
      malformedSetMsg_has_fname fname _,
      malformedSetMsg_has_joined fname _⟩, ?_⟩
  · intro d hd
    rw [parseLoop_setLineNA fname f doc c0 rest hc0] at hd
    cases hd
  · intro d hd
    rw [parseLoop_setLinesNA fname f doc c0 mids cl rest hc0 hcne hmids hcl] at hd
    cases hd

theorem c3_witness :
    parseLoopF ("data.dat").toList 1 ⟨[], []⟩
        [setLineNA [("BAD").toList, ("H1").toList, ("H2").toList]]
      = .error (malformedSetMsg ("data.dat").toList
          (setLineNA [("BAD").toList, ("H1").toList, ("H2").toList])) :=
  (c3_malformed_set ("data.dat").toList 0 ⟨[], []⟩
      [("BAD").toList, ("H1").toList, ("H2").toList] [] [("X").toList] []
      (by decide) (by decide) (by decide) (by decide)).1.1

/-- C4: a single-line scalar statement param NAME = VALUE ; never raises:
it stores under NAME the floating-point value of the stripped right-hand
side when the strict float parse succeeds, and otherwise the stripped
right-hand-side text itself; in particular param HedgeRate=0.8; yields
the float 0.8 under HedgeRate. -/
theorem c4_scalar_param (fname : Str) (f : Nat) (doc : Doc) (x w1 w2 v : Str)
    (rest : List Str)
    (hx : x ≠ [])
    (hxhead : ∀ c, x.head? = some c → isIdentHead c = true)
    (hxword : ∀ c ∈ x, isWordC c = true)
    (hw1 : w1 ≠ []) (hw1ws : ∀ c ∈ w1, isWsC c = true)
    (hw2ws : ∀ c ∈ w2, isWsC c = true)
    (hv : v ≠ []) (hvsemi : ∀ c ∈ v, c ≠ ';') (hvhash : ∀ c ∈ v, c ≠ '#') :
    parseLoopF fname (f + 1) doc (scalarLine x w1 w2 v :: rest)
      = parseLoopF fname f
          { doc with params := upsert doc.params x (pvalOf (pyStrip v)) } rest
    ∧ pvalOf (pyStrip v)
        = (match pyFloat (pyStrip v) with
           | some fl => PVal.num fl
           | none => PVal.strv (pyStrip v))
    ∧ parseDat ("x.dat").toList [("param HedgeRate=0.8;").toList]
        = .ok ⟨[], [(("HedgeRate").toList, PVal.num (PyFloat.finite false 8 (-1)))]⟩ :=
  ⟨parseLoop_scalarLine fname f doc x w1 w2 v rest hx hxhead hxword hw1 hw1ws
      hw2ws hv hvsemi hvhash,
   rfl, rfl⟩

theorem c4_witness :
    parseLoopF ("x.dat").toList 1 ⟨[], []⟩
        [scalarLine ("HedgeRate").toList [' '] [] ("0.8").toList]
      = parseLoopF ("x.dat").toList 0
          { sets := [],
            params := upsert [] ("HedgeRate").toList (pvalOf (pyStrip ("0.8").toList)) }
          [] :=
  (c4_scalar_param ("x.dat").toList 0 ⟨[], []⟩ ("HedgeRate").toList [' '] []
      ("0.8").toList []
      (by decide) (fun c hc => by injection hc with hc; rw [← hc]; decide)
      (by decide) (by decide) (by decide) (by decide) (by decide) (by decide)
      (by decide)).1

/-- C5: a set statement set S := e1 ... ek ; yields sets[S] equal to
exactly the element tokens strictly between the := token and the ;
token, in input order and with each spelling preserved verbatim (the
stored value is the token list itself, with no numeric coercion), and
this holds independently of how the statement is broken across physical
lines. -/
theorem c5_set_statement (fname : Str) (f : Nat) (doc : Doc) (s0 : Str)
    (es c0 : List Str) (mids : List (List Str)) (cl : List Str) (rest : List Str)
    (hS : plainTok s0 = true) (hes : ∀ e ∈ es, plainTok e = true)
    (hc0 : ∀ e ∈ c0, plainTok e = true)
    (hmids : ∀ g ∈ mids, ∀ e ∈ g, plainTok e = true)
    (hcl : ∀ e ∈ cl, plainTok e = true) :
    (parseLoopF fname (f + 1) doc (setLine s0 es :: rest)
        = parseLoopF fname f { doc with sets := upsert doc.sets s0 es } rest)
    ∧ (parseLoopF fname (f + 1) doc (setLinesOf s0 c0 mids cl ++ rest)
        = parseLoopF fname f
            { doc with sets := upsert doc.sets s0 (c0 ++ mids.flatten ++ cl) } rest)
    ∧ alookup (upsert doc.sets s0 es) s0 = some es :=
  ⟨parseLoop_setLine fname f doc s0 es rest hS hes,
   parseLoop_setLinesOf fname f doc s0 c0 mids cl rest hS hc0 hmids hcl,
   alookup_upsert_self doc.sets s0 es⟩

theorem c5_witness :
    parseLoopF ("x").toList 1 ⟨[], []⟩
        [setLine ("HORAS").toList [("H01").toList, ("H02").toList]]
      = parseLoopF ("x").toList 0
          { sets := upsert [] ("HORAS").toList [("H01").toList, ("H02").toList],
            params := [] } [] :=
  (c5_set_statement ("x").toList 0 ⟨[], []⟩ ("HORAS").toList
      [("H01").toList, ("H02").toList] [("H01").toList] [[("H02").toList]]
      [("H03").toList] []
      (by decide) (by decide) (by decide) (by decide) (by decide)).1

/-- C6 (amended): a value token of a 1D or 2D param block that cannot be
parsed as floating point is fatal for the whole file: the statement
fold stops with the float conversion error, parsing propagates exactly
that error and returns no document; the message carries the offending
token text but, unlike the claim, not the file name. -/
theorem c6_float_fatal (fname : Str) (f : Nat) (doc : Doc) (p : Str) (cols : List Str)
    (dss dss2 : List (List Str)) (rest : List Str) (e1 e2 : Str)
    (hp : plainTok p = true) (hpc : ∀ c ∈ p, c ≠ ':')
    (hdss : ∀ ds ∈ dss, ∀ t ∈ ds, plainTok t = true)
    (hcols : ∀ t ∈ cols, plainTok t = true)
    (hcolsc : ∀ t ∈ cols, ∀ c ∈ t, c ≠ ':')
    (hcne : cols ≠ [])
    (hdss2 : ∀ ds ∈ dss2, ∀ t ∈ ds, plainTok t = true)
    (h1 : spec1DAux [] dss = .error e1)
    (h2 : spec2DAux cols [] dss2 = .error e2) :
    (parseLoopF fname (f + 1) doc (lines1D p dss ++ rest) = .error e1
      ∧ (∃ v, pyFloat v = none ∧ e1 = floatErrMsg v ∧ strContains v e1 = true)
      ∧ ∀ d, parseLoopF fname (f + 1) doc (lines1D p dss ++ rest) ≠ .ok d)
    ∧ (parseLoopF fname (f + 1) doc (lines2D p cols dss2 ++ rest) = .error e2
      ∧ (∃ v, pyFloat v = none ∧ e2 = floatErrMsg v ∧ strContains v e2 = true)
      ∧ ∀ d, parseLoopF fname (f + 1) doc (lines2D p cols dss2 ++ rest) ≠ .ok d) := by
  have k1 : parseLoopF fname (f + 1) doc (lines1D p dss ++ rest) = .error e1 := by
    rw [parseLoop_lines1D fname f doc p dss rest hp hpc hdss, h1]
  have k2 : parseLoopF fname (f + 1) doc (lines2D p cols dss2 ++ rest) = .error e2 := by
    rw [parseLoop_lines2D fname f doc p cols dss2 rest hp hpc hcols hcolsc hcne hdss2, h2]
  refine ⟨⟨k1, ?_, ?_⟩, k2, ?_, ?_⟩
  · obtain ⟨v, hv, he⟩ := spec1DAux_error dss [] e1 h1
    exact ⟨v, hv, he, by rw [he]; exact floatErrMsg_contains v⟩
  · intro d hd
    rw [k1] at hd
    cases hd
  · obtain ⟨v, hv, he⟩ := spec2DAux_error cols dss2 [] e2 h2
    exact ⟨v, hv, he, by rw [he]; exact floatErrMsg_contains v⟩
  · intro d hd
    rw [k2] at hd
    cases hd

theorem c6_counterexample :
    parseDat ("data.dat").toList [("param P :=").toList, ("x abc ;").toList]
        = .error (floatErrMsg ("abc").toList)
    ∧ strContains ("data.dat").toList (floatErrMsg ("abc").toList) = false :=
  ⟨rfl, by decide⟩

theorem c6_witness :
    parseLoopF ("g").toList 1 ⟨[], []⟩
        (lines1D ("P").toList [[("k").toList, ("abc").toList]] ++ [])
      = .error (floatErrMsg ("abc").toList) :=
  (c6_float_fatal ("g").toList 0 ⟨[], []⟩ ("P").toList [("C1").toList]
      [[("k").toList, ("abc").toList]] [[("r").toList, ("zz").toList]] []
      (floatErrMsg ("abc").toList) (floatErrMsg ("zz").toList)
      (by decide) (by decide) (by decide) (by decide) (by decide) (by decide)
      (by decide) (by rfl) (by rfl)).1.1

/-- C7: within one 1D param statement, a key that occurs several times
ends up mapped to the floating-point value of its last occurrence in
file order (last write wins), and the statement parses without error. -/
theorem c7_last_write_wins (fname : Str) (f : Nat) (doc : Doc) (p key v : Str)
    (fl : PyFloat) (m : List (Str × PyFloat)) (dss : List (List Str)) (rest : List Str)
    (hp : plainTok p = true) (hpc : ∀ c ∈ p, c ≠ ':')
    (hdss : ∀ ds ∈ dss, ∀ t ∈ ds, plainTok t = true)
    (hok : spec1DAux [] dss = .ok m)
    (hlv : lastVal dss key = some v)
    (hfl : pyFloat v = some fl) :
    parseLoopF fname (f + 1) doc (lines1D p dss ++ rest)
      = parseLoopF fname f { doc with params := upsert doc.params p (.map1 m) } rest
    ∧ alookup m key = some fl := by
  constructor
  · rw [parseLoop_lines1D fname f doc p dss rest hp hpc hdss, hok]
  · exact spec1DAux_lookup_last dss [] m key v fl hok hlv hfl

theorem c7_witness :
    parseLoopF ("w").toList 1 ⟨[], []⟩
        (lines1D ("P").toList
          [[("k").toList, ("1").toList], [("k").toList, ("2").toList]] ++ [])
      = parseLoopF ("w").toList 0
          { sets := [],
            params := upsert [] ("P").toList
              (PVal.map1 [(("k").toList, PyFloat.finite false 2 0)]) } []
    ∧ alookup [(("k").toList, PyFloat.finite false 2 0)] ("k").toList
        = some (PyFloat.finite false 2 0) :=
  c7_last_write_wins ("w").toList 0 ⟨[], []⟩ ("P").toList ("k").toList ("2").toList
    (PyFloat.finite false 2 0) [(("k").toList, PyFloat.finite false 2 0)]
    [[("k").toList, ("1").toList], [("k").toList, ("2").toList]] []
    (by decide) (by decide) (by decide) (by rfl) (by rfl) (by rfl)

/-- C9 (amended): when the scanner reaches, as a statement start, a line
that begins with the word set and neither it nor any later line contains
a semicolon, the set branch cannot locate the terminator token and
parsing ends in an error with no document — even though the block
accumulation loop itself stops quietly at end of input. -/
theorem c9_set_unterminated (fname : Str) (f : Nat) (doc : Doc) (l : Str)
    (rest : List Str)
    (hpre : setKw.isPrefixOf (stripComments l) = true)
    (hl : ∀ c ∈ l, c ≠ ';') (hrest : ∀ r ∈ rest, ∀ c ∈ r, c ≠ ';') :
    (∃ e, parseLoopF fname (f + 1) doc (l :: rest) = .error e)
    ∧ ∀ d, parseLoopF fname (f + 1) doc (l :: rest) ≠ .ok d := by
  obtain ⟨e, he⟩ := parseLoop_set_noSemi fname f doc l rest hpre hl hrest
  refine ⟨⟨e, he⟩, fun d hd => ?_⟩
  rw [he] at hd
  cases hd

theorem c9_counterexample :
    parseDat ("f.dat").toList [("param P :=").toList, ("set 5 9").toList]
        = .ok ⟨[], [(("P").toList,
            PVal.map1 [(("set").toList, PyFloat.finite false 5 0)])]⟩
    ∧ (("set ").toList).isPrefixOf (("set 5 9").toList) = true
    ∧ (("param P :=").toList).contains ';' = false
    ∧ (("set 5 9").toList).contains ';' = false :=
  ⟨rfl, by decide, by decide, by decide⟩

theorem c9_witness :
    (∃ e, parseLoopF ("u.dat").toList 1 ⟨[], []⟩ [("set BAD A B").toList] = .error e)
    ∧ ∀ d, parseLoopF ("u.dat").toList 1 ⟨[], []⟩ [("set BAD A B").toList] ≠ .ok d :=
  c9_set_unterminated ("u.dat").toList 0 ⟨[], []⟩ ("set BAD A B").toList []
    (by decide) (by decide) (by decide)

/-- C10: two set statements naming the same set, or two scalar param
statements naming the same parameter, leave only the later value in the
corresponding top-level mapping: the second statement silently replaces
the first in place, the lookup then yields the later value, and no error
is produced. -/
theorem c10_duplicate_shadow (fname : Str) (f : Nat) (doc : Doc) (s0 x w1 w2 v1 v2 : Str)
    (es1 es2 : List Str) (rest : List Str)
    (hS : plainTok s0 = true)
    (hes1 : ∀ e ∈ es1, plainTok e = true) (hes2 : ∀ e ∈ es2, plainTok e = true)
    (hx : x ≠ [])
    (hxhead : ∀ c, x.head? = some c → isIdentHead c = true)
    (hxword : ∀ c ∈ x, isWordC c = true)
    (hw1 : w1 ≠ []) (hw1ws : ∀ c ∈ w1, isWsC c = true)
    (hw2ws : ∀ c ∈ w2, isWsC c = true)
    (hv1 : v1 ≠ []) (hv1semi : ∀ c ∈ v1, c ≠ ';') (hv1hash : ∀ c ∈ v1, c ≠ '#')
    (hv2 : v2 ≠ []) (hv2semi : ∀ c ∈ v2, c ≠ ';') (hv2hash : ∀ c ∈ v2, c ≠ '#') :
    (parseLoopF fname (f + 2) doc (setLine s0 es1 :: setLine s0 es2 :: rest)
        = parseLoopF fname f { doc with sets := upsert doc.sets s0 es2 } rest
      ∧ alookup (upsert doc.sets s0 es2) s0 = some es2)
    ∧ (parseLoopF fname (f + 2) doc
          (scalarLine x w1 w2 v1 :: scalarLine x w1 w2 v2 :: rest)
        = parseLoopF fname f
            { doc with params := upsert doc.params x (pvalOf (pyStrip v2)) } rest
      ∧ alookup (upsert doc.params x (pvalOf (pyStrip v2))) x
          = some (pvalOf (pyStrip v2))) := by
  refine ⟨⟨?_, alookup_upsert_self doc.sets s0 es2⟩,
    ⟨?_, alookup_upsert_self doc.params x _⟩⟩
  · rw [show f + 2 = f + 1 + 1 from rfl,
      parseLoop_setLine fname (f + 1) doc s0 es1 (setLine s0 es2 :: rest) hS hes1,
      parseLoop_setLine fname f _ s0 es2 rest hS hes2]
    simp only [upsert_upsert]
  · rw [show f + 2 = f + 1 + 1 from rfl,
      parseLoop_scalarLine fname (f + 1) doc x w1 w2 v1 (scalarLine x w1 w2 v2 :: rest)
        hx hxhead hxword hw1 hw1ws hw2ws hv1 hv1semi hv1hash,
      parseLoop_scalarLine fname f _ x w1 w2 v2 rest
        hx hxhead hxword hw1 hw1ws hw2ws hv2 hv2semi hv2hash]
    simp only [upsert_upsert]

theorem c10_witness :
    parseLoopF ("d").toList 2 ⟨[], []⟩
        [setLine ("S").toList [("a").toList], setLine ("S").toList [("b").toList]]
      = parseLoopF ("d").toList 0
          { sets := upsert [] ("S").toList [("b").toList], params := [] } []
    ∧ alookup (upsert [] ("S").toList [("b").toList]) ("S").toList
        = some [("b").toList] :=
  (c10_duplicate_shadow ("d").toList 0 ⟨[], []⟩ ("S").toList ("X").toList [' '] []
      ("1").toList ("2").toList [("a").toList] [("b").toList] []
      (by decide) (by decide) (by decide) (by decide)
      (fun c hc => by injection hc with hc; rw [← hc]; decide)
      (by decide) (by decide) (by decide) (by decide) (by decide) (by decide)
      (by decide) (by decide) (by decide) (by decide)).1

end PortOpt
